import Mathlib

/-!
# Two-sided triangular solve, variant 2 (upper), and companions

A shallow embedding of

* `elem::internal::TwoSidedTrsmUVar2` (sequential `Matrix<F>` form and distributed
  `DistMatrix<F>` form, read on the logical global matrix),
* `elem::FrobeniusCondition`,
* the serialization detection traits of `madness/world/type_traits.h`.

A matrix is a height, a width and an entry function.  A view is a copy of a window of its
parent; a routine that mutates a view in place is a function returning the new contents of
that view, and the driver writes the contents back into the parent with `setBlock`.
Scalars of the two-sided solve live in a field `F` with a conjugation (`star`), in exact
arithmetic.  `FrobeniusCondition` is over any scalar type and any type of norms.
-/

namespace elem

/-! ## Enumerations -/

/-- Source enumeration `UnitOrNonUnit`. -/
inductive UnitOrNonUnit where
  | NON_UNIT
  | UNIT
  deriving DecidableEq, Repr

/-- Source enumeration `Orientation`. -/
inductive Orientation where
  | NORMAL
  | TRANSPOSE
  | ADJOINT
  deriving DecidableEq, Repr

/-- Source enumeration `LeftOrRight`. -/
inductive LeftOrRight where
  | LEFT
  | RIGHT
  deriving DecidableEq, Repr

/-- Source enumeration `UpperOrLower`. -/
inductive UpperOrLower where
  | LOWER
  | UPPER
  deriving DecidableEq, Repr

open UnitOrNonUnit Orientation LeftOrRight UpperOrLower

/-! ## Matrices and views -/

/-- Dense matrix `Matrix<F>`: `Height()`, `Width()` and the entries. Only the entries with
row below `height` and column below `width` belong to the matrix. -/
structure Mat (F : Type) where
  height : Nat
  width : Nat
  entry : Nat → Nat → F

/-- Outcome of a call that mutates an argument of type `α`: a normal return with the final
content of the argument, a thrown `LogicError` with the content the argument has when the
exception leaves the call, or a loop that has not finished within the passes allowed. -/
inductive Outcome (α : Type) where
  | returned (a : α)
  | logicError (msg : String) (a : α)
  | running

section Field

variable {F : Type} [Field F] [StarRing F]

/-- Sum of `f 0, ..., f (n-1)`. -/
def sumTo : Nat → (Nat → F) → F
  | 0, _ => 0
  | n + 1, f => sumTo n f + f n

/-- Bounds-checked read: an index outside the matrix reads as zero. -/
def Mat.get (M : Mat F) (i j : Nat) : F :=
  if i < M.height ∧ j < M.width then M.entry i j else 0

/-- In-place overwrite of every entry of `C` by `f`; the shape of `C` is kept. -/
def Mat.update (C : Mat F) (f : Nat → Nat → F) : Mat F :=
  { height := C.height
    width := C.width
    entry := fun i j => if i < C.height ∧ j < C.width then f i j else C.entry i j }

/-- Modelled from the spec: `View( B, A, i, j, height, width )`, the non-owning window of
`A` with top-left corner `(i, j)` (section 3, "views"); here a copy of that window. -/
def View (A : Mat F) (i j height width : Nat) : Mat F :=
  { height := height
    width := width
    entry := fun a c => if a < height ∧ c < width then A.get (i + a) (j + c) else 0 }

/-- Write-back of the contents `B` of the view whose top-left corner is `(i, j)`. -/
def Mat.setBlock (A : Mat F) (i j : Nat) (B : Mat F) : Mat F :=
  { height := A.height
    width := A.width
    entry := fun a c =>
      if i ≤ a ∧ a < i + B.height ∧ j ≤ c ∧ c < j + B.width then B.entry (a - i) (c - j)
      else A.entry a c }

/-- Operand `op(M)` selected by an orientation. -/
def Mat.orient (o : Orientation) (M : Mat F) : Mat F :=
  match o with
  | NORMAL => M
  | TRANSPOSE => { height := M.width, width := M.height, entry := fun i j => M.get j i }
  | ADJOINT => { height := M.width, width := M.height, entry := fun i j => star (M.get j i) }

/-- Entry `(i, j)` of the Hermitian matrix stored in one triangle of `A`. -/
def hermEntry (uplo : UpperOrLower) (A : Mat F) (i j : Nat) : F :=
  match uplo with
  | UPPER => if i ≤ j then A.get i j else star (A.get j i)
  | LOWER => if j ≤ i then A.get i j else star (A.get j i)

/-- Hermitian matrix stored in one triangle of `A`, as a full matrix. -/
def hermitianOf (uplo : UpperOrLower) (A : Mat F) : Mat F :=
  { height := A.height, width := A.width, entry := hermEntry uplo A }

/-! ## Leaf routines (section 6 of the specification) -/

/-- Modelled from the spec: `Zeros( M, h, w )` ("ZeroFill"), `M` becomes the `h x w` zero
matrix. -/
def Zeros (h w : Nat) : Mat F :=
  { height := h, width := w, entry := fun _ _ => 0 }

/-- Modelled from the spec: `Axpy( alpha, X, Y )` ("ScaledAccumulate"), `Y ← αX + Y`. -/
def Axpy (alpha : F) (X Y : Mat F) : Mat F :=
  Y.update fun i j => alpha * X.get i j + Y.entry i j

/-- Modelled from the spec: `Gemm( opA, opB, alpha, A, B, beta, C )`
("GeneralMatrixProduct"), `C ← α op(A) op(B) + β C`. `C` is mutated in place and keeps its
shape; the inner dimension is the width of `op(A)`. -/
def Gemm (oA oB : Orientation) (alpha : F) (A B : Mat F) (beta : F) (C : Mat F) : Mat F :=
  C.update fun i j =>
    alpha * sumTo (A.orient oA).width (fun l => (A.orient oA).get i l * (B.orient oB).get l j)
      + beta * C.entry i j

/-- Modelled from the spec: `Hemm( side, uplo, alpha, A, B, beta, C )`
("HermitianMatrixProduct"), `C ← α A B + β C` (`LEFT`) or `C ← α B A + β C` (`RIGHT`) with
`A` Hermitian and only its `uplo` triangle read. -/
def Hemm (side : LeftOrRight) (uplo : UpperOrLower) (alpha : F) (A B : Mat F) (beta : F)
    (C : Mat F) : Mat F :=
  match side with
  | LEFT => C.update fun i j =>
      alpha * sumTo A.height (fun l => hermEntry uplo A i l * B.get l j) + beta * C.entry i j
  | RIGHT => C.update fun i j =>
      alpha * sumTo A.height (fun l => B.get i l * hermEntry uplo A l j) + beta * C.entry i j

/-- Modelled from the spec: `Her2k( uplo, orientation, alpha, A, B, beta, C )`
("HermitianRank2Update"), `C ← α op(A) op(B)ᴴ + ᾱ op(B) op(A)ᴴ + β C` restricted to the
`uplo` triangle of `C`; with `ADJOINT` this is `C ← α Aᴴ B + ᾱ Bᴴ A + β C`. -/
def Her2k (uplo : UpperOrLower) (o : Orientation) (alpha : F) (A B : Mat F) (beta : F)
    (C : Mat F) : Mat F :=
  let inTriangle : Nat → Nat → Bool := fun i j =>
    match uplo with
    | UPPER => decide (i ≤ j)
    | LOWER => decide (j ≤ i)
  C.update fun i j =>
    if inTriangle i j then
      alpha * sumTo (A.orient o).width
          (fun l => (A.orient o).get i l * star ((B.orient o).get j l))
        + star alpha * sumTo (A.orient o).width
          (fun l => (B.orient o).get i l * star ((A.orient o).get j l))
        + beta * C.entry i j
    else C.entry i j

/-- Modelled from the spec: `MakeTriangular( uplo, M )` ("MaskTriangle"), the entries
outside the `uplo` triangle are set to zero. -/
def MakeTriangular (uplo : UpperOrLower) (M : Mat F) : Mat F :=
  M.update fun i j =>
    match uplo with
    | UPPER => if i ≤ j then M.entry i j else 0
    | LOWER => if j ≤ i then M.entry i j else 0

/-- Modelled from the spec: `Adjoint( A, B )`, `B` becomes the conjugate transpose of `A`. -/
def Adjoint (A : Mat F) : Mat F :=
  { height := A.width, width := A.height, entry := fun i j => star (A.get j i) }

/-- Forward substitution table for a lower-triangular system with off-diagonal entries
`L a p` (`p < a`) and diagonal `d a`: `solveLowerUpTo L d c m a` is the `a`-th unknown for
`a < m`, and `0` for `a ≥ m`. -/
def solveLowerUpTo (L : Nat → Nat → F) (d : Nat → F) (c : Nat → F) : Nat → Nat → F
  | 0 => fun _ => 0
  | m + 1 => fun a =>
      if a = m then (c m - sumTo m (fun p => L m p * solveLowerUpTo L d c m p)) / d m
      else solveLowerUpTo L d c m a

/-- Solution of the `m x m` triangular system with matrix `M` and right-hand side `c`:
forward substitution if `M` is lower triangular, back substitution (forward substitution
on the reversed indices) if it is upper triangular. -/
def triSolve (m : Nat) (lower : Bool) (M : Nat → Nat → F) (c : Nat → F) : Nat → F :=
  if lower then
    solveLowerUpTo M (fun a => M a a) c m
  else fun a =>
    solveLowerUpTo (fun x y => M (m - 1 - x) (m - 1 - y)) (fun x => M (m - 1 - x) (m - 1 - x))
      (fun x => c (m - 1 - x)) m (m - 1 - a)

/-- Entry `(a, p)` of the triangular operand of a triangular solve: only the `uplo` triangle
of `T` is read, and with `UNIT` the diagonal is taken to be one and not read. -/
def triEntry (uplo : UpperOrLower) (diag : UnitOrNonUnit) (T : Mat F) (a p : Nat) : F :=
  if a = p then
    match diag with
    | UNIT => 1
    | NON_UNIT => T.get a a
  else
    match uplo with
    | UPPER => if a < p then T.get a p else 0
    | LOWER => if p < a then T.get a p else 0

/-- Entry `(a, p)` of `op(T)` for the triangular operand of a triangular solve. -/
def triOpEntry (uplo : UpperOrLower) (o : Orientation) (diag : UnitOrNonUnit) (T : Mat F)
    (a p : Nat) : F :=
  match o with
  | NORMAL => triEntry uplo diag T a p
  | TRANSPOSE => triEntry uplo diag T p a
  | ADJOINT => star (triEntry uplo diag T p a)

/-- Whether `op(T)` is lower triangular. -/
def opIsLower (uplo : UpperOrLower) (o : Orientation) : Bool :=
  match uplo, o with
  | LOWER, NORMAL => true
  | UPPER, NORMAL => false
  | LOWER, _ => false
  | UPPER, _ => true

/-- Modelled from the spec: `Trsm( side, uplo, orientation, diag, alpha, T, B )`
("TriangularSolve"), `B ← α op(T)⁻¹ B` (`LEFT`) or `B ← α B op(T)⁻¹` (`RIGHT`), by
substitution, column by column (`LEFT`) or row by row (`RIGHT`). -/
def Trsm (side : LeftOrRight) (uplo : UpperOrLower) (o : Orientation) (diag : UnitOrNonUnit)
    (alpha : F) (T B : Mat F) : Mat F :=
  match side with
  | LEFT => B.update fun i j =>
      triSolve B.height (opIsLower uplo o) (triOpEntry uplo o diag T)
        (fun a => alpha * B.get a j) i
  | RIGHT => B.update fun i j =>
      triSolve B.width (!(opIsLower uplo o)) (fun a p => triOpEntry uplo o diag T p a)
        (fun a => alpha * B.get i a) j

/-- Modelled from the spec: `TwoSidedTrsmUUnb( diag, A, U )`, the base-case solver of
section 4.4: the upper triangle of `A` is overwritten by that of `U⁻ᴴ A U⁻¹`, where `A` is
the Hermitian matrix stored in its upper triangle; the strictly lower triangle is neither
read nor written. -/
def TwoSidedTrsmUUnb (diag : UnitOrNonUnit) (A U : Mat F) : Mat F :=
  let X := Trsm RIGHT UPPER NORMAL diag 1 U (hermitianOf UPPER A)
  let Y := Trsm LEFT UPPER ADJOINT diag 1 U X
  A.update fun i j => if i ≤ j then Y.entry i j else A.entry i j

/-! ## Partitioning (section 4.1 of the specification) -/

/-- The nine views produced by `RepartitionDownDiagonal`. -/
structure Blocks (F : Type) where
  A00 : Mat F
  A01 : Mat F
  A02 : Mat F
  A10 : Mat F
  A11 : Mat F
  A12 : Mat F
  A20 : Mat F
  A21 : Mat F
  A22 : Mat F

/-- Modelled from the spec: `PartitionDownDiagonal( A, ATL, ATR, ABL, ABR, diagDist )`.
The 2 x 2 partition is determined by the size of the square block `ATL`, which is the
value returned: `diagDist` clamped to the length of the diagonal. -/
def PartitionDownDiagonal (A : Mat F) (diagDist : Nat) : Nat :=
  min diagDist (min A.height A.width)

/-- Modelled from the spec: `RepartitionDownDiagonal` at the cut `cut` (`ATL` is
`cut x cut`): block 11 spans rows and columns `[cut, cut + b)` with
`b = min(block size, remaining extent)`. -/
def RepartitionDownDiagonal (A : Mat F) (cut bsize : Nat) : Blocks F :=
  let b := min bsize (min (A.height - cut) (A.width - cut))
  { A00 := View A 0 0 cut cut
    A01 := View A 0 cut cut b
    A02 := View A 0 (cut + b) cut (A.width - cut - b)
    A10 := View A cut 0 b cut
    A11 := View A cut cut b b
    A12 := View A cut (cut + b) b (A.width - cut - b)
    A20 := View A (cut + b) 0 (A.height - cut - b) cut
    A21 := View A (cut + b) cut (A.height - cut - b) b
    A22 := View A (cut + b) (cut + b) (A.height - cut - b) (A.width - cut - b) }

/-- Modelled from the spec: `SlidePartitionDownDiagonal`, the blocks 00, 01, 10, 11 are
folded into the new `ATL`; the value is the new cut. -/
def SlidePartitionDownDiagonal (cut : Nat) (A11 : Mat F) : Nat :=
  cut + A11.height

/-- Write-back of the three views an iteration mutates (`A01`, `A11`, `A12`) into `A`. -/
def writeBack (A : Mat F) (cut : Nat) (A01 A11 A12 : Mat F) : Mat F :=
  ((A.setBlock 0 cut A01).setBlock cut cut A11).setBlock cut (cut + A11.height) A12

/-! ## Sequential driver, `UVar2.hpp` lines 24-109 -/

/-- One pass through the body of the `while` loop of the sequential
`TwoSidedTrsmUVar2` (lines 58-95), with `ATL` of size `cutA` and `UTL` of size `cutU`. -/
def seqIteration (diag : UnitOrNonUnit) (bsize : Nat) (A U : Mat F) (cutA cutU : Nat) :
    Mat F :=
  -- RepartitionDownDiagonal( ATL, ATR, A00, A01, A02, ... )
  let a := RepartitionDownDiagonal A cutA bsize
  -- LockedRepartitionDownDiagonal( UTL, UTR, U00, U01, U02, ... )
  let u := RepartitionDownDiagonal U cutU bsize
  let A00 := a.A00
  let A01 := a.A01
  let A02 := a.A02
  let A11 := a.A11
  let A12 := a.A12
  let U01 := u.A01
  let U11 := u.A11
  -- Y01 := A00 U01
  let Y01 : Mat F := Zeros A01.height A01.width
  let Y01 := Hemm LEFT UPPER 1 A00 U01 0 Y01
  -- A01 := A01 - 1/2 Y01
  let A01 := Axpy ((-1) / 2) Y01 A01
  -- A11 := A11 - (U01' A01 + A01' U01)
  let A11 := Her2k UPPER ADJOINT (-1) U01 A01 1 A11
  -- A11 := inv(U11)' A11 inv(U11)
  let A11 := TwoSidedTrsmUUnb diag A11 U11
  -- A12 := A12 - A02' U01
  let A12 := Gemm ADJOINT NORMAL (-1) A02 U01 1 A12
  -- A12 := inv(U11)' A12
  let A12 := Trsm LEFT UPPER ADJOINT diag 1 U11 A12
  -- A01 := A01 - 1/2 Y01
  let A01 := Axpy ((-1) / 2) Y01 A01
  -- A01 := A01 inv(U11)
  let A01 := Trsm RIGHT UPPER NORMAL diag 1 U11 A01
  writeBack A cutA A01 A11 A12

/-- The `while( ATL.Height() < A.Height() )` loop of the sequential driver, allowed at most
`fuel` passes; `none` when the loop has not finished by then. -/
def seqLoop (diag : UnitOrNonUnit) (bsize : Nat) (U : Mat F) :
    Nat → Mat F → Nat → Nat → Option (Mat F)
  | 0, A, cutA, _ => if cutA < A.height then none else some A
  | fuel + 1, A, cutA, cutU =>
      if cutA < A.height then
        seqLoop diag bsize U fuel (seqIteration diag bsize A U cutA cutU)
          (SlidePartitionDownDiagonal cutA (RepartitionDownDiagonal A cutA bsize).A11)
          (SlidePartitionDownDiagonal cutU (RepartitionDownDiagonal U cutU bsize).A11)
      else some A

/-- Sequential `TwoSidedTrsmUVar2( diag, A, U )` for `Matrix<F>`. `debug` says whether the
`DEBUG_ONLY` block is compiled in, `bsize` is `Blocksize()`, and `fuel` bounds the number
of passes through the loop. The value is the final content of `A`. -/
def TwoSidedTrsmUVar2 (debug : Bool) (bsize fuel : Nat) (diag : UnitOrNonUnit)
    (A U : Mat F) : Outcome (Mat F) :=
  if debug && decide (A.height ≠ A.width) then
    Outcome.logicError "A must be square" A
  else if debug && decide (U.height ≠ U.width) then
    Outcome.logicError "Triangular matrices must be square" A
  else if debug && decide (A.height ≠ U.height) then
    Outcome.logicError "A and U must be the same size" A
  else
    match seqLoop diag bsize U fuel A (PartitionDownDiagonal A 0)
        (PartitionDownDiagonal U 0) with
    | some R => Outcome.returned R
    | none => Outcome.running

/-! ## Distributed driver on the logical matrix, `UVar2.hpp` lines 113-254

Every `DistMatrix` is read as the global matrix it stores. A redistribution assignment
(`B = A` between two distributions) is the identity on that matrix, and a buffer of
per-process partial sums is read as the sum it holds after the sum-scatter. -/

/-- Modelled from the spec: redistribution assignment `B = A` between two distributions of
one grid, the identity on the logical matrix. -/
def redistribute (A : Mat F) : Mat F := A

/-- Modelled from the spec: `B.AdjointPartialColAllGather( BAdj )`, the all-gather that
produces the adjoint of `B` in the `[STAR,MR]` distribution. -/
def AdjointPartialColAllGather (B : Mat F) : Mat F := Adjoint B

/-- Modelled from the spec: `B.RowSumScatterFrom( A )` ("reduce-scatter"), `B` becomes the
sum of the contributions held in `A`. -/
def RowSumScatterFrom (A : Mat F) : Mat F := A

/-- Modelled from the spec: `B.ColSumScatterFrom( A )` ("reduce-scatter" along the other
grid axis), `B` becomes the sum of the contributions held in `A`. -/
def ColSumScatterFrom (A : Mat F) : Mat F := A

/-- Modelled from the spec: `B.RowSumScatterUpdate( alpha, A )`, `B ← B + α·(sum of the
contributions held in A)`. -/
def RowSumScatterUpdate (alpha : F) (A B : Mat F) : Mat F := Axpy alpha A B

/-- Modelled from the spec: `LocalGemm( opA, opB, alpha, A, B, beta, C )`, the local part
of `C ← α op(A) op(B) + β C`. -/
def LocalGemm (oA oB : Orientation) (alpha : F) (A B : Mat F) (beta : F) (C : Mat F) :
    Mat F :=
  Gemm oA oB alpha A B beta C

/-- Modelled from the spec: `LocalGemm( opA, opB, alpha, A, B, C )`, the form that first
sizes `C` as `op(A) op(B)` and zeroes it: `C := α op(A) op(B)`. -/
def LocalGemmSet (oA oB : Orientation) (alpha : F) (A B : Mat F) : Mat F :=
  Gemm oA oB alpha A B 0 (Zeros (A.orient oA).height (B.orient oB).width)

/-- Modelled from the spec: `LocalTrsm`, the triangular solve on the replicated panel. -/
def LocalTrsm (side : LeftOrRight) (uplo : UpperOrLower) (o : Orientation)
    (diag : UnitOrNonUnit) (alpha : F) (T B : Mat F) : Mat F :=
  Trsm side uplo o diag alpha T B

/-- Modelled from the spec: `TwoSidedTrsmLUnb`-style base case for the lower triangle:
the lower triangle of `A` is overwritten by that of `L⁻¹ A L⁻ᴴ`. -/
def TwoSidedTrsmLUnb (diag : UnitOrNonUnit) (A L : Mat F) : Mat F :=
  let X := Trsm RIGHT LOWER ADJOINT diag 1 L (hermitianOf LOWER A)
  let Y := Trsm LEFT LOWER NORMAL diag 1 L X
  A.update fun i j => if j ≤ i then Y.entry i j else A.entry i j

/-- Modelled from the spec: `LocalTwoSidedTrsm( uplo, diag, A, B )`, the base-case solver
of section 4.4 run redundantly on the replicated panel. -/
def LocalTwoSidedTrsm (uplo : UpperOrLower) (diag : UnitOrNonUnit) (A B : Mat F) : Mat F :=
  match uplo with
  | UPPER => TwoSidedTrsmUUnb diag A B
  | LOWER => TwoSidedTrsmLUnb diag A B

/-- Conjugation that an orientation applies to a scalar: `ADJOINT` conjugates. -/
def orientScalar (o : Orientation) (x : F) : F :=
  match o with
  | ADJOINT => star x
  | _ => x

/-- Modelled from the spec: `LocalSymmetricAccumulateLU( orientation, alpha, A, B[MC,*],
Bᴴ[*,MR], Z[MC,*], Z[MR,*] )`, the fused pass of section 4.3: the direct product with the
stored upper triangle of `A` is accumulated into the first buffer and the conjugate-symmetric
product with its strictly upper part into the second. The value is the pair of buffers. -/
def LocalSymmetricAccumulateLU (o : Orientation) (alpha : F) (A B BAdj ZMC ZMR : Mat F) :
    Mat F × Mat F :=
  (ZMC.update fun i j =>
      ZMC.entry i j + alpha * sumTo A.height
        (fun l => (if i ≤ l then A.get i l else 0) * orientScalar o (BAdj.get j l)),
   ZMR.update fun i j =>
      ZMR.entry i j + alpha * sumTo A.height
        (fun l => (if l < i then orientScalar o (A.get l i) else 0) * B.get l j))

/-- One pass through the body of the `while` loop of the distributed
`TwoSidedTrsmUVar2` (lines 167-240) on the logical matrices. The `AlignWith` calls
(lines 179-189) only choose alignments and have no effect on the logical matrices. -/
def distIteration (diag : UnitOrNonUnit) (bsize : Nat) (A U : Mat F) (cutA cutU : Nat) :
    Mat F :=
  -- RepartitionDownDiagonal( ATL, ATR, A00, A01, A02, ... )
  let a := RepartitionDownDiagonal A cutA bsize
  -- LockedRepartitionDownDiagonal( UTL, UTR, U00, U01, U02, ... )
  let u := RepartitionDownDiagonal U cutU bsize
  let A00 := a.A00
  let A01 := a.A01
  let A02 := a.A02
  let A11 := a.A11
  let A12 := a.A12
  let U01 := u.A01
  let U11 := u.A11
  -- Y01 := A00 U01
  let U01_MC_STAR := redistribute U01
  let U01_VR_STAR := redistribute U01_MC_STAR
  let U01Adj_STAR_MR := AdjointPartialColAllGather U01_VR_STAR
  let Y01_MR_STAR : Mat F := Zeros A01.height A01.width
  let F01_MC_STAR : Mat F := Zeros A01.height A01.width
  let acc := LocalSymmetricAccumulateLU ADJOINT 1 A00 U01_MC_STAR U01Adj_STAR_MR
    F01_MC_STAR Y01_MR_STAR
  let F01_MC_STAR := acc.1
  let Y01_MR_STAR := acc.2
  let Y01_MR_MC := RowSumScatterFrom Y01_MR_STAR
  let Y01 := redistribute Y01_MR_MC
  let Y01 := RowSumScatterUpdate 1 F01_MC_STAR Y01
  -- X11 := U01' A01
  let X11_STAR_MR := LocalGemmSet ADJOINT NORMAL 1 U01_MC_STAR A01
  -- A01 := A01 - Y01
  let A01 := Axpy (-1) Y01 A01
  let A01_MC_STAR := redistribute A01
  -- A11 := A11 - triu(X11 + A01' U01) = A11 - (U01 A01 + A01' U01)
  let X11_STAR_MR := LocalGemm ADJOINT NORMAL 1 A01_MC_STAR U01 1 X11_STAR_MR
  let X11 := ColSumScatterFrom X11_STAR_MR
  let X11 := MakeTriangular UPPER X11
  let A11 := Axpy (-1) X11 A11
  -- A01 := A01 inv(U11)
  let U11_STAR_STAR := redistribute U11
  let A01_VC_STAR := redistribute A01_MC_STAR
  let A01_VC_STAR := LocalTrsm RIGHT UPPER NORMAL diag 1 U11_STAR_STAR A01_VC_STAR
  let A01 := redistribute A01_VC_STAR
  -- A11 := inv(U11)' A11 inv(U11)
  let A11_STAR_STAR := redistribute A11
  let A11_STAR_STAR := LocalTwoSidedTrsm UPPER diag A11_STAR_STAR U11_STAR_STAR
  let A11 := redistribute A11_STAR_STAR
  -- A12 := A12 - A02' U01
  let X12Adj_MR_STAR := LocalGemmSet ADJOINT NORMAL 1 A02 U01_MC_STAR
  let X12Adj_MR_MC := RowSumScatterFrom X12Adj_MR_STAR
  let X12Local := Adjoint X12Adj_MR_MC
  let A12 := Axpy (-1) X12Local A12
  -- A12 := inv(U11)' A12
  let A12_STAR_VR := redistribute A12
  let A12_STAR_VR := LocalTrsm LEFT UPPER ADJOINT diag 1 U11_STAR_STAR A12_STAR_VR
  let A12 := redistribute A12_STAR_VR
  writeBack A cutA A01 A11 A12

/-- The `while( ATL.Height() < A.Height() )` loop of the distributed driver, allowed at
most `fuel` passes; `none` when the loop has not finished by then. -/
def distLoop (diag : UnitOrNonUnit) (bsize : Nat) (U : Mat F) :
    Nat → Mat F → Nat → Nat → Option (Mat F)
  | 0, A, cutA, _ => if cutA < A.height then none else some A
  | fuel + 1, A, cutA, cutU =>
      if cutA < A.height then
        distLoop diag bsize U fuel (distIteration diag bsize A U cutA cutU)
          (SlidePartitionDownDiagonal cutA (RepartitionDownDiagonal A cutA bsize).A11)
          (SlidePartitionDownDiagonal cutU (RepartitionDownDiagonal U cutU bsize).A11)
      else some A

/-- Distributed `TwoSidedTrsmUVar2( diag, A, U )` for `DistMatrix<F>`, on the logical
matrices; parameters as for the sequential form. -/
def TwoSidedTrsmUVar2Dist (debug : Bool) (bsize fuel : Nat) (diag : UnitOrNonUnit)
    (A U : Mat F) : Outcome (Mat F) :=
  if debug && decide (A.height ≠ A.width) then
    Outcome.logicError "A must be square" A
  else if debug && decide (U.height ≠ U.width) then
    Outcome.logicError "Triangular matrices must be square" A
  else if debug && decide (A.height ≠ U.height) then
    Outcome.logicError "A and U must be the same size" A
  else
    match distLoop diag bsize U fuel A (PartitionDownDiagonal A 0)
        (PartitionDownDiagonal U 0) with
    | some R => Outcome.returned R
    | none => Outcome.running

/-- Square matrix given by a list of rows; entries missing from the lists are zero. -/
def Mat.ofRows (n : Nat) (rows : List (List F)) : Mat F :=
  { height := n, width := n, entry := fun i j => (rows.getD i []).getD j 0 }

/-- Final content of `A` after a call, if the call returned. -/
def Outcome.value? {α : Type} : Outcome α → Option α
  | Outcome.returned a => some a
  | _ => none

/-- Two matrices of one shape that agree on and above the diagonal. -/
def SameUpper (A B : Mat F) : Prop :=
  A.height = B.height ∧ A.width = B.width ∧ ∀ i j, i ≤ j → A.get i j = B.get i j

/-- Entry `(i, j)` of the product `B U` of an `n x n` array `B` with `U`. -/
def timesU (n : Nat) (B : Nat → Nat → F) (U : Mat F) (i j : Nat) : F :=
  sumTo n fun l => B i l * U.get l j

/-- Entry `(i, j)` of the congruence `Uᴴ B U` of an `n x n` array `B`. -/
def congruence (n : Nat) (U : Mat F) (B : Nat → Nat → F) (i j : Nat) : F :=
  sumTo n fun p => star (U.get p i) * timesU n B U p j

/-- Entry `(i, j)` of `Uᴴ R U`, where `R` is the Hermitian matrix stored in the upper
triangle of the `n x n` matrix `R`. -/
def reconstruct (n : Nat) (U R : Mat F) (i j : Nat) : F :=
  congruence n U (hermEntry UPPER R) i j

/-- State of `A` at the top of the pass with cut `k`, for the target `B` (the matrix with
`Uᴴ B U` equal to the input): the upper triangle of `ATL` holds `B`, `ATR` holds the rows
of `B U`, and the upper triangle of `ABR` holds `Uᴴ B U`. -/
def LoopInvariant (n : Nat) (U : Mat F) (B : Nat → Nat → F) (k : Nat) (A : Mat F) : Prop :=
  A.height = n ∧ A.width = n ∧
    (∀ i j, i ≤ j → j < k → A.entry i j = B i j) ∧
    (∀ i j, i < k → k ≤ j → j < n → A.entry i j = timesU n B U i j) ∧
    (∀ i j, k ≤ i → i ≤ j → j < n → A.entry i j = congruence n U B i j)

/-- State of `A` at the top of the pass with cut `k`, for the input `A0`, with the inverses
cleared: `U_TLᴴ X U_TL = A0_TL` for the Hermitian matrix `X` stored in the upper triangle of
`ATL`, `U_TLᴴ ATR = A0_TR`, and `ABR` holds `A0_BR`. -/
def BlockInvariant (n : Nat) (U A0 : Mat F) (k : Nat) (A : Mat F) : Prop :=
  A.height = n ∧ A.width = n ∧
    (∀ i, i < k → ∀ j, j < k →
      congruence k U (hermEntry UPPER A) i j = hermEntry UPPER A0 i j) ∧
    (∀ i, i < k → ∀ j, j < n → k ≤ j →
      sumTo k (fun p => star (U.get p i) * A.get p j) = A0.get i j) ∧
    (∀ i, i < n → ∀ j, j < n → k ≤ i → k ≤ j → A.get i j = A0.get i j)

end Field

/-! ## Concrete inputs -/

/-- The 6 x 6 symmetric matrix whose upper triangle has the single nonzero entry
`A(0,5) = 1`. -/
def exampleA6 : Mat ℚ :=
  Mat.ofRows 6 [[0, 0, 0, 0, 0, 1]]

/-- The 6 x 6 symmetric matrix `E(0,5) + E(5,0)`, stored in full. -/
def exampleH6 : Mat ℚ :=
  Mat.ofRows 6 [[0, 0, 0, 0, 0, 1], [], [], [], [], [1]]

/-- The 6 x 6 unit upper-triangular matrix `I + E(0,2)`. -/
def exampleU6 : Mat ℚ :=
  Mat.ofRows 6 [[1, 0, 1], [0, 1], [0, 0, 1], [0, 0, 0, 1], [0, 0, 0, 0, 1], [0, 0, 0, 0, 0, 1]]

/-- A 4 x 4 real symmetric matrix. -/
def exampleA4 : Mat ℚ :=
  Mat.ofRows 4 [[4, 1, 2, 3], [1, 3, 1, 2], [2, 1, 2, 1], [3, 2, 1, 1]]

/-- A 4 x 4 upper-triangular matrix with diagonal `(2, 2, 2, 2)`. -/
def exampleU4 : Mat ℚ :=
  Mat.ofRows 4 [[2, 1, 3, 1], [0, 2, 1, 5], [0, 0, 2, 1], [0, 0, 0, 2]]

/-- The matrix `exampleU4` with its diagonal replaced by ones. -/
def exampleU4Unit : Mat ℚ :=
  Mat.ofRows 4 [[1, 1, 3, 1], [0, 1, 1, 5], [0, 0, 1, 1], [0, 0, 0, 1]]

/-- The 4 x 4 identity matrix. -/
def exampleI4 : Mat ℚ :=
  Mat.ofRows 4 [[1], [0, 1], [0, 0, 1], [0, 0, 0, 1]]

/-- The matrix `exampleA4` with other entries below its diagonal. -/
def exampleA4Lower : Mat ℚ :=
  Mat.ofRows 4 [[4, 1, 2, 3], [7, 3, 1, 2], [8, 9, 2, 1], [5, 6, 7, 1]]

/-- The 1 x 2 matrix `(4 6)`. -/
def exampleWide : Mat ℚ :=
  { height := 1, width := 2, entry := fun _ j => if j = 0 then 4 else 6 }

/-- The 1 x 1 matrix `(2)`. -/
def exampleU1 : Mat ℚ :=
  Mat.ofRows 1 [[2]]

/-! ## `FrobeniusCondition`, `Frobenius.hpp` lines 18-46 -/

/-- What leaves a call by an exception: a `SingularMatrixException`, or any other
exception `e`. -/
inductive Thrown (E : Type) where
  | SingularMatrixException
  | other (e : E)

/-- A call with a `const` matrix argument: the value returned (or the exception that
escapes) and the content of the argument after the call. -/
structure CallResult (ρ E F : Type) where
  result : Except (Thrown E) ρ
  argument : Mat F

/-- Sequential `FrobeniusCondition( A )`, lines 18-31. `R` is the floating type `Base<F>`:
the norms, their product and the sentinel are values of this one type. The routines
`FrobeniusNorm` and `Inverse` and the constant `std::numeric_limits<Real>::infinity()` are
parameters; `Inverse` overwrites its argument by the inverse or throws. -/
def FrobeniusCondition {F R E : Type} [Mul R] (infinity : R) (FrobeniusNorm : Mat F → R)
    (Inverse : Mat F → Except (Thrown E) (Mat F)) (A : Mat F) :
    CallResult R E F :=
  -- Matrix<F> B( A );
  let B := A
  -- const Real oneNorm = FrobeniusNorm( B );
  let oneNorm := FrobeniusNorm B
  -- try { Inverse( B ); }
  match Inverse B with
  -- catch( SingularMatrixException& e ) { return std::numeric_limits<Real>::infinity(); }
  | Except.error Thrown.SingularMatrixException =>
      { result := Except.ok infinity, argument := A }
  | Except.error (Thrown.other e) =>
      { result := Except.error (Thrown.other e), argument := A }
  | Except.ok B =>
      -- const Real oneNormInv = FrobeniusNorm( B );
      let oneNormInv := FrobeniusNorm B
      -- return oneNorm*oneNormInv;
      { result := Except.ok (oneNorm * oneNormInv), argument := A }

/-- Distributed `FrobeniusCondition( A )` for `DistMatrix<F,U,V>`, lines 33-46, on the
logical matrix: the copy `DistMatrix<F> B( A )` is a redistribution. -/
def FrobeniusConditionDist {F R E : Type} [Mul R] (infinity : R) (FrobeniusNorm : Mat F → R)
    (Inverse : Mat F → Except (Thrown E) (Mat F)) (A : Mat F) :
    CallResult R E F :=
  -- DistMatrix<F> B( A );
  let B := redistribute A
  -- const Real oneNorm = FrobeniusNorm( B );
  let oneNorm := FrobeniusNorm B
  -- try { Inverse( B ); }
  match Inverse B with
  -- catch( SingularMatrixException& e ) { return std::numeric_limits<Real>::infinity(); }
  | Except.error Thrown.SingularMatrixException =>
      { result := Except.ok infinity, argument := A }
  | Except.error (Thrown.other e) =>
      { result := Except.error (Thrown.other e), argument := A }
  | Except.ok B =>
      -- const Real oneNormInv = FrobeniusNorm( B );
      let oneNormInv := FrobeniusNorm B
      -- return oneNorm*oneNormInv;
      { result := Except.ok (oneNorm * oneNormInv), argument := A }

/-! ### A floating type for `Base<F>`, and `FrobeniusNorm`, `Inverse` on 1 x 1 matrices -/

/-- Values of the floating type `double`: a finite value, `+∞` or `-∞`, or NaN. A finite
value is kept as the rational number it stands for. -/
inductive Double where
  | finite (q : ℚ)
  | inf (negative : Bool)
  | nan
  deriving DecidableEq

/-- The largest finite `double`, `(2 - 2⁻⁵²) 2¹⁰²³`. -/
def maxDouble : ℚ := (2 - 1 / 2 ^ 52) * 2 ^ 1023

/-- The `double` delivered by an operation whose exact result is `q`, as far as overflow
goes: a result beyond the largest finite value becomes an infinity. Rounding of the
significand and underflow are left out. -/
def Double.overflow (q : ℚ) : Double :=
  if maxDouble < q then Double.inf false
  else if q < -maxDouble then Double.inf true
  else Double.finite q

/-- Product of two `double` values: a finite product may overflow, an infinity times a
nonzero value is an infinity with the product of the signs, and `0 * ∞` is NaN. -/
def Double.mul : Double → Double → Double
  | Double.finite a, Double.finite b => Double.overflow (a * b)
  | Double.finite a, Double.inf s =>
      if a = 0 then Double.nan else Double.inf (xor (decide (a < 0)) s)
  | Double.inf s, Double.finite b =>
      if b = 0 then Double.nan else Double.inf (xor s (decide (b < 0)))
  | Double.inf s, Double.inf t => Double.inf (xor s t)
  | _, _ => Double.nan

instance : Mul Double := ⟨Double.mul⟩

/-- Reciprocal `1 / x` of a `double`: it overflows for a value too close to zero. -/
def Double.recip : Double → Double
  | Double.finite q => if q = 0 then Double.inf false else Double.overflow (1 / q)
  | Double.inf _ => Double.finite 0
  | Double.nan => Double.nan

/-- Magnitude of a `double`. -/
def Double.abs : Double → Double
  | Double.finite q => Double.finite |q|
  | Double.inf _ => Double.inf false
  | Double.nan => Double.nan

/-- An instance of the parameter `FrobeniusNorm` for 1 x 1 matrices of `double`: the
Frobenius norm of `(a)` is `|a|`. -/
def exampleFrobeniusNorm (M : Mat Double) : Double :=
  Double.abs (M.entry 0 0)

/-- An instance of the parameter `Inverse` for 1 x 1 matrices of `double`: `(a)` with `a`
exactly zero is singular and `SingularMatrixException` is thrown; any other `(a)` is
overwritten by `(1 / a)`. -/
def exampleInverse (M : Mat Double) : Except (Thrown Unit) (Mat Double) :=
  if M.entry 0 0 = Double.finite 0 then Except.error Thrown.SingularMatrixException
  else Except.ok { height := 1, width := 1, entry := fun _ _ => Double.recip (M.entry 0 0) }

/-- The 1 x 1 matrix `(2⁻¹⁰⁷⁴)`, whose entry is the smallest positive `double`. -/
def exampleTiny : Mat Double :=
  { height := 1, width := 1, entry := fun _ _ => Double.finite (1 / 2 ^ 1074) }

/-- The 1 x 1 matrix `(2)`. -/
def exampleTwo : Mat Double :=
  { height := 1, width := 1, entry := fun _ _ => Double.finite 2 }

/-- The 1 x 1 matrix `(0)`. -/
def exampleZero : Mat Double :=
  { height := 1, width := 1, entry := fun _ _ => Double.finite 0 }

end elem

/-! ## Serialization traits, `madness/world/type_traits.h` -/

namespace madness

/-- Types the traits are asked about: the archive classes forward-declared in
`type_traits.h`, `archive::archive_array<T>`, and any other type, by a number. -/
inductive Ty where
  | BaseArchive
  | BaseInputArchive
  | BaseOutputArchive
  | BinaryFstreamOutputArchive
  | BinaryFstreamInputArchive
  | BufferOutputArchive
  | BufferInputArchive
  | VectorOutputArchive
  | VectorInputArchive
  | TextFstreamOutputArchive
  | TextFstreamInputArchive
  | MPIRawOutputArchive
  | MPIRawInputArchive
  | MPIOutputArchive
  | MPIInputArchive
  | archive_array (T : Ty)
  | named (id : Nat)
  deriving DecidableEq, Repr

/-- What the compiler determines about the types of a program: the standard traits, and
for each detection idiom of the header whether the expression it names is well-formed
(and, for `is_detected_exact`, has exactly the expected type). -/
structure TypeFacts where
  /-- Value of `std::is_base_of<Base, Derived>`. -/
  is_base_of : Ty → Ty → Bool
  /-- Value of `std::is_arithmetic<T>`. -/
  is_arithmetic : Ty → Bool
  /-- Value of `std::is_function<T>`. -/
  is_function : Ty → Bool
  /-- Value of `std::is_pod<T>`. -/
  is_pod : Ty → Bool
  /-- Value of `std::is_pointer<T>`. -/
  is_pointer : Ty → Bool
  /-- Value of `std::is_member_function_pointer<T>`. -/
  is_member_function_pointer : Ty → Bool
  /-- Value of `std::is_function<std::remove_pointer<T>::type>`. -/
  is_function_of_remove_pointer : Ty → Bool
  /-- Whether `std::declval<std::ostream&>() << std::declval<const T&>()` is well-formed of
  type exactly `std::ostream&`. -/
  left_shift : Ty → Bool
  /-- Whether `madness::operators::operator<<(std::declval<std::ostream&>(),
  std::declval<const T&>())` is well-formed of type exactly `std::ostream&`. -/
  left_shift_in_ns_madness_operators : Ty → Bool
  /-- Whether `std::declval<std::istream&>() >> std::declval<T&>()` is well-formed of type
  exactly `std::istream&`. -/
  right_shift : Ty → Bool
  /-- Whether `madness::operators::operator<<(std::declval<std::istream&>(),
  std::declval<T&>())` is well-formed of type exactly `std::istream&` (line 130 names
  `operator<<`). -/
  istream_left_shift_in_ns_madness_operators : Ty → Bool
  /-- Whether `std::declval<T&>().serialize(std::declval<Archive&>())` is well-formed;
  arguments in the order `T`, `Archive`. -/
  has_member_serialize_t : Ty → Ty → Bool
  /-- Whether `std::declval<T&>().serialize(std::declval<Archive&>(), 0u)` is well-formed;
  arguments in the order `T`, `Archive`. -/
  has_member_serialize_with_version_t : Ty → Ty → Bool
  /-- Whether `ArchiveSerializeImpl<Archive, T>::serialize(ar, t)` is well-formed; arguments
  in the order `T`, `Archive`. -/
  has_nonmember_serialize_t : Ty → Ty → Bool
  /-- Whether `ArchiveLoadImpl<Archive, T>::load(ar, t)` is well-formed; arguments in the
  order `T`, `Archive`. -/
  has_nonmember_load_t : Ty → Ty → Bool
  /-- Whether `ArchiveStoreImpl<Archive, T>::store(ar, t)` is well-formed; arguments in the
  order `T`, `Archive`. -/
  has_nonmember_store_t : Ty → Ty → Bool

variable (facts : TypeFacts)

/-- Trait `is_function_pointer_v<T>` (lines 84-86). -/
def is_function_pointer_v (T : Ty) : Bool :=
  facts.is_function_of_remove_pointer T

/-- Trait `is_any_function_pointer_v<T>` (lines 91-93). -/
def is_any_function_pointer_v (T : Ty) : Bool :=
  facts.is_member_function_pointer T || is_function_pointer_v facts T

/-- Trait `is_trivially_serializable<T>::value` (lines 98-106). -/
def is_trivially_serializable (T : Ty) : Bool :=
  facts.is_arithmetic T || facts.is_function T || is_any_function_pointer_v facts T ||
    (facts.is_pod T && !facts.is_pointer T)

/-- Trait `is_ostreammable_v<T>` (lines 109-124). -/
def is_ostreammable_v (T : Ty) : Bool :=
  facts.left_shift T || facts.left_shift_in_ns_madness_operators T

/-- Trait `is_istreammable_v<T>` (lines 127-143). -/
def is_istreammable_v (T : Ty) : Bool :=
  facts.right_shift T || facts.istream_left_shift_in_ns_madness_operators T

/-- Trait `is_iostreammable_v<T>` (line 146). -/
def is_iostreammable_v (T : Ty) : Bool :=
  is_istreammable_v facts T && is_ostreammable_v facts T

/-- Trait `has_member_serialize_v<T, Archive>` (lines 201-202). -/
def has_member_serialize_v (T Archive : Ty) : Bool :=
  facts.has_member_serialize_t T Archive

/-- Trait `has_member_serialize_with_version_v<T, Archive>` (lines 209-210). -/
def has_member_serialize_with_version_v (T Archive : Ty) : Bool :=
  facts.has_member_serialize_with_version_t T Archive

/-- Trait `has_nonmember_serialize_v<T, Archive>` (lines 217-218). -/
def has_nonmember_serialize_v (T Archive : Ty) : Bool :=
  facts.has_nonmember_serialize_t T Archive

/-- Trait `has_nonmember_load_v<T, Archive>` (lines 225-226). -/
def has_nonmember_load_v (T Archive : Ty) : Bool :=
  facts.has_nonmember_load_t T Archive

/-- Trait `has_nonmember_store_v<T, Archive>` (lines 233-234). -/
def has_nonmember_store_v (T Archive : Ty) : Bool :=
  facts.has_nonmember_store_t T Archive

/-- Trait `is_archive_v<T>` (lines 309-313). -/
def is_archive_v (T : Ty) : Bool :=
  facts.is_base_of Ty.BaseArchive T

/-- Trait `is_input_archive_v<T>` (lines 321-325). -/
def is_input_archive_v (T : Ty) : Bool :=
  facts.is_base_of Ty.BaseInputArchive T

/-- Trait `is_output_archive_v<T>` (lines 333-337). -/
def is_output_archive_v (T : Ty) : Bool :=
  facts.is_base_of Ty.BaseOutputArchive T

/-- The ten archive classes whose specialization of `is_default_serializable_helper`
(lines 339-362) is enabled by `is_trivially_serializable<T>`. -/
def enabledByTriviallySerializable : Ty → Bool
  | Ty.BinaryFstreamOutputArchive => true
  | Ty.BinaryFstreamInputArchive => true
  | Ty.BufferOutputArchive => true
  | Ty.BufferInputArchive => true
  | Ty.VectorOutputArchive => true
  | Ty.VectorInputArchive => true
  | Ty.MPIRawOutputArchive => true
  | Ty.MPIRawInputArchive => true
  | Ty.MPIOutputArchive => true
  | Ty.MPIInputArchive => true
  | _ => false

/-- The two archive classes whose specialization of `is_default_serializable_helper`
(lines 351-354) is enabled by `is_iostreammable_v<T>`. -/
def enabledByIostreammable : Ty → Bool
  | Ty.TextFstreamOutputArchive => true
  | Ty.TextFstreamInputArchive => true
  | _ => false

/-- Trait `is_default_serializable_helper<Archive, T>::value` (lines 263-264 and 339-364):
`false` unless one of the specializations is enabled. -/
def is_default_serializable_helper (Archive : Ty) : Ty → Bool
  | Ty.archive_array T =>
      (enabledByTriviallySerializable Archive &&
          is_trivially_serializable facts (Ty.archive_array T)) ||
        (enabledByIostreammable Archive && is_iostreammable_v facts (Ty.archive_array T)) ||
        is_default_serializable_helper Archive T
  | T =>
      (enabledByTriviallySerializable Archive && is_trivially_serializable facts T) ||
        (enabledByIostreammable Archive && is_iostreammable_v facts T)

/-- Trait `is_default_serializable_v<Archive, T>` (lines 273-279). -/
def is_default_serializable_v (Archive T : Ty) : Bool :=
  is_default_serializable_helper facts Archive T

/-- Trait `is_serializable_v<Archive, T>` (lines 369-375). The `has_..._v` templates are
declared with the parameters `T, Archive` and are instantiated here, as in the source,
with `Archive, T`. -/
def is_serializable_v (Archive T : Ty) : Bool :=
  is_archive_v facts Archive && (is_default_serializable_v facts Archive T ||
    has_member_serialize_v facts Archive T ||
    has_member_serialize_with_version_v facts Archive T ||
    has_nonmember_serialize_v facts Archive T ||
    (has_nonmember_load_v facts Archive T && is_input_archive_v facts Archive) ||
    (has_nonmember_store_v facts Archive T && is_output_archive_v facts Archive))

/-- Trait `is_text_archive_v<Archive>` (lines 383-394). -/
def is_text_archive_v : Ty → Bool
  | Ty.TextFstreamOutputArchive => true
  | Ty.TextFstreamInputArchive => true
  | _ => false

/-- A program with one class besides the archives, `named 0`, which declares
`void serialize(BufferOutputArchive&)` and has a non-trivial member (it is not POD);
every archive class derives from `BaseArchive`, and `BufferOutputArchive` from
`BaseOutputArchive`. No archive class has a member `serialize`. -/
def exampleFacts : TypeFacts :=
  { is_base_of := fun base derived =>
      match base, derived with
      | Ty.BaseArchive, Ty.BufferOutputArchive => true
      | Ty.BaseOutputArchive, Ty.BufferOutputArchive => true
      | Ty.BaseArchive, Ty.BaseArchive => true
      | _, _ => false
    is_arithmetic := fun _ => false
    is_function := fun _ => false
    is_pod := fun _ => false
    is_pointer := fun _ => false
    is_member_function_pointer := fun _ => false
    is_function_of_remove_pointer := fun _ => false
    left_shift := fun _ => false
    left_shift_in_ns_madness_operators := fun _ => false
    right_shift := fun _ => false
    istream_left_shift_in_ns_madness_operators := fun _ => false
    has_member_serialize_t := fun T Archive =>
      decide (T = Ty.named 0 ∧ Archive = Ty.BufferOutputArchive)
    has_member_serialize_with_version_t := fun _ _ => false
    has_nonmember_serialize_t := fun _ _ => false
    has_nonmember_load_t := fun _ _ => false
    has_nonmember_store_t := fun _ _ => false }

end madness

namespace madness

/-- A program with the type `named 1` arithmetic (such as `int`) and an archive class
`named 2` that derives from `BaseArchive` and is none of the classes forward-declared in
the header; no stream operators and no `serialize` anywhere. -/
def exampleFactsOtherArchive : TypeFacts :=
  { is_base_of := fun base derived =>
      match base, derived with
      | Ty.BaseArchive, Ty.named 2 => true
      | Ty.BaseOutputArchive, Ty.named 2 => true
      | _, _ => false
    is_arithmetic := fun T => decide (T = Ty.named 1)
    is_function := fun _ => false
    is_pod := fun T => decide (T = Ty.named 1)
    is_pointer := fun _ => false
    is_member_function_pointer := fun _ => false
    is_function_of_remove_pointer := fun _ => false
    left_shift := fun _ => false
    left_shift_in_ns_madness_operators := fun _ => false
    right_shift := fun _ => false
    istream_left_shift_in_ns_madness_operators := fun _ => false
    has_member_serialize_t := fun _ _ => false
    has_member_serialize_with_version_t := fun _ _ => false
    has_nonmember_serialize_t := fun _ _ => false
    has_nonmember_load_t := fun _ _ => false
    has_nonmember_store_t := fun _ _ => false }

/-- The facts of a program together with the one fact the note on line 138 speaks of and no
trait of the header evaluates: whether `operator>>` for `T` is defined in namespace
`madness::operators`. -/
structure StreamFacts extends TypeFacts where
  /-- Whether `madness::operators::operator>>(std::declval<std::istream&>(),
  std::declval<T&>())` is well-formed of type exactly `std::istream&`. -/
  right_shift_in_ns_madness_operators : Ty → Bool

/-- A program in which the type `named 1` lives outside namespace `madness::operators` (as
`std::vector<int>` does) and both `std::ostream& operator<<(std::ostream&, const T&)` and
`std::istream& operator>>(std::istream&, T&)` are defined for it in namespace
`madness::operators`: neither is found by argument-dependent lookup, and there is no
`operator<<` taking a `std::istream&`. -/
def exampleStreamFacts : StreamFacts :=
  { is_base_of := fun _ _ => false
    is_arithmetic := fun _ => false
    is_function := fun _ => false
    is_pod := fun _ => false
    is_pointer := fun _ => false
    is_member_function_pointer := fun _ => false
    is_function_of_remove_pointer := fun _ => false
    left_shift := fun _ => false
    left_shift_in_ns_madness_operators := fun T => decide (T = Ty.named 1)
    right_shift := fun _ => false
    istream_left_shift_in_ns_madness_operators := fun _ => false
    has_member_serialize_t := fun _ _ => false
    has_member_serialize_with_version_t := fun _ _ => false
    has_nonmember_serialize_t := fun _ _ => false
    has_nonmember_load_t := fun _ _ => false
    has_nonmember_store_t := fun _ _ => false
    right_shift_in_ns_madness_operators := fun T => decide (T = Ty.named 1) }

end madness

namespace elem

open UnitOrNonUnit Orientation LeftOrRight UpperOrLower

section Conformal

variable {F : Type} [Field F] [StarRing F]

/-- Shape (height, width) of a matrix. -/
def Mat.shape (M : Mat F) : Nat × Nat :=
  (M.height, M.width)

/-- Shape of the product `op(A) op(B)`. -/
def productShape (oA oB : Orientation) (A B : Mat F) : Nat × Nat :=
  ((A.orient oA).height, (B.orient oB).width)

/-- Whether the operands of `Gemm( opA, opB, alpha, A, B, beta, C )` are conformal: the
inner dimensions of `op(A)` and `op(B)` agree and `op(A) op(B)` has the shape of `C`. -/
def GemmConformal (oA oB : Orientation) (A B C : Mat F) : Bool :=
  decide ((A.orient oA).width = (B.orient oB).height) &&
    decide (productShape oA oB A B = C.shape)

end Conformal

end elem

namespace elem

section Windows

variable {F : Type} [Field F] [StarRing F]

/-- Window of a view in its parent: the top-left corner and the shape. -/
structure Window where
  row : Nat
  col : Nat
  height : Nat
  width : Nat
  deriving DecidableEq, Repr

/-- The window holds the index `(i, j)`. -/
def Window.contains (w : Window) (i j : Nat) : Prop :=
  w.row ≤ i ∧ i < w.row + w.height ∧ w.col ≤ j ∧ j < w.col + w.width

/-- First index and length of the `I`-th of the three ranges `[0, cut)`, `[cut, cut + b)`,
`[cut + b, extent)`. -/
def blockRange (extent cut b : Nat) (I : Fin 3) : Nat × Nat :=
  if I.val = 0 then (0, cut)
  else if I.val = 1 then (cut, b)
  else (cut + b, extent - cut - b)

/-- Modelled from the spec: window of the block in block-row `I` and block-column `J` of
`RepartitionDownDiagonal` at the cut `cut`, in a `height x width` matrix. -/
def blockWindow (height width cut bsize : Nat) (I J : Fin 3) : Window :=
  { row := (blockRange height cut (min bsize (min (height - cut) (width - cut))) I).1
    col := (blockRange width cut (min bsize (min (height - cut) (width - cut))) J).1
    height := (blockRange height cut (min bsize (min (height - cut) (width - cut))) I).2
    width := (blockRange width cut (min bsize (min (height - cut) (width - cut))) J).2 }

/-- The block in block-row `I` and block-column `J` of the nine views. -/
def Blocks.block (B : Blocks F) (I J : Fin 3) : Mat F :=
  if I.val = 0 then (if J.val = 0 then B.A00 else if J.val = 1 then B.A01 else B.A02)
  else if I.val = 1 then (if J.val = 0 then B.A10 else if J.val = 1 then B.A11 else B.A12)
  else (if J.val = 0 then B.A20 else if J.val = 1 then B.A21 else B.A22)

/-- View of the matrix through a window. -/
def viewOf (A : Mat F) (w : Window) : Mat F :=
  View A w.row w.col w.height w.width

end Windows

end elem

namespace elem

open UnitOrNonUnit Orientation LeftOrRight UpperOrLower

section Intermediate

variable {F : Type} [Field F] [StarRing F]

/-- The temporary `Y01` of a pass of the sequential driver after line 73,
`Y01 := A00 U01`. -/
def seqY01 (bsize : Nat) (A U : Mat F) (cutA cutU : Nat) : Mat F :=
  Hemm LEFT UPPER 1 (RepartitionDownDiagonal A cutA bsize).A00
    (RepartitionDownDiagonal U cutU bsize).A01 0
    (Zeros (RepartitionDownDiagonal A cutA bsize).A01.height
      (RepartitionDownDiagonal A cutA bsize).A01.width)

/-- The block `A01` of a pass of the sequential driver after line 76, the first
`A01 := A01 - 1/2 Y01`. -/
def seqA01Half (bsize : Nat) (A U : Mat F) (cutA cutU : Nat) : Mat F :=
  Axpy ((-1) / 2) (seqY01 bsize A U cutA cutU) (RepartitionDownDiagonal A cutA bsize).A01

/-- The block `A11` of a pass of the sequential driver after line 79, as it is passed to
`TwoSidedTrsmUUnb`. -/
def seqA11Downdated (bsize : Nat) (A U : Mat F) (cutA cutU : Nat) : Mat F :=
  Her2k UPPER ADJOINT (-1) (RepartitionDownDiagonal U cutU bsize).A01
    (seqA01Half bsize A U cutA cutU) 1 (RepartitionDownDiagonal A cutA bsize).A11

/-- The block `A01` of a pass of the sequential driver after line 94, the end of the
pass. -/
def seqA01Final (diag : UnitOrNonUnit) (bsize : Nat) (A U : Mat F) (cutA cutU : Nat) :
    Mat F :=
  Trsm RIGHT UPPER NORMAL diag 1 (RepartitionDownDiagonal U cutU bsize).A11
    (Axpy ((-1) / 2) (seqY01 bsize A U cutA cutU) (seqA01Half bsize A U cutA cutU))

/-- The block `A12` of a pass of the sequential driver after line 88, the end of the
pass. -/
def seqA12Final (diag : UnitOrNonUnit) (bsize : Nat) (A U : Mat F) (cutA cutU : Nat) :
    Mat F :=
  Trsm LEFT UPPER ADJOINT diag 1 (RepartitionDownDiagonal U cutU bsize).A11
    (Gemm ADJOINT NORMAL (-1) (RepartitionDownDiagonal A cutA bsize).A02
      (RepartitionDownDiagonal U cutU bsize).A01 1 (RepartitionDownDiagonal A cutA bsize).A12)

end Intermediate

end elem

/-! # Verification -/

set_option linter.unusedSectionVars false

namespace elem

open UnitOrNonUnit Orientation LeftOrRight UpperOrLower

section Basics

variable {F : Type} [Field F] [StarRing F]

theorem sumTo_eq_sum (n : Nat) (f : Nat → F) : sumTo n f = ∑ l in Finset.range n, f l := by
  induction n with
  | zero => simp [sumTo]
  | succ n ih => simp [sumTo, Finset.sum_range_succ, ih]

theorem sumTo_congr {n : Nat} {f g : Nat → F} (h : ∀ l, l < n → f l = g l) :
    sumTo n f = sumTo n g := by
  induction n with
  | zero => rfl
  | succ n ih =>
    simp only [sumTo]
    rw [ih (fun l hl => h l (Nat.lt_succ_of_lt hl)), h n (Nat.lt_succ_self n)]

theorem sumTo_eq_zero {n : Nat} {f : Nat → F} (h : ∀ l, l < n → f l = 0) : sumTo n f = 0 := by
  induction n with
  | zero => rfl
  | succ n ih =>
    simp only [sumTo]
    rw [ih (fun l hl => h l (Nat.lt_succ_of_lt hl)), h n (Nat.lt_succ_self n), add_zero]

@[simp] theorem sumTo_zero (f : Nat → F) : sumTo 0 f = 0 := rfl

@[simp] theorem update_height (C : Mat F) (f : Nat → Nat → F) :
    (C.update f).height = C.height := rfl

@[simp] theorem update_width (C : Mat F) (f : Nat → Nat → F) :
    (C.update f).width = C.width := rfl

@[simp] theorem setBlock_height (A B : Mat F) (i j : Nat) :
    (A.setBlock i j B).height = A.height := rfl

@[simp] theorem setBlock_width (A B : Mat F) (i j : Nat) :
    (A.setBlock i j B).width = A.width := rfl

@[simp] theorem writeBack_height (A X Y Z : Mat F) (k : Nat) :
    (writeBack A k X Y Z).height = A.height := rfl

@[simp] theorem writeBack_width (A X Y Z : Mat F) (k : Nat) :
    (writeBack A k X Y Z).width = A.width := rfl

@[simp] theorem seqIteration_height (diag : UnitOrNonUnit) (bs : Nat) (A U : Mat F)
    (cA cU : Nat) : (seqIteration diag bs A U cA cU).height = A.height := rfl

@[simp] theorem seqIteration_width (diag : UnitOrNonUnit) (bs : Nat) (A U : Mat F)
    (cA cU : Nat) : (seqIteration diag bs A U cA cU).width = A.width := rfl

@[simp] theorem distIteration_height (diag : UnitOrNonUnit) (bs : Nat) (A U : Mat F)
    (cA cU : Nat) : (distIteration diag bs A U cA cU).height = A.height := rfl

@[simp] theorem distIteration_width (diag : UnitOrNonUnit) (bs : Nat) (A U : Mat F)
    (cA cU : Nat) : (distIteration diag bs A U cA cU).width = A.width := rfl

theorem get_of_lt {M : Mat F} {i j : Nat} (hi : i < M.height) (hj : j < M.width) :
    M.get i j = M.entry i j := by
  simp [Mat.get, hi, hj]

theorem get_of_not_lt {M : Mat F} {i j : Nat} (h : ¬ (i < M.height ∧ j < M.width)) :
    M.get i j = 0 := by
  simp only [Mat.get, if_neg h]

/-- The new cut after one pass, for a square matrix. -/
theorem slide_square {n : Nat} (A : Mat F) (hh : A.height = n) (hw : A.width = n)
    (k bs : Nat) :
    SlidePartitionDownDiagonal k (RepartitionDownDiagonal A k bs).A11 = k + min bs (n - k) := by
  simp [SlidePartitionDownDiagonal, RepartitionDownDiagonal, View, hh, hw]

/-- Loop rule for the two drivers: an invariant indexed by the cut, established at cut `k`
and preserved by one pass, holds at cut `n` for the matrix the loop returns, and the loop
returns as soon as `n - k` passes are allowed. -/
theorem loop_rule {n bs : Nat} (hbs : 1 ≤ bs) (U : Mat F) (hUh : U.height = n)
    (hUw : U.width = n)
    (loop : Nat → Mat F → Nat → Nat → Option (Mat F)) (iter : Mat F → Nat → Nat → Mat F)
    (h0 : ∀ A cA cU, loop 0 A cA cU = if cA < A.height then none else some A)
    (hs : ∀ fuel A cA cU, loop (fuel + 1) A cA cU =
      if cA < A.height then
        loop fuel (iter A cA cU)
          (SlidePartitionDownDiagonal cA (RepartitionDownDiagonal A cA bs).A11)
          (SlidePartitionDownDiagonal cU (RepartitionDownDiagonal U cU bs).A11)
      else some A)
    (P : Nat → Mat F → Prop) (hP : ∀ k A, P k A → A.height = n ∧ A.width = n)
    (hstep : ∀ k A, k < n → P k A → P (k + min bs (n - k)) (iter A k k)) :
    ∀ fuel k A, k ≤ n → n - k ≤ fuel → P k A → ∃ R, loop fuel A k k = some R ∧ P n R := by
  intro fuel
  induction fuel with
  | zero =>
    intro k A hk hf hPA
    have hkn : k = n := by omega
    refine ⟨A, ?_, hkn ▸ hPA⟩
    rw [h0, (hP k A hPA).1, if_neg (by omega)]
  | succ fuel ih =>
    intro k A hk hf hPA
    obtain ⟨hh, hw⟩ := hP k A hPA
    by_cases hlt : k < n
    · rw [hs, hh, if_pos hlt, slide_square A hh hw, slide_square U hUh hUw]
      have hb : 1 ≤ min bs (n - k) := by
        apply Nat.le_min.mpr
        constructor
        · exact hbs
        · omega
      have hb2 : min bs (n - k) ≤ n - k := Nat.min_le_right _ _
      exact ih (k + min bs (n - k)) (iter A k k) (by omega) (by omega) (hstep k A hlt hPA)
    · have hkn : k = n := by omega
      refine ⟨A, ?_, hkn ▸ hPA⟩
      rw [hs, hh, if_neg hlt]

theorem seqLoop_zero (diag : UnitOrNonUnit) (bs : Nat) (U A : Mat F) (cA cU : Nat) :
    seqLoop diag bs U 0 A cA cU = if cA < A.height then none else some A := rfl

theorem seqLoop_succ (diag : UnitOrNonUnit) (bs : Nat) (U : Mat F) (fuel : Nat) (A : Mat F)
    (cA cU : Nat) :
    seqLoop diag bs U (fuel + 1) A cA cU =
      if cA < A.height then
        seqLoop diag bs U fuel (seqIteration diag bs A U cA cU)
          (SlidePartitionDownDiagonal cA (RepartitionDownDiagonal A cA bs).A11)
          (SlidePartitionDownDiagonal cU (RepartitionDownDiagonal U cU bs).A11)
      else some A := rfl

theorem distLoop_zero (diag : UnitOrNonUnit) (bs : Nat) (U A : Mat F) (cA cU : Nat) :
    distLoop diag bs U 0 A cA cU = if cA < A.height then none else some A := rfl

theorem distLoop_succ (diag : UnitOrNonUnit) (bs : Nat) (U : Mat F) (fuel : Nat) (A : Mat F)
    (cA cU : Nat) :
    distLoop diag bs U (fuel + 1) A cA cU =
      if cA < A.height then
        distLoop diag bs U fuel (distIteration diag bs A U cA cU)
          (SlidePartitionDownDiagonal cA (RepartitionDownDiagonal A cA bs).A11)
          (SlidePartitionDownDiagonal cU (RepartitionDownDiagonal U cU bs).A11)
      else some A := rfl

/-- With the `DEBUG_ONLY` block compiled in or not, a call on square matrices of one size
is the loop started at the cut `0`. -/
theorem seq_of_square {n : Nat} (debug : Bool) (bs fuel : Nat) (diag : UnitOrNonUnit)
    (A U : Mat F) (hAh : A.height = n) (hAw : A.width = n) (hUh : U.height = n)
    (hUw : U.width = n) :
    TwoSidedTrsmUVar2 debug bs fuel diag A U =
      match seqLoop diag bs U fuel A 0 0 with
      | some R => Outcome.returned R
      | none => Outcome.running := by
  simp [TwoSidedTrsmUVar2, PartitionDownDiagonal, hAh, hAw, hUh, hUw]

theorem dist_of_square {n : Nat} (debug : Bool) (bs fuel : Nat) (diag : UnitOrNonUnit)
    (A U : Mat F) (hAh : A.height = n) (hAw : A.width = n) (hUh : U.height = n)
    (hUw : U.width = n) :
    TwoSidedTrsmUVar2Dist debug bs fuel diag A U =
      match distLoop diag bs U fuel A 0 0 with
      | some R => Outcome.returned R
      | none => Outcome.running := by
  simp [TwoSidedTrsmUVar2Dist, PartitionDownDiagonal, hAh, hAw, hUh, hUw]

end Basics

end elem

namespace elem

open UnitOrNonUnit Orientation LeftOrRight UpperOrLower

/-- C4, counterexample: without the `DEBUG_ONLY` block the sequential driver accepts the
1 x 2 matrix `(4 6)` with the 1 x 1 triangular matrix `(2)`: it throws nothing, runs one
pass and returns `(1 3)`. -/
theorem shape_check_absent_without_debug :
    exampleWide.height ≠ exampleWide.width ∧
      ∃ R, TwoSidedTrsmUVar2 false 1 1 NON_UNIT exampleWide exampleU1 = Outcome.returned R ∧
        exampleWide.entry 0 0 = 4 ∧ R.entry 0 0 = 1 ∧ R.entry 0 1 = 3 :=
  ⟨by decide, _, rfl, by decide!, by decide!, by decide!⟩

/-- C4, amended: with the `DEBUG_ONLY` block compiled in, a call of either form in which
`A` is not square, or `U` is not square, or `A` and `U` differ in size, throws a
`LogicError` whatever the block size and the number of passes allowed, and `A` has its
original content when the exception leaves the call. -/
theorem shape_precondition_debug {F : Type} [Field F] [StarRing F] (bs fuel : Nat)
    (diag : UnitOrNonUnit) (A U : Mat F)
    (h : A.height ≠ A.width ∨ U.height ≠ U.width ∨ A.height ≠ U.height) :
    (∃ msg, TwoSidedTrsmUVar2 true bs fuel diag A U = Outcome.logicError msg A) ∧
      (∃ msg, TwoSidedTrsmUVar2Dist true bs fuel diag A U = Outcome.logicError msg A) := by
  by_cases h1 : A.height = A.width
  · by_cases h2 : U.height = U.width
    · have h3 : A.height ≠ U.height := by
        rcases h with h | h | h
        · exact absurd h1 h
        · exact absurd h2 h
        · exact h
      have h3' : ¬ A.width = U.width := by
        intro h4
        apply h3
        omega
      constructor
      · refine ⟨"A and U must be the same size", ?_⟩
        simp [TwoSidedTrsmUVar2, h1, h2, h3']
      · refine ⟨"A and U must be the same size", ?_⟩
        simp [TwoSidedTrsmUVar2Dist, h1, h2, h3']
    · constructor
      · refine ⟨"Triangular matrices must be square", ?_⟩
        simp [TwoSidedTrsmUVar2, h1, h2]
      · refine ⟨"Triangular matrices must be square", ?_⟩
        simp [TwoSidedTrsmUVar2Dist, h1, h2]
  · constructor
    · refine ⟨"A must be square", ?_⟩
      simp [TwoSidedTrsmUVar2, h1]
    · refine ⟨"A must be square", ?_⟩
      simp [TwoSidedTrsmUVar2Dist, h1]

/-- C4, witness: the 1 x 2 matrix `(4 6)` is rejected by both forms when the checks are
compiled in. -/
theorem shape_precondition_debug_witness :
    (exampleWide.height ≠ exampleWide.width ∨ exampleU1.height ≠ exampleU1.width ∨
        exampleWide.height ≠ exampleU1.height) ∧
      ((∃ msg, TwoSidedTrsmUVar2 true 1 1 NON_UNIT exampleWide exampleU1 =
          Outcome.logicError msg exampleWide) ∧
        (∃ msg, TwoSidedTrsmUVar2Dist true 1 1 NON_UNIT exampleWide exampleU1 =
          Outcome.logicError msg exampleWide)) :=
  ⟨Or.inl (by decide),
    shape_precondition_debug 1 1 NON_UNIT exampleWide exampleU1 (Or.inl (by decide))⟩

/-- C1, failing input: on the 6 x 6 symmetric `A` with `A(0,5) = 1` and the unit
upper-triangular `U = I + E(0,2)`, block size 2, the sequential driver returns a matrix
`R` with `R(3,4) = -1` and `R(2,5) = 0`, whereas `U⁻ᵀ A U⁻¹` has `0` and `-1` there; so
`Uᵀ R U` differs from `A` at `(3,4)`. -/
theorem seq_wrong_on_six_by_six :
    (∀ i, i < 6 → exampleU6.get i i = 1) ∧
      (∀ i, i < 6 → ∀ j, j < i → exampleU6.get i j = 0) ∧
      ∃ R, TwoSidedTrsmUVar2 true 2 3 NON_UNIT exampleA6 exampleU6 = Outcome.returned R ∧
        R.entry 3 4 = -1 ∧ R.entry 2 5 = 0 ∧
        reconstruct 6 exampleU6 R 3 4 = -1 ∧ hermEntry UPPER exampleA6 3 4 = 0 :=
  ⟨by decide!, by decide!, _, rfl, by decide!, by decide!, by decide!, by decide!⟩

/-- C3, failing input: started from the same blocks at the cut 2 (block size 2) of the
6 x 6 example, one pass of the sequential driver leaves `A12 = (0 0; -1 0)` and one pass
of the distributed driver leaves `A12 = (0 -1; 0 0)`; the matrices the two drivers return
differ at `(2,5)` and at `(3,4)`. -/
theorem seq_dist_iteration_differ :
    ((seqIteration NON_UNIT 2 exampleA6 exampleU6 2 2).entry 2 5 = 0 ∧
        (seqIteration NON_UNIT 2 exampleA6 exampleU6 2 2).entry 3 4 = -1) ∧
      ((distIteration NON_UNIT 2 exampleA6 exampleU6 2 2).entry 2 5 = -1 ∧
        (distIteration NON_UNIT 2 exampleA6 exampleU6 2 2).entry 3 4 = 0) ∧
      ∃ R S, TwoSidedTrsmUVar2 true 2 3 NON_UNIT exampleA6 exampleU6 = Outcome.returned R ∧
        TwoSidedTrsmUVar2Dist true 2 3 NON_UNIT exampleA6 exampleU6 = Outcome.returned S ∧
        R.entry 2 5 ≠ S.entry 2 5 ∧ R.entry 3 4 ≠ S.entry 3 4 :=
  ⟨⟨by decide!, by decide!⟩, ⟨by decide!, by decide!⟩, _, _, rfl, rfl, by decide!, by decide!⟩

end elem

namespace elem

open UnitOrNonUnit Orientation LeftOrRight UpperOrLower

section Congruence

variable {F : Type} [Field F] [StarRing F]

theorem Mat.ext {M N : Mat F} (hh : M.height = N.height) (hw : M.width = N.width)
    (he : ∀ i j, M.entry i j = N.entry i j) : M = N := by
  cases M
  cases N
  simp only at hh hw he
  subst hh
  subst hw
  congr
  funext i j
  exact he i j

theorem View_get (A : Mat F) (i j h w a c : Nat) :
    (View A i j h w).get a c = if a < h ∧ c < w then A.get (i + a) (j + c) else 0 := by
  simp only [Mat.get, View]
  split <;> simp_all

theorem View_full {n : Nat} (A : Mat F) (hh : A.height = n) (hw : A.width = n) :
    (View A 0 0 n n).get = A.get := by
  funext a c
  rw [View_get]
  simp only [Nat.zero_add]
  split
  · rfl
  · rename_i h
    rw [get_of_not_lt]
    rw [hh, hw]
    exact h

theorem update_get (C : Mat F) (f : Nat → Nat → F) (i j : Nat) :
    (C.update f).get i j = if i < C.height ∧ j < C.width then f i j else 0 := by
  simp only [Mat.get, Mat.update]
  split <;> simp_all

theorem hermitianOf_congr (uplo : UpperOrLower) {M N : Mat F} (hh : M.height = N.height)
    (hw : M.width = N.width) (hg : M.get = N.get) : hermitianOf uplo M = hermitianOf uplo N := by
  apply Mat.ext
  · exact hh
  · exact hw
  · intro i j
    simp only [hermitianOf, hermEntry, hg]

theorem triOpEntry_congr (uplo : UpperOrLower) (o : Orientation) (diag : UnitOrNonUnit)
    {T S : Mat F} (hg : T.get = S.get) : triOpEntry uplo o diag T = triOpEntry uplo o diag S := by
  funext a p
  simp only [triOpEntry, triEntry, hg]

theorem Trsm_congr_T (side : LeftOrRight) (uplo : UpperOrLower) (o : Orientation)
    (diag : UnitOrNonUnit) (alpha : F) {T S : Mat F} (hg : T.get = S.get) (B : Mat F) :
    Trsm side uplo o diag alpha T B = Trsm side uplo o diag alpha S B := by
  simp only [Trsm, triOpEntry_congr uplo o diag hg]

theorem TwoSidedTrsmUUnb_congr_U (diag : UnitOrNonUnit) (A : Mat F) {T S : Mat F}
    (hg : T.get = S.get) : TwoSidedTrsmUUnb diag A T = TwoSidedTrsmUUnb diag A S := by
  simp only [TwoSidedTrsmUUnb, Trsm_congr_T _ _ _ _ _ hg]

/-- The base case reads `A` only through its bounds-checked entries: two matrices of one
shape with the same entries inside give the same entries inside the result. -/
theorem TwoSidedTrsmUUnb_entry_congr (diag : UnitOrNonUnit) {A B : Mat F} (U : Mat F)
    (hh : A.height = B.height) (hw : A.width = B.width) (hg : A.get = B.get) (i j : Nat) :
    (TwoSidedTrsmUUnb diag A U).get i j = (TwoSidedTrsmUUnb diag B U).get i j := by
  have hA : ∀ a c, a < A.height → c < A.width → A.entry a c = B.entry a c := by
    intro a c ha hc
    have := congrFun (congrFun hg a) c
    rwa [get_of_lt ha hc, get_of_lt (hh ▸ ha) (hw ▸ hc)] at this
  simp only [TwoSidedTrsmUUnb, update_get, hermitianOf_congr UPPER hh hw hg, hh, hw]
  split
  · rename_i hb
    split
    · rfl
    · exact hA i j (hh ▸ hb.1) (hw ▸ hb.2)
  · rfl

end Congruence

end elem

namespace elem

open UnitOrNonUnit Orientation LeftOrRight UpperOrLower

section Shapes

variable {F : Type} [Field F] [StarRing F]

@[simp] theorem View_height (A : Mat F) (i j h w : Nat) : (View A i j h w).height = h := rfl

@[simp] theorem View_width (A : Mat F) (i j h w : Nat) : (View A i j h w).width = w := rfl

@[simp] theorem Zeros_height (h w : Nat) : (Zeros h w : Mat F).height = h := rfl

@[simp] theorem Zeros_width (h w : Nat) : (Zeros h w : Mat F).width = w := rfl

@[simp] theorem Axpy_height (alpha : F) (X Y : Mat F) : (Axpy alpha X Y).height = Y.height :=
  rfl

@[simp] theorem Axpy_width (alpha : F) (X Y : Mat F) : (Axpy alpha X Y).width = Y.width := rfl

@[simp] theorem Gemm_height (oA oB : Orientation) (alpha beta : F) (A B C : Mat F) :
    (Gemm oA oB alpha A B beta C).height = C.height := rfl

@[simp] theorem Gemm_width (oA oB : Orientation) (alpha beta : F) (A B C : Mat F) :
    (Gemm oA oB alpha A B beta C).width = C.width := rfl

@[simp] theorem Hemm_height (side : LeftOrRight) (uplo : UpperOrLower) (alpha beta : F)
    (A B C : Mat F) : (Hemm side uplo alpha A B beta C).height = C.height := by
  cases side <;> rfl

@[simp] theorem Hemm_width (side : LeftOrRight) (uplo : UpperOrLower) (alpha beta : F)
    (A B C : Mat F) : (Hemm side uplo alpha A B beta C).width = C.width := by
  cases side <;> rfl

@[simp] theorem Her2k_height (uplo : UpperOrLower) (o : Orientation) (alpha beta : F)
    (A B C : Mat F) : (Her2k uplo o alpha A B beta C).height = C.height := rfl

@[simp] theorem Her2k_width (uplo : UpperOrLower) (o : Orientation) (alpha beta : F)
    (A B C : Mat F) : (Her2k uplo o alpha A B beta C).width = C.width := rfl

@[simp] theorem Trsm_height (side : LeftOrRight) (uplo : UpperOrLower) (o : Orientation)
    (diag : UnitOrNonUnit) (alpha : F) (T B : Mat F) :
    (Trsm side uplo o diag alpha T B).height = B.height := by
  cases side <;> rfl

@[simp] theorem Trsm_width (side : LeftOrRight) (uplo : UpperOrLower) (o : Orientation)
    (diag : UnitOrNonUnit) (alpha : F) (T B : Mat F) :
    (Trsm side uplo o diag alpha T B).width = B.width := by
  cases side <;> rfl

@[simp] theorem TwoSidedTrsmUUnb_height (diag : UnitOrNonUnit) (A U : Mat F) :
    (TwoSidedTrsmUUnb diag A U).height = A.height := rfl

@[simp] theorem TwoSidedTrsmUUnb_width (diag : UnitOrNonUnit) (A U : Mat F) :
    (TwoSidedTrsmUUnb diag A U).width = A.width := rfl

@[simp] theorem MakeTriangular_height (uplo : UpperOrLower) (M : Mat F) :
    (MakeTriangular uplo M).height = M.height := rfl

@[simp] theorem MakeTriangular_width (uplo : UpperOrLower) (M : Mat F) :
    (MakeTriangular uplo M).width = M.width := rfl

@[simp] theorem Adjoint_height (M : Mat F) : (Adjoint M).height = M.width := rfl

@[simp] theorem Adjoint_width (M : Mat F) : (Adjoint M).width = M.height := rfl

/-- Entries after the write-back of a `k x b` block `X01`, a `b x b` block `X11` and a
`b x r` block `X12` at the cut `k`. -/
theorem writeBack_entry (A X01 X11 X12 : Mat F) (k b r : Nat) (h01h : X01.height = k)
    (h01w : X01.width = b) (h11h : X11.height = b) (h11w : X11.width = b)
    (h12h : X12.height = b) (h12w : X12.width = r) (i j : Nat) :
    (writeBack A k X01 X11 X12).entry i j =
      if k ≤ i ∧ i < k + b ∧ k + b ≤ j ∧ j < k + b + r then X12.entry (i - k) (j - (k + b))
      else if k ≤ i ∧ i < k + b ∧ k ≤ j ∧ j < k + b then X11.entry (i - k) (j - k)
      else if i < k ∧ k ≤ j ∧ j < k + b then X01.entry i (j - k)
      else A.entry i j := by
  simp only [writeBack, Mat.setBlock, h01h, h01w, h11h, h11w, h12h, h12w, Nat.zero_le,
    true_and, Nat.zero_add, Nat.sub_zero]

end Shapes

section SingleBlock

variable {F : Type} [Field F] [StarRing F]

theorem Her2k_empty_get (uplo : UpperOrLower) (alpha : F) (A B C : Mat F)
    (hA : A.height = 0) :
    (Her2k uplo ADJOINT alpha A B 1 C).get = C.get := by
  funext i j
  simp only [Her2k, update_get, Mat.orient, hA, sumTo_zero, mul_zero, zero_add, one_mul]
  by_cases h : i < C.height ∧ j < C.width
  · rw [if_pos h, get_of_lt h.1 h.2]
    split <;> rfl
  · rw [if_neg h, get_of_not_lt h]

theorem seqIteration_single_block (diag : UnitOrNonUnit) {n bs : Nat} (A U : Mat F)
    (hAh : A.height = n) (hAw : A.width = n) (hUh : U.height = n) (hUw : U.width = n)
    (hn : n ≤ bs) : seqIteration diag bs A U 0 0 = TwoSidedTrsmUUnb diag A U := by
  have hbA : min bs (min (A.height - 0) (A.width - 0)) = n := by
    rw [hAh, hAw]; simp; exact hn
  have hbU : min bs (min (U.height - 0) (U.width - 0)) = n := by
    rw [hUh, hUw]; simp; exact hn
  refine Mat.ext rfl rfl ?_
  intro i j
  simp only [seqIteration, RepartitionDownDiagonal, hbA, hbU]
  rw [writeBack_entry A _ _ _ 0 n 0 (by simp) (by simp) (by simp) (by simp) (by simp)
    (by simp [hAw])]
  rw [TwoSidedTrsmUUnb_congr_U diag _ (View_full U hUh hUw)]
  have hC : (Her2k UPPER ADJOINT (-1) (View U 0 0 0 n)
      (Axpy (-1 / 2)
        (Hemm LEFT UPPER 1 (View A 0 0 0 0) (View U 0 0 0 n) 0
          (Zeros (View A 0 0 0 n).height (View A 0 0 0 n).width))
        (View A 0 0 0 n)) 1 (View A 0 0 n n)).get = A.get := by
    rw [Her2k_empty_get _ _ _ _ _ (by simp), View_full A hAh hAw]
  by_cases hin : i < n ∧ j < n
  · rw [if_neg (by omega), if_pos (by omega)]
    simp only [Nat.sub_zero]
    rw [← get_of_lt (by simpa using hin.1) (by simpa using hin.2),
      ← get_of_lt (by simpa [hAh] using hin.1) (by simpa [hAw] using hin.2)]
    exact TwoSidedTrsmUUnb_entry_congr diag U (by simp [hAh]) (by simp [hAw]) hC i j
  · rw [if_neg (by omega), if_neg (by omega), if_neg (by omega)]
    simp only [TwoSidedTrsmUUnb, Mat.update, hAh, hAw, if_neg hin]

end SingleBlock

end elem

namespace elem

open UnitOrNonUnit Orientation LeftOrRight UpperOrLower

section SingleBlockClaim

variable {F : Type} [Field F] [StarRing F]

theorem seqLoop_done (diag : UnitOrNonUnit) (bs : Nat) (U : Mat F) (fuel : Nat) (A : Mat F)
    (cA cU : Nat) (h : ¬ cA < A.height) : seqLoop diag bs U fuel A cA cU = some A := by
  cases fuel with
  | zero => rw [seqLoop_zero, if_neg h]
  | succ fuel => rw [seqLoop_succ, if_neg h]

theorem distLoop_done (diag : UnitOrNonUnit) (bs : Nat) (U : Mat F) (fuel : Nat) (A : Mat F)
    (cA cU : Nat) (h : ¬ cA < A.height) : distLoop diag bs U fuel A cA cU = some A := by
  cases fuel with
  | zero => rw [distLoop_zero, if_neg h]
  | succ fuel => rw [distLoop_succ, if_neg h]

/-- C5: single-block equivalence. For `n x n` matrices `A` and `U` with `1 ≤ n ≤ bs` and
every `diag`, the sequential driver runs exactly one pass of its loop (it has not returned
when no pass is allowed, and returns as soon as one is); in that pass `A00` is `0 x 0`,
`A01` is `0 x n`, `A02` is `0 x 0`, `A11` is `n x n` and `A12` is `n x 0`; and the matrix
returned is `TwoSidedTrsmUUnb( diag, A, U )` applied to the whole matrix, entry for entry. -/
theorem single_block_equivalence (n bs : Nat) (debug : Bool) (diag : UnitOrNonUnit)
    (A U : Mat F) (hAh : A.height = n) (hAw : A.width = n) (hUh : U.height = n)
    (hUw : U.width = n) (h1 : 1 ≤ n) (hn : n ≤ bs) :
    TwoSidedTrsmUVar2 debug bs 0 diag A U = Outcome.running ∧
      (∀ fuel, 1 ≤ fuel →
        TwoSidedTrsmUVar2 debug bs fuel diag A U =
          Outcome.returned (TwoSidedTrsmUUnb diag A U)) ∧
      ((RepartitionDownDiagonal A 0 bs).A00.height = 0 ∧
        (RepartitionDownDiagonal A 0 bs).A00.width = 0 ∧
        (RepartitionDownDiagonal A 0 bs).A01.height = 0 ∧
        (RepartitionDownDiagonal A 0 bs).A01.width = n ∧
        (RepartitionDownDiagonal A 0 bs).A02.height = 0 ∧
        (RepartitionDownDiagonal A 0 bs).A02.width = 0 ∧
        (RepartitionDownDiagonal A 0 bs).A11.height = n ∧
        (RepartitionDownDiagonal A 0 bs).A11.width = n ∧
        (RepartitionDownDiagonal A 0 bs).A12.height = n ∧
        (RepartitionDownDiagonal A 0 bs).A12.width = 0) := by
  have hb : min bs n = n := Nat.min_eq_right hn
  refine ⟨?_, ?_, ?_⟩
  · rw [seq_of_square debug bs 0 diag A U hAh hAw hUh hUw, seqLoop_zero, hAh,
      if_pos (by omega)]
  · intro fuel hfuel
    obtain ⟨f, rfl⟩ : ∃ f, fuel = f + 1 := ⟨fuel - 1, by omega⟩
    rw [seq_of_square debug bs (f + 1) diag A U hAh hAw hUh hUw, seqLoop_succ, hAh,
      if_pos (by omega), slide_square A hAh hAw, slide_square U hUh hUw,
      seqLoop_done _ _ _ _ _ _ _ (by simp [hAh, hb]),
      seqIteration_single_block diag A U hAh hAw hUh hUw hn]
  · simp [RepartitionDownDiagonal, hAh, hAw, hb]

/-- C5, witness: the 4 x 4 example with block size 4. -/
theorem single_block_equivalence_witness :
    TwoSidedTrsmUVar2 true 4 0 NON_UNIT exampleA4 exampleU4 = Outcome.running ∧
      (∀ fuel, 1 ≤ fuel →
        TwoSidedTrsmUVar2 true 4 fuel NON_UNIT exampleA4 exampleU4 =
          Outcome.returned (TwoSidedTrsmUUnb NON_UNIT exampleA4 exampleU4)) ∧
      ((RepartitionDownDiagonal exampleA4 0 4).A00.height = 0 ∧
        (RepartitionDownDiagonal exampleA4 0 4).A00.width = 0 ∧
        (RepartitionDownDiagonal exampleA4 0 4).A01.height = 0 ∧
        (RepartitionDownDiagonal exampleA4 0 4).A01.width = 4 ∧
        (RepartitionDownDiagonal exampleA4 0 4).A02.height = 0 ∧
        (RepartitionDownDiagonal exampleA4 0 4).A02.width = 0 ∧
        (RepartitionDownDiagonal exampleA4 0 4).A11.height = 4 ∧
        (RepartitionDownDiagonal exampleA4 0 4).A11.width = 4 ∧
        (RepartitionDownDiagonal exampleA4 0 4).A12.height = 4 ∧
        (RepartitionDownDiagonal exampleA4 0 4).A12.width = 0) :=
  single_block_equivalence 4 4 true NON_UNIT exampleA4 exampleU4 rfl rfl rfl rfl
    (by decide) (by decide)

end SingleBlockClaim

end elem

namespace elem

open UnitOrNonUnit Orientation LeftOrRight UpperOrLower

section UnitDiagonal

variable {F : Type} [Field F] [StarRing F]

theorem triOpEntry_unit_congr (uplo : UpperOrLower) (o : Orientation) {T S : Mat F}
    (hoff : ∀ a p, a ≠ p → T.get a p = S.get a p) :
    triOpEntry uplo o UNIT T = triOpEntry uplo o UNIT S := by
  funext a p
  cases o <;> cases uplo <;> simp only [triOpEntry, triEntry] <;>
    (split
     · rfl
     · rename_i hne
       first
         | rw [hoff a p hne]
         | rw [hoff p a hne])

theorem Trsm_unit_congr (side : LeftOrRight) (uplo : UpperOrLower) (o : Orientation)
    (alpha : F) {T S : Mat F} (hoff : ∀ a p, a ≠ p → T.get a p = S.get a p) (B : Mat F) :
    Trsm side uplo o UNIT alpha T B = Trsm side uplo o UNIT alpha S B := by
  simp only [Trsm, triOpEntry_unit_congr uplo o hoff]

theorem TwoSidedTrsmUUnb_unit_congr {T S : Mat F}
    (hoff : ∀ a p, a ≠ p → T.get a p = S.get a p) (A : Mat F) :
    TwoSidedTrsmUUnb UNIT A T = TwoSidedTrsmUUnb UNIT A S := by
  simp only [TwoSidedTrsmUUnb, Trsm_unit_congr _ _ _ _ hoff]

/-- Two `n x n` matrices that agree off the diagonal agree off the diagonal everywhere. -/
theorem off_diagonal_everywhere {n : Nat} {U V : Mat F} (hUh : U.height = n)
    (hUw : U.width = n) (hVh : V.height = n) (hVw : V.width = n)
    (hoff : ∀ i, i < n → ∀ j, j < n → i ≠ j → U.get i j = V.get i j) (i j : Nat)
    (hne : i ≠ j) : U.get i j = V.get i j := by
  by_cases h : i < n ∧ j < n
  · exact hoff i h.1 j h.2 hne
  · rw [get_of_not_lt (by rw [hUh, hUw]; exact h), get_of_not_lt (by rw [hVh, hVw]; exact h)]

theorem View_above_diagonal_congr {U V : Mat F} (hoff : ∀ i j, i ≠ j → U.get i j = V.get i j)
    (k b : Nat) : View U 0 k k b = View V 0 k k b := by
  refine Mat.ext rfl rfl ?_
  intro a c
  simp only [View]
  split
  · rename_i h
    exact hoff _ _ (by omega)
  · rfl

theorem View_diagonal_block_off {U V : Mat F} (hoff : ∀ i j, i ≠ j → U.get i j = V.get i j)
    (k b : Nat) (a p : Nat) (hne : a ≠ p) :
    (View U k k b b).get a p = (View V k k b b).get a p := by
  rw [View_get, View_get]
  split
  · exact hoff _ _ (by omega)
  · rfl

theorem seqIteration_unit_congr (bs : Nat) (A : Mat F) {U V : Mat F}
    (hh : U.height = V.height) (hw : U.width = V.width)
    (hoff : ∀ i j, i ≠ j → U.get i j = V.get i j) (cA cU : Nat) :
    seqIteration UNIT bs A U cA cU = seqIteration UNIT bs A V cA cU := by
  simp only [seqIteration, RepartitionDownDiagonal, hh, hw,
    View_above_diagonal_congr hoff,
    Trsm_unit_congr _ _ _ _ (View_diagonal_block_off hoff cU _),
    TwoSidedTrsmUUnb_unit_congr (View_diagonal_block_off hoff cU _)]

theorem distIteration_unit_congr (bs : Nat) (A : Mat F) {U V : Mat F}
    (hh : U.height = V.height) (hw : U.width = V.width)
    (hoff : ∀ i j, i ≠ j → U.get i j = V.get i j) (cA cU : Nat) :
    distIteration UNIT bs A U cA cU = distIteration UNIT bs A V cA cU := by
  simp only [distIteration, RepartitionDownDiagonal, hh, hw, redistribute, LocalTrsm,
    LocalTwoSidedTrsm, View_above_diagonal_congr hoff,
    Trsm_unit_congr _ _ _ _ (View_diagonal_block_off hoff cU _),
    TwoSidedTrsmUUnb_unit_congr (View_diagonal_block_off hoff cU _)]

theorem seqLoop_unit_congr (bs : Nat) {U V : Mat F} (hh : U.height = V.height)
    (hw : U.width = V.width) (hoff : ∀ i j, i ≠ j → U.get i j = V.get i j) :
    ∀ fuel (A : Mat F) cA cU,
      seqLoop UNIT bs U fuel A cA cU = seqLoop UNIT bs V fuel A cA cU := by
  intro fuel
  induction fuel with
  | zero => intro A cA cU; rfl
  | succ fuel ih =>
    intro A cA cU
    rw [seqLoop_succ, seqLoop_succ, seqIteration_unit_congr bs A hh hw hoff, ih]
    simp only [RepartitionDownDiagonal, hh, hw, SlidePartitionDownDiagonal, View_height]

theorem distLoop_unit_congr (bs : Nat) {U V : Mat F} (hh : U.height = V.height)
    (hw : U.width = V.width) (hoff : ∀ i j, i ≠ j → U.get i j = V.get i j) :
    ∀ fuel (A : Mat F) cA cU,
      distLoop UNIT bs U fuel A cA cU = distLoop UNIT bs V fuel A cA cU := by
  intro fuel
  induction fuel with
  | zero => intro A cA cU; rfl
  | succ fuel ih =>
    intro A cA cU
    rw [distLoop_succ, distLoop_succ, distIteration_unit_congr bs A hh hw hoff, ih]
    simp only [RepartitionDownDiagonal, hh, hw, SlidePartitionDownDiagonal, View_height]

/-- Both loops return on square matrices of one size as soon as `n` passes are allowed
and the block size is positive. -/
theorem seqLoop_returns {n bs : Nat} (hbs : 1 ≤ bs) (diag : UnitOrNonUnit) (A U : Mat F)
    (hAh : A.height = n) (hAw : A.width = n) (hUh : U.height = n) (hUw : U.width = n)
    (fuel : Nat) (hfuel : n ≤ fuel) :
    ∃ R, seqLoop diag bs U fuel A 0 0 = some R ∧ R.height = n ∧ R.width = n :=
  loop_rule hbs U hUh hUw (seqLoop diag bs U) (fun A cA cU => seqIteration diag bs A U cA cU)
    (seqLoop_zero diag bs U) (seqLoop_succ diag bs U)
    (fun _ A => A.height = n ∧ A.width = n) (fun _ _ h => h)
    (fun _ _ _ h => h) fuel 0 A (Nat.zero_le n) (by omega) ⟨hAh, hAw⟩

theorem distLoop_returns {n bs : Nat} (hbs : 1 ≤ bs) (diag : UnitOrNonUnit) (A U : Mat F)
    (hAh : A.height = n) (hAw : A.width = n) (hUh : U.height = n) (hUw : U.width = n)
    (fuel : Nat) (hfuel : n ≤ fuel) :
    ∃ R, distLoop diag bs U fuel A 0 0 = some R ∧ R.height = n ∧ R.width = n :=
  loop_rule hbs U hUh hUw (distLoop diag bs U)
    (fun A cA cU => distIteration diag bs A U cA cU)
    (distLoop_zero diag bs U) (distLoop_succ diag bs U)
    (fun _ A => A.height = n ∧ A.width = n) (fun _ _ h => h)
    (fun _ _ _ h => h) fuel 0 A (Nat.zero_le n) (by omega) ⟨hAh, hAw⟩

/-- C6: unit-diagonal mode ignores the diagonal of `U`. For `n x n` matrices `U` and `V`
that agree in every off-diagonal entry, every `A` and every block size, both forms of
`TwoSidedTrsmUVar2( UNIT, A, . )` have the same outcome on `U` and on `V`; and for an
`n x n` matrix `A`, a positive block size and `n` passes allowed, each form returns, and
returns the same matrix for `U` and for `V`. -/
theorem unit_diagonal_ignored (n : Nat) (U V : Mat F) (hUh : U.height = n)
    (hUw : U.width = n) (hVh : V.height = n) (hVw : V.width = n)
    (hoff : ∀ i, i < n → ∀ j, j < n → i ≠ j → U.get i j = V.get i j)
    (A : Mat F) (debug : Bool) (bs fuel : Nat) :
    TwoSidedTrsmUVar2 debug bs fuel UNIT A U = TwoSidedTrsmUVar2 debug bs fuel UNIT A V ∧
      TwoSidedTrsmUVar2Dist debug bs fuel UNIT A U =
        TwoSidedTrsmUVar2Dist debug bs fuel UNIT A V ∧
      (A.height = n → A.width = n → 1 ≤ bs → n ≤ fuel →
        ∃ R S, TwoSidedTrsmUVar2 debug bs fuel UNIT A U = Outcome.returned R ∧
          TwoSidedTrsmUVar2 debug bs fuel UNIT A V = Outcome.returned R ∧
          TwoSidedTrsmUVar2Dist debug bs fuel UNIT A U = Outcome.returned S ∧
          TwoSidedTrsmUVar2Dist debug bs fuel UNIT A V = Outcome.returned S) := by
  have hoff2 := off_diagonal_everywhere hUh hUw hVh hVw hoff
  have hh : U.height = V.height := by rw [hUh, hVh]
  have hw : U.width = V.width := by rw [hUw, hVw]
  have hseq : TwoSidedTrsmUVar2 debug bs fuel UNIT A U =
      TwoSidedTrsmUVar2 debug bs fuel UNIT A V := by
    simp only [TwoSidedTrsmUVar2, PartitionDownDiagonal, hh, hw,
      seqLoop_unit_congr bs hh hw hoff2]
  have hdist : TwoSidedTrsmUVar2Dist debug bs fuel UNIT A U =
      TwoSidedTrsmUVar2Dist debug bs fuel UNIT A V := by
    simp only [TwoSidedTrsmUVar2Dist, PartitionDownDiagonal, hh, hw,
      distLoop_unit_congr bs hh hw hoff2]
  refine ⟨hseq, hdist, ?_⟩
  intro hAh hAw hbs hfuel
  obtain ⟨R, hR, -⟩ := seqLoop_returns hbs UNIT A U hAh hAw hUh hUw fuel hfuel
  obtain ⟨S, hS, -⟩ := distLoop_returns hbs UNIT A U hAh hAw hUh hUw fuel hfuel
  have h1 : TwoSidedTrsmUVar2 debug bs fuel UNIT A U = Outcome.returned R := by
    rw [seq_of_square debug bs fuel UNIT A U hAh hAw hUh hUw, hR]
  have h2 : TwoSidedTrsmUVar2Dist debug bs fuel UNIT A U = Outcome.returned S := by
    rw [dist_of_square debug bs fuel UNIT A U hAh hAw hUh hUw, hS]
  exact ⟨R, S, h1, hseq ▸ h1, h2, hdist ▸ h2⟩

end UnitDiagonal

end elem

namespace elem

open UnitOrNonUnit Orientation LeftOrRight UpperOrLower

/-- C6, witness: the 4 x 4 example, with the diagonal `(2,2,2,2)` of `U` replaced by
ones. -/
theorem unit_diagonal_ignored_witness :
    (∀ i, i < 4 → ∀ j, j < 4 → i ≠ j → exampleU4.get i j = exampleU4Unit.get i j) ∧
      (TwoSidedTrsmUVar2 true 2 4 UNIT exampleA4 exampleU4 =
          TwoSidedTrsmUVar2 true 2 4 UNIT exampleA4 exampleU4Unit ∧
        TwoSidedTrsmUVar2Dist true 2 4 UNIT exampleA4 exampleU4 =
          TwoSidedTrsmUVar2Dist true 2 4 UNIT exampleA4 exampleU4Unit ∧
        (exampleA4.height = 4 → exampleA4.width = 4 → 1 ≤ 2 → 4 ≤ 4 →
          ∃ R S, TwoSidedTrsmUVar2 true 2 4 UNIT exampleA4 exampleU4 = Outcome.returned R ∧
            TwoSidedTrsmUVar2 true 2 4 UNIT exampleA4 exampleU4Unit = Outcome.returned R ∧
            TwoSidedTrsmUVar2Dist true 2 4 UNIT exampleA4 exampleU4 = Outcome.returned S ∧
            TwoSidedTrsmUVar2Dist true 2 4 UNIT exampleA4 exampleU4Unit =
              Outcome.returned S)) :=
  ⟨by decide!,
    unit_diagonal_ignored 4 exampleU4 exampleU4Unit rfl rfl rfl rfl (by decide!) exampleA4
      true 2 4⟩

end elem

namespace elem

open UnitOrNonUnit Orientation LeftOrRight UpperOrLower

section Solve

variable {F : Type} [Field F] [StarRing F]

/-- Forward substitution finds the solution: if the right-hand side is the product of the
lower-triangular matrix with `w` and the diagonal is nonzero, the unknowns are `w`. -/
theorem solveLowerUpTo_spec (L : Nat → Nat → F) (d c w : Nat → F) :
    ∀ m, (∀ a, a < m → d a ≠ 0) →
      (∀ a, a < m → c a = sumTo a (fun p => L a p * w p) + d a * w a) →
      ∀ a, a < m → solveLowerUpTo L d c m a = w a := by
  intro m
  induction m with
  | zero => intro _ _ a ha; omega
  | succ m ih =>
    intro hd hc a ha
    have ih2 := ih (fun a h => hd a (Nat.lt_succ_of_lt h)) (fun a h => hc a (Nat.lt_succ_of_lt h))
    simp only [solveLowerUpTo]
    by_cases h : a = m
    · rw [if_pos h, sumTo_congr (g := fun p => L m p * w p)
        (fun p hp => by rw [ih2 p hp]), hc m (Nat.lt_succ_self m), h]
      have := hd m (Nat.lt_succ_self m)
      field_simp
    · rw [if_neg h]
      exact ih2 a (by omega)

/-- Forward substitution reads the system only below its size. -/
theorem solveLowerUpTo_congr {L L2 : Nat → Nat → F} {d d2 c c2 : Nat → F} :
    ∀ m, (∀ a p, p < a → a < m → L a p = L2 a p) → (∀ a, a < m → d a = d2 a) →
      (∀ a, a < m → c a = c2 a) →
      ∀ a, solveLowerUpTo L d c m a = solveLowerUpTo L2 d2 c2 m a := by
  intro m
  induction m with
  | zero => intro _ _ _ a; rfl
  | succ m ih =>
    intro hL hd hc a
    have ih2 := ih (fun a p hp h => hL a p hp (Nat.lt_succ_of_lt h))
      (fun a h => hd a (Nat.lt_succ_of_lt h)) (fun a h => hc a (Nat.lt_succ_of_lt h))
    simp only [solveLowerUpTo]
    rw [hc m (Nat.lt_succ_self m), hd m (Nat.lt_succ_self m), ih2 a,
      sumTo_congr (g := fun p => L2 m p * solveLowerUpTo L2 d2 c2 m p)
        (fun p hp => by rw [hL m p hp (Nat.lt_succ_self m), ih2 p])]

/-- Entries of `B op(T)⁻¹` for `RIGHT, UPPER, NORMAL`: the right solve with an upper
triangular `T`; `X T = α B` row by row. -/
theorem Trsm_right_solves (diag : UnitOrNonUnit) (alpha : F) (T B : Mat F)
    (W : Nat → Nat → F) (hd : ∀ a, a < B.width → triEntry UPPER diag T a a ≠ 0)
    (hB : ∀ i a, i < B.height → a < B.width →
      alpha * B.get i a = sumTo a (fun p => T.get p a * W i p) + triEntry UPPER diag T a a * W i a)
    (i j : Nat) (hi : i < B.height) (hj : j < B.width) :
    (Trsm RIGHT UPPER NORMAL diag alpha T B).entry i j = W i j := by
  simp only [Trsm, Mat.update, opIsLower, triSolve, Bool.not_false, if_true, hi, hj, and_self]
  apply solveLowerUpTo_spec _ _ _ (W i) B.width
  · intro a ha
    exact hd a ha
  · intro a ha
    rw [hB i a hi ha]
    congr 1
    apply sumTo_congr
    intro p hp
    simp only [triOpEntry, triEntry, if_neg (Nat.ne_of_lt hp), if_pos hp]
  · exact hj

/-- Entries of `op(T)⁻¹ B` for `LEFT, UPPER, ADJOINT`: the left solve with the adjoint
of an upper triangular `T`; `Tᴴ X = α B` column by column. -/
theorem Trsm_left_adjoint_solves (diag : UnitOrNonUnit) (alpha : F) (T B : Mat F)
    (W : Nat → Nat → F) (hd : ∀ a, a < B.height → triEntry UPPER diag T a a ≠ 0)
    (hB : ∀ a j, a < B.height → j < B.width →
      alpha * B.get a j =
        sumTo a (fun p => star (T.get p a) * W p j) + star (triEntry UPPER diag T a a) * W a j)
    (i j : Nat) (hi : i < B.height) (hj : j < B.width) :
    (Trsm LEFT UPPER ADJOINT diag alpha T B).entry i j = W i j := by
  simp only [Trsm, Mat.update, opIsLower, triSolve, if_true, hi, hj, and_self]
  apply solveLowerUpTo_spec _ _ _ (fun a => W a j) B.height
  · intro a ha
    simp only [triOpEntry]
    intro h
    apply hd a ha
    simpa using h
  · intro a ha
    rw [hB a j ha hj]
    congr 1
    apply sumTo_congr
    intro p hp
    simp only [triOpEntry, triEntry, if_neg (Nat.ne_of_lt hp), if_pos hp]
  · exact hi

end Solve

end elem

namespace elem

open UnitOrNonUnit Orientation LeftOrRight UpperOrLower

section Identity

variable {F : Type} [Field F] [StarRing F]

@[simp] theorem sumTo_const_zero (n : Nat) : sumTo n (fun _ => (0 : F)) = 0 :=
  sumTo_eq_zero (fun _ _ => rfl)

theorem Zeros_get (h w i j : Nat) : (Zeros h w : Mat F).get i j = 0 := by
  simp [Mat.get, Zeros]

theorem Hemm_zero_B (uplo : UpperOrLower) (alpha : F) (A B : Mat F) (h w : Nat)
    (hB : ∀ l j, B.get l j = 0) : Hemm LEFT uplo alpha A B 0 (Zeros h w) = Zeros h w := by
  refine Mat.ext rfl rfl ?_
  intro i j
  simp [Hemm, Mat.update, Zeros, hB]

theorem Axpy_zero_X (alpha : F) (X Y : Mat F) (hX : ∀ i j, X.get i j = 0) :
    Axpy alpha X Y = Y := by
  refine Mat.ext rfl rfl ?_
  intro i j
  simp [Axpy, Mat.update, hX]

theorem orient_adjoint_get (M : Mat F) (i l : Nat) :
    (M.orient ADJOINT).get i l = if i < M.width ∧ l < M.height then star (M.get l i) else 0 :=
  rfl

theorem orient_normal (M : Mat F) : M.orient NORMAL = M := rfl

theorem Her2k_zero_A (uplo : UpperOrLower) (alpha : F) (A B C : Mat F)
    (hA : ∀ l j, A.get l j = 0) : Her2k uplo ADJOINT alpha A B 1 C = C := by
  have hA2 : ∀ i l, (A.orient ADJOINT).get i l = 0 := by
    intro i l
    rw [orient_adjoint_get, hA, star_zero, ite_self]
  refine Mat.ext rfl rfl ?_
  intro i j
  simp only [Her2k, Mat.update, hA2, zero_mul, star_zero, mul_zero, sumTo_const_zero,
    add_zero, zero_add, one_mul, ite_self]

theorem Gemm_zero_B (oA : Orientation) (alpha : F) (A B C : Mat F)
    (hB : ∀ l j, B.get l j = 0) : Gemm oA NORMAL alpha A B 1 C = C := by
  refine Mat.ext rfl rfl ?_
  intro i j
  simp [Gemm, Mat.update, Mat.orient, hB]

theorem Trsm_right_identity (T B : Mat F)
    (hT : ∀ a p, a < B.width → p < B.width → T.get a p = if a = p then 1 else 0) :
    Trsm RIGHT UPPER NORMAL NON_UNIT 1 T B = B := by
  refine Mat.ext (by simp) (by simp) ?_
  intro i j
  by_cases h : i < B.height ∧ j < B.width
  · refine Trsm_right_solves NON_UNIT 1 T B (fun i j => B.entry i j) ?_ ?_ i j h.1 h.2
    · intro a ha
      simp [triEntry, hT a a ha ha]
    · intro i a hi ha
      rw [sumTo_eq_zero]
      · simp [triEntry, hT a a ha ha, get_of_lt hi ha]
      · intro p hp
        rw [hT p a (by omega) ha, if_neg (by omega), zero_mul]
  · simp only [Trsm, Mat.update, if_neg h]

theorem Trsm_left_adjoint_identity (T B : Mat F)
    (hT : ∀ a p, a < B.height → p < B.height → T.get a p = if a = p then 1 else 0) :
    Trsm LEFT UPPER ADJOINT NON_UNIT 1 T B = B := by
  refine Mat.ext (by simp) (by simp) ?_
  intro i j
  by_cases h : i < B.height ∧ j < B.width
  · refine Trsm_left_adjoint_solves NON_UNIT 1 T B (fun i j => B.entry i j) ?_ ?_ i j h.1 h.2
    · intro a ha
      simp [triEntry, hT a a ha ha]
    · intro a j ha hj
      rw [sumTo_eq_zero]
      · simp [triEntry, hT a a ha ha, get_of_lt ha hj]
      · intro p hp
        rw [hT p a (by omega) ha, if_neg (by omega), star_zero, zero_mul]
  · simp only [Trsm, Mat.update, if_neg h]

theorem TwoSidedTrsmUUnb_identity (A T : Mat F)
    (hTw : ∀ a p, a < A.width → p < A.width → T.get a p = if a = p then 1 else 0)
    (hTh : ∀ a p, a < A.height → p < A.height → T.get a p = if a = p then 1 else 0) :
    TwoSidedTrsmUUnb NON_UNIT A T = A := by
  refine Mat.ext rfl rfl ?_
  intro i j
  simp only [TwoSidedTrsmUUnb]
  rw [Trsm_right_identity T (hermitianOf UPPER A) hTw,
    Trsm_left_adjoint_identity T (hermitianOf UPPER A) hTh]
  simp only [Mat.update, hermitianOf, hermEntry]
  by_cases h : i < A.height ∧ j < A.width
  · rw [if_pos h]
    split
    · exact get_of_lt h.1 h.2
    · rfl
  · rw [if_neg h]

/-- Writing back the three views unchanged leaves the matrix unchanged. -/
theorem writeBack_views (A : Mat F) (k b r : Nat) (hh : k + b ≤ A.height)
    (hw : k + b + r ≤ A.width) :
    writeBack A k (View A 0 k k b) (View A k k b b) (View A k (k + b) b r) = A := by
  refine Mat.ext rfl rfl ?_
  intro i j
  rw [writeBack_entry A _ _ _ k b r rfl rfl rfl rfl rfl rfl]
  simp only [View, Mat.get]
  split
  · rename_i h
    rw [if_pos (by omega), if_pos (by omega)]
    congr 1 <;> omega
  · split
    · rename_i h
      rw [if_pos (by omega), if_pos (by omega)]
      congr 1 <;> omega
    · split
      · rename_i h
        rw [if_pos (by omega), if_pos (by omega)]
        congr 1 <;> omega
      · rfl

theorem identity_get_off {n : Nat} {U : Mat F} (hUh : U.height = n) (hUw : U.width = n)
    (hU : ∀ i, i < n → ∀ j, j < n → U.get i j = if i = j then 1 else 0) (i j : Nat)
    (hne : i ≠ j) : U.get i j = 0 := by
  by_cases h : i < n ∧ j < n
  · rw [hU i h.1 j h.2, if_neg hne]
  · exact get_of_not_lt (by rw [hUh, hUw]; exact h)

theorem seqIteration_identity {n : Nat} (bs : Nat) (A U : Mat F) (hAh : A.height = n)
    (hAw : A.width = n) (hUh : U.height = n) (hUw : U.width = n)
    (hU : ∀ i, i < n → ∀ j, j < n → U.get i j = if i = j then 1 else 0) (k : Nat)
    (hk : k ≤ n) : seqIteration NON_UNIT bs A U k k = A := by
  have hb : min bs (n - k) ≤ n - k := Nat.min_le_right _ _
  have hU01 : ∀ l j, (View U 0 k k (min bs (n - k))).get l j = 0 := by
    intro l j
    rw [View_get]
    split
    · exact identity_get_off hUh hUw hU _ _ (by omega)
    · rfl
  have hU11 : ∀ a p, a < min bs (n - k) → p < min bs (n - k) →
      (View U k k (min bs (n - k)) (min bs (n - k))).get a p = if a = p then 1 else 0 := by
    intro a p ha hp
    rw [View_get, if_pos ⟨ha, hp⟩, hU (k + a) (by omega) (k + p) (by omega)]
    by_cases h : a = p
    · rw [if_pos h, if_pos (by omega)]
    · rw [if_neg h, if_neg (by omega)]
  simp only [seqIteration, RepartitionDownDiagonal, hAh, hAw, hUh, hUw, Nat.min_self]
  rw [Hemm_zero_B _ _ _ _ _ _ hU01, Axpy_zero_X _ _ _ (Zeros_get _ _),
    Axpy_zero_X _ _ _ (Zeros_get _ _), Her2k_zero_A _ _ _ _ _ hU01,
    Gemm_zero_B _ _ _ _ _ hU01, Trsm_right_identity _ _ hU11,
    Trsm_left_adjoint_identity _ _ hU11, TwoSidedTrsmUUnb_identity _ _ hU11 hU11]
  exact writeBack_views A k _ _ (by rw [hAh]; omega) (by rw [hAw]; omega)

/-- C7: the identity leaves `A` unchanged. For every `n x n` matrix `A`, every block size
`bs ≥ 1` and `U` the `n x n` identity, `TwoSidedTrsmUVar2( NON_UNIT, A, U )` returns, and the
matrix returned has the shape of `A` and the upper triangle of `A`, exactly. -/
theorem identity_leaves_upper_triangle (n bs fuel : Nat) (debug : Bool) (A U : Mat F)
    (hAh : A.height = n) (hAw : A.width = n) (hUh : U.height = n) (hUw : U.width = n)
    (hU : ∀ i, i < n → ∀ j, j < n → U.get i j = if i = j then 1 else 0) (hbs : 1 ≤ bs)
    (hfuel : n ≤ fuel) :
    ∃ R, TwoSidedTrsmUVar2 debug bs fuel NON_UNIT A U = Outcome.returned R ∧
      R.height = n ∧ R.width = n ∧ ∀ i j, i ≤ j → j < n → R.get i j = A.get i j := by
  obtain ⟨R, hR, hRA⟩ := loop_rule hbs U hUh hUw (seqLoop NON_UNIT bs U)
    (fun A cA cU => seqIteration NON_UNIT bs A U cA cU)
    (seqLoop_zero NON_UNIT bs U) (seqLoop_succ NON_UNIT bs U)
    (fun _ B => B = A) (fun _ B h => by rw [h]; exact ⟨hAh, hAw⟩)
    (fun k B hk h => by
      rw [h]
      exact seqIteration_identity bs A U hAh hAw hUh hUw hU k (Nat.le_of_lt hk))
    fuel 0 A (Nat.zero_le n) (by omega) rfl
  refine ⟨R, ?_, ?_, ?_, ?_⟩
  · rw [seq_of_square debug bs fuel NON_UNIT A U hAh hAw hUh hUw, hR]
  · rw [hRA, hAh]
  · rw [hRA, hAw]
  · intro i j _ _
    rw [hRA]

/-- C7, witness: the 4 x 4 example with the 4 x 4 identity and block size 2. -/
theorem identity_leaves_upper_triangle_witness :
    (∀ i, i < 4 → ∀ j, j < 4 → exampleI4.get i j = if i = j then 1 else 0) ∧
      ∃ R, TwoSidedTrsmUVar2 true 2 4 NON_UNIT exampleA4 exampleI4 = Outcome.returned R ∧
        R.height = 4 ∧ R.width = 4 ∧
        ∀ i j, i ≤ j → j < 4 → R.get i j = exampleA4.get i j :=
  ⟨by decide!,
    identity_leaves_upper_triangle 4 2 4 true exampleA4 exampleI4 rfl rfl rfl rfl
      (by decide!) (by decide) (by decide)⟩

end Identity

end elem

namespace elem

open UnitOrNonUnit Orientation LeftOrRight UpperOrLower

section LowerTriangle

variable {F : Type} [Field F] [StarRing F]

theorem SameUpper.refl (A : Mat F) : SameUpper A A := ⟨rfl, rfl, fun _ _ _ => rfl⟩

theorem View_strictly_upper_congr {A B : Mat F} (h : SameUpper A B) (i j hgt wid : Nat)
    (hij : i + hgt ≤ j + 1) : View A i j hgt wid = View B i j hgt wid := by
  refine Mat.ext rfl rfl ?_
  intro a c
  simp only [View]
  split
  · exact h.2.2 _ _ (by omega)
  · rfl

theorem View_diagonal_sameUpper {A B : Mat F} (h : SameUpper A B) (k b : Nat) :
    SameUpper (View A k k b b) (View B k k b b) := by
  refine ⟨rfl, rfl, ?_⟩
  intro a c hac
  rw [View_get, View_get]
  split
  · exact h.2.2 _ _ (by omega)
  · rfl

theorem hermEntry_upper_congr {A B : Mat F} (h : SameUpper A B) :
    hermEntry UPPER A = hermEntry UPPER B := by
  funext i j
  simp only [hermEntry]
  split
  · exact h.2.2 i j (by assumption)
  · rw [h.2.2 j i (by omega)]

theorem hermitianOf_upper_congr {A B : Mat F} (h : SameUpper A B) :
    hermitianOf UPPER A = hermitianOf UPPER B := by
  refine Mat.ext h.1 h.2.1 ?_
  intro i j
  simp only [hermitianOf, hermEntry_upper_congr h]

theorem Hemm_left_upper_congr (alpha beta : F) {A B : Mat F} (h : SameUpper A B)
    (X C : Mat F) : Hemm LEFT UPPER alpha A X beta C = Hemm LEFT UPPER alpha B X beta C := by
  simp only [Hemm, hermEntry_upper_congr h, h.1]

theorem sameUpper_entry {C D : Mat F} (h : SameUpper C D) {i j : Nat} (hij : i ≤ j)
    (hi : i < C.height) (hj : j < C.width) : C.entry i j = D.entry i j := by
  have := h.2.2 i j hij
  rwa [get_of_lt hi hj, get_of_lt (h.1 ▸ hi) (h.2.1 ▸ hj)] at this

theorem Her2k_upper_sameUpper (o : Orientation) (alpha beta : F) (X Y : Mat F)
    {C D : Mat F} (h : SameUpper C D) :
    SameUpper (Her2k UPPER o alpha X Y beta C) (Her2k UPPER o alpha X Y beta D) := by
  refine ⟨h.1, h.2.1, ?_⟩
  intro i j hij
  simp only [Her2k, update_get, ← h.1, ← h.2.1]
  split
  · rename_i hb
    simp only [decide_eq_true hij, if_true, sameUpper_entry h hij hb.1 hb.2]
  · rfl

theorem Axpy_sameUpper (alpha : F) (X : Mat F) {C D : Mat F} (h : SameUpper C D) :
    SameUpper (Axpy alpha X C) (Axpy alpha X D) := by
  refine ⟨h.1, h.2.1, ?_⟩
  intro i j hij
  simp only [Axpy, update_get, ← h.1, ← h.2.1]
  split
  · rename_i hb
    rw [sameUpper_entry h hij hb.1 hb.2]
  · rfl

theorem TwoSidedTrsmUUnb_sameUpper (diag : UnitOrNonUnit) (T : Mat F) {C D : Mat F}
    (h : SameUpper C D) :
    SameUpper (TwoSidedTrsmUUnb diag C T) (TwoSidedTrsmUUnb diag D T) := by
  refine ⟨h.1, h.2.1, ?_⟩
  intro i j hij
  simp only [TwoSidedTrsmUUnb, update_get, hermitianOf_upper_congr h, ← h.1, ← h.2.1,
    if_pos hij]

theorem LocalSymmetricAccumulateLU_congr (o : Orientation) (alpha : F) {A B : Mat F}
    (h : SameUpper A B) (X XAdj ZMC ZMR : Mat F) :
    LocalSymmetricAccumulateLU o alpha A X XAdj ZMC ZMR =
      LocalSymmetricAccumulateLU o alpha B X XAdj ZMC ZMR := by
  have e1 : ∀ i j, sumTo B.height
        (fun l => (if i ≤ l then A.get i l else 0) * orientScalar o (XAdj.get j l)) =
      sumTo B.height
        (fun l => (if i ≤ l then B.get i l else 0) * orientScalar o (XAdj.get j l)) := by
    intro i j
    apply sumTo_congr
    intro l _
    split
    · rw [h.2.2 i l (by assumption)]
    · rfl
  have e2 : ∀ i j, sumTo B.height
        (fun l => (if l < i then orientScalar o (A.get l i) else 0) * X.get l j) =
      sumTo B.height
        (fun l => (if l < i then orientScalar o (B.get l i) else 0) * X.get l j) := by
    intro i j
    apply sumTo_congr
    intro l _
    split
    · rw [h.2.2 l i (by omega)]
    · rfl
  simp only [LocalSymmetricAccumulateLU, h.1, e1, e2]

end LowerTriangle

end elem

namespace elem

open UnitOrNonUnit Orientation LeftOrRight UpperOrLower

section LowerTriangleLoop

variable {F : Type} [Field F] [StarRing F]

theorem writeBack_sameUpper {A B : Mat F} (h : SameUpper A B) (X01 X12 : Mat F)
    {X11 Y11 : Mat F} (h11 : SameUpper X11 Y11) (k b r : Nat) (h01h : X01.height = k)
    (h01w : X01.width = b) (h11h : X11.height = b) (h11w : X11.width = b)
    (h12h : X12.height = b) (h12w : X12.width = r) :
    SameUpper (writeBack A k X01 X11 X12) (writeBack B k X01 Y11 X12) := by
  refine ⟨h.1, h.2.1, ?_⟩
  intro i j hij
  by_cases hb : i < A.height ∧ j < A.width
  · rw [get_of_lt (by simpa using hb.1) (by simpa using hb.2),
      get_of_lt (by simpa [← h.1] using hb.1) (by simpa [← h.2.1] using hb.2),
      writeBack_entry A X01 X11 X12 k b r h01h h01w h11h h11w h12h h12w,
      writeBack_entry B X01 Y11 X12 k b r h01h h01w (h11.1 ▸ h11h) (h11.2.1 ▸ h11w) h12h h12w]
    split
    · rfl
    · split
      · rename_i hw
        exact sameUpper_entry h11 (by omega) (by omega) (by omega)
      · split
        · rfl
        · exact sameUpper_entry h hij hb.1 hb.2
  · rw [get_of_not_lt (by simpa using hb), get_of_not_lt (by simpa [← h.1, ← h.2.1] using hb)]

theorem seqIteration_sameUpper (diag : UnitOrNonUnit) (bs : Nat) {A B : Mat F}
    (h : SameUpper A B) (U : Mat F) (cA cU : Nat) :
    SameUpper (seqIteration diag bs A U cA cU) (seqIteration diag bs B U cA cU) := by
  simp only [seqIteration, RepartitionDownDiagonal, h.1, h.2.1]
  rw [View_strictly_upper_congr h 0 cA cA _ (by omega),
    View_strictly_upper_congr h 0 (cA + _) cA _ (by omega),
    View_strictly_upper_congr h cA (cA + _) _ _ (by omega),
    Hemm_left_upper_congr 1 0 (View_diagonal_sameUpper h 0 cA)]
  exact writeBack_sameUpper h _ _
    (TwoSidedTrsmUUnb_sameUpper _ _
      (Her2k_upper_sameUpper _ _ _ _ _ (View_diagonal_sameUpper h cA _)))
    cA (min bs (min (B.height - cA) (B.width - cA)))
    (B.width - cA - min bs (min (B.height - cA) (B.width - cA)))
    (by simp) (by simp) (by simp) (by simp) (by simp) (by simp)

theorem distIteration_sameUpper (diag : UnitOrNonUnit) (bs : Nat) {A B : Mat F}
    (h : SameUpper A B) (U : Mat F) (cA cU : Nat) :
    SameUpper (distIteration diag bs A U cA cU) (distIteration diag bs B U cA cU) := by
  simp only [distIteration, RepartitionDownDiagonal, h.1, h.2.1, redistribute, LocalTrsm,
    LocalTwoSidedTrsm, RowSumScatterFrom, RowSumScatterUpdate, ColSumScatterFrom]
  rw [View_strictly_upper_congr h 0 cA cA _ (by omega),
    View_strictly_upper_congr h 0 (cA + _) cA _ (by omega),
    View_strictly_upper_congr h cA (cA + _) _ _ (by omega),
    LocalSymmetricAccumulateLU_congr ADJOINT 1 (View_diagonal_sameUpper h 0 cA)]
  exact writeBack_sameUpper h _ _
    (TwoSidedTrsmUUnb_sameUpper _ _ (Axpy_sameUpper _ _ (View_diagonal_sameUpper h cA _)))
    cA (min bs (min (B.height - cA) (B.width - cA)))
    (B.width - cA - min bs (min (B.height - cA) (B.width - cA)))
    (by simp) (by simp) (by simp) (by simp) (by simp) (by simp)

theorem seqLoop_sameUpper (diag : UnitOrNonUnit) (bs : Nat) (U : Mat F) :
    ∀ fuel (A B : Mat F) cA cU, SameUpper A B →
      (seqLoop diag bs U fuel A cA cU = none ∧ seqLoop diag bs U fuel B cA cU = none) ∨
        ∃ R S, seqLoop diag bs U fuel A cA cU = some R ∧
          seqLoop diag bs U fuel B cA cU = some S ∧ SameUpper R S := by
  intro fuel
  induction fuel with
  | zero =>
    intro A B cA cU h
    rw [seqLoop_zero, seqLoop_zero, ← h.1]
    by_cases hc : cA < A.height
    · rw [if_pos hc, if_pos hc]; exact Or.inl ⟨rfl, rfl⟩
    · rw [if_neg hc, if_neg hc]; exact Or.inr ⟨A, B, rfl, rfl, h⟩
  | succ fuel ih =>
    intro A B cA cU h
    rw [seqLoop_succ, seqLoop_succ, ← h.1]
    by_cases hc : cA < A.height
    · rw [if_pos hc, if_pos hc]
      have e : SlidePartitionDownDiagonal cA (RepartitionDownDiagonal B cA bs).A11 =
          SlidePartitionDownDiagonal cA (RepartitionDownDiagonal A cA bs).A11 := by
        simp only [RepartitionDownDiagonal, SlidePartitionDownDiagonal, View_height, h.1,
          h.2.1]
      rw [e]
      exact ih _ _ _ _ (seqIteration_sameUpper diag bs h U cA cU)
    · rw [if_neg hc, if_neg hc]; exact Or.inr ⟨A, B, rfl, rfl, h⟩

theorem distLoop_sameUpper (diag : UnitOrNonUnit) (bs : Nat) (U : Mat F) :
    ∀ fuel (A B : Mat F) cA cU, SameUpper A B →
      (distLoop diag bs U fuel A cA cU = none ∧ distLoop diag bs U fuel B cA cU = none) ∨
        ∃ R S, distLoop diag bs U fuel A cA cU = some R ∧
          distLoop diag bs U fuel B cA cU = some S ∧ SameUpper R S := by
  intro fuel
  induction fuel with
  | zero =>
    intro A B cA cU h
    rw [distLoop_zero, distLoop_zero, ← h.1]
    by_cases hc : cA < A.height
    · rw [if_pos hc, if_pos hc]; exact Or.inl ⟨rfl, rfl⟩
    · rw [if_neg hc, if_neg hc]; exact Or.inr ⟨A, B, rfl, rfl, h⟩
  | succ fuel ih =>
    intro A B cA cU h
    rw [distLoop_succ, distLoop_succ, ← h.1]
    by_cases hc : cA < A.height
    · rw [if_pos hc, if_pos hc]
      have e : SlidePartitionDownDiagonal cA (RepartitionDownDiagonal B cA bs).A11 =
          SlidePartitionDownDiagonal cA (RepartitionDownDiagonal A cA bs).A11 := by
        simp only [RepartitionDownDiagonal, SlidePartitionDownDiagonal, View_height, h.1,
          h.2.1]
      rw [e]
      exact ih _ _ _ _ (distIteration_sameUpper diag bs h U cA cU)
    · rw [if_neg hc, if_neg hc]; exact Or.inr ⟨A, B, rfl, rfl, h⟩

/-- C8: the strictly lower triangle of `A` is never read. For every `diag`, every `n x n`
matrix `U`, every block size `bs ≥ 1` and every two `n x n` matrices `A` and `B` that agree
on and above the diagonal, each form of `TwoSidedTrsmUVar2` returns on `A` and on `B`, and
the two matrices returned agree on and above the diagonal. -/
theorem lower_triangle_never_read (n bs fuel : Nat) (debug : Bool) (diag : UnitOrNonUnit)
    (A B U : Mat F) (hAh : A.height = n) (hAw : A.width = n) (hBh : B.height = n)
    (hBw : B.width = n) (hUh : U.height = n) (hUw : U.width = n)
    (hAB : ∀ i, i < n → ∀ j, j < n → i ≤ j → A.get i j = B.get i j) (hbs : 1 ≤ bs)
    (hfuel : n ≤ fuel) :
    (∃ R S, TwoSidedTrsmUVar2 debug bs fuel diag A U = Outcome.returned R ∧
        TwoSidedTrsmUVar2 debug bs fuel diag B U = Outcome.returned S ∧
        ∀ i j, i ≤ j → R.get i j = S.get i j) ∧
      (∃ R S, TwoSidedTrsmUVar2Dist debug bs fuel diag A U = Outcome.returned R ∧
        TwoSidedTrsmUVar2Dist debug bs fuel diag B U = Outcome.returned S ∧
        ∀ i j, i ≤ j → R.get i j = S.get i j) := by
  have h : SameUpper A B := by
    refine ⟨by rw [hAh, hBh], by rw [hAw, hBw], ?_⟩
    intro i j hij
    by_cases hb : i < n ∧ j < n
    · exact hAB i hb.1 j hb.2 hij
    · rw [get_of_not_lt (by rw [hAh, hAw]; exact hb),
        get_of_not_lt (by rw [hBh, hBw]; exact hb)]
  constructor
  · obtain ⟨R, hR, -⟩ := seqLoop_returns hbs diag A U hAh hAw hUh hUw fuel hfuel
    rcases seqLoop_sameUpper diag bs U fuel A B 0 0 h with ⟨h1, -⟩ | ⟨R2, S, h1, h2, h3⟩
    · rw [hR] at h1; cases h1
    · refine ⟨R2, S, ?_, ?_, h3.2.2⟩
      · rw [seq_of_square debug bs fuel diag A U hAh hAw hUh hUw, h1]
      · rw [seq_of_square debug bs fuel diag B U hBh hBw hUh hUw, h2]
  · obtain ⟨R, hR, -⟩ := distLoop_returns hbs diag A U hAh hAw hUh hUw fuel hfuel
    rcases distLoop_sameUpper diag bs U fuel A B 0 0 h with ⟨h1, -⟩ | ⟨R2, S, h1, h2, h3⟩
    · rw [hR] at h1; cases h1
    · refine ⟨R2, S, ?_, ?_, h3.2.2⟩
      · rw [dist_of_square debug bs fuel diag A U hAh hAw hUh hUw, h1]
      · rw [dist_of_square debug bs fuel diag B U hBh hBw hUh hUw, h2]

/-- C8, witness: the 4 x 4 example and the matrix with the same upper triangle and other
entries below the diagonal, block size 2. -/
theorem lower_triangle_never_read_witness :
    (∀ i, i < 4 → ∀ j, j < 4 → i ≤ j → exampleA4.get i j = exampleA4Lower.get i j) ∧
      ((∃ R S, TwoSidedTrsmUVar2 true 2 4 NON_UNIT exampleA4 exampleU4 = Outcome.returned R ∧
          TwoSidedTrsmUVar2 true 2 4 NON_UNIT exampleA4Lower exampleU4 = Outcome.returned S ∧
          ∀ i j, i ≤ j → R.get i j = S.get i j) ∧
        (∃ R S,
          TwoSidedTrsmUVar2Dist true 2 4 NON_UNIT exampleA4 exampleU4 = Outcome.returned R ∧
          TwoSidedTrsmUVar2Dist true 2 4 NON_UNIT exampleA4Lower exampleU4 =
            Outcome.returned S ∧
          ∀ i j, i ≤ j → R.get i j = S.get i j)) :=
  ⟨by decide!,
    lower_triangle_never_read 4 2 4 true NON_UNIT exampleA4 exampleA4Lower exampleU4 rfl rfl
      rfl rfl rfl rfl (by decide!) (by decide) (by decide)⟩

end LowerTriangleLoop

end elem

namespace elem

section Frobenius

variable {F R E : Type} [Mul R]

/-- C9, counterexample: on the 1 x 1 matrix `(2⁻¹⁰⁷⁴)` of `double`, `Inverse` throws
nothing and leaves `(+∞)` (the reciprocal overflows); the norm of the input is `2⁻¹⁰⁷⁴`,
the norm of the inverse is `+∞`, and both forms of `FrobeniusCondition` return their
product `+∞`, although no `SingularMatrixException` was raised. -/
theorem FrobeniusCondition_infinity_without_exception :
    (∃ B, exampleInverse exampleTiny = Except.ok B ∧ B.entry 0 0 = Double.inf false ∧
        exampleFrobeniusNorm B = Double.inf false) ∧
      exampleInverse exampleTiny ≠ Except.error Thrown.SingularMatrixException ∧
      exampleFrobeniusNorm exampleTiny = Double.finite (1 / 2 ^ 1074) ∧
      (FrobeniusCondition (Double.inf false) exampleFrobeniusNorm exampleInverse
          exampleTiny).result = Except.ok (Double.inf false) ∧
      (FrobeniusConditionDist (Double.inf false) exampleFrobeniusNorm exampleInverse
          exampleTiny).result = Except.ok (Double.inf false) := by
  have hinv : exampleInverse exampleTiny =
      Except.ok { height := 1, width := 1,
                  entry := fun _ _ => Double.recip (exampleTiny.entry 0 0) } := by
    unfold exampleInverse
    rw [if_neg (by decide!)]
  refine ⟨⟨_, hinv, by decide!, by decide!⟩, ?_, by decide!, ?_, ?_⟩
  · rw [hinv]
    intro h
    cases h
  · unfold FrobeniusCondition
    simp only [hinv]
    exact congrArg Except.ok (by decide!)
  · unfold FrobeniusConditionDist
    simp only [redistribute, hinv]
    exact congrArg Except.ok (by decide!)

/-- C9: `FrobeniusCondition( A )`, in both forms, returns `+∞` whenever `Inverse` on the
copy of `A` throws `SingularMatrixException`; when `Inverse` completes it returns the
product of the Frobenius norm of `A` and the Frobenius norm of the inverse, a value of the
same floating type, which may itself be `+∞`; so the value returned is `+∞` exactly when
`Inverse` threw `SingularMatrixException` or completed with a product of norms equal to
`+∞`; the argument `A` is not modified; and no exception escapes when `Inverse` throws
`SingularMatrixException`. -/
theorem FrobeniusCondition_contract (infinity : R) (FrobeniusNorm : Mat F → R)
    (Inverse : Mat F → Except (Thrown E) (Mat F)) (A : Mat F) :
    ((Inverse A = Except.error Thrown.SingularMatrixException →
          (FrobeniusCondition infinity FrobeniusNorm Inverse A).result = Except.ok infinity) ∧
        (∀ B, Inverse A = Except.ok B →
          (FrobeniusCondition infinity FrobeniusNorm Inverse A).result =
            Except.ok (FrobeniusNorm A * FrobeniusNorm B)) ∧
        ((FrobeniusCondition infinity FrobeniusNorm Inverse A).result = Except.ok infinity ↔
          Inverse A = Except.error Thrown.SingularMatrixException ∨
            ∃ B, Inverse A = Except.ok B ∧ FrobeniusNorm A * FrobeniusNorm B = infinity) ∧
        (FrobeniusCondition infinity FrobeniusNorm Inverse A).argument = A ∧
        (Inverse A = Except.error Thrown.SingularMatrixException →
          ∀ e, (FrobeniusCondition infinity FrobeniusNorm Inverse A).result ≠
            Except.error e)) ∧
      ((Inverse A = Except.error Thrown.SingularMatrixException →
          (FrobeniusConditionDist infinity FrobeniusNorm Inverse A).result =
            Except.ok infinity) ∧
        (∀ B, Inverse A = Except.ok B →
          (FrobeniusConditionDist infinity FrobeniusNorm Inverse A).result =
            Except.ok (FrobeniusNorm A * FrobeniusNorm B)) ∧
        ((FrobeniusConditionDist infinity FrobeniusNorm Inverse A).result =
            Except.ok infinity ↔
          Inverse A = Except.error Thrown.SingularMatrixException ∨
            ∃ B, Inverse A = Except.ok B ∧ FrobeniusNorm A * FrobeniusNorm B = infinity) ∧
        (FrobeniusConditionDist infinity FrobeniusNorm Inverse A).argument = A ∧
        (Inverse A = Except.error Thrown.SingularMatrixException →
          ∀ e, (FrobeniusConditionDist infinity FrobeniusNorm Inverse A).result ≠
            Except.error e)) := by
  constructor
  · cases h : Inverse A with
    | error t =>
      cases t with
      | SingularMatrixException =>
        simp [FrobeniusCondition, h]
      | other e =>
        simp [FrobeniusCondition, h]
    | ok B =>
      simp [FrobeniusCondition, h]
  · cases h : Inverse A with
    | error t =>
      cases t with
      | SingularMatrixException =>
        simp [FrobeniusConditionDist, redistribute, h]
      | other e =>
        simp [FrobeniusConditionDist, redistribute, h]
    | ok B =>
      simp [FrobeniusConditionDist, redistribute, h]

/-- C9, witness: on the 1 x 1 matrix `(0)` of `double` `Inverse` throws
`SingularMatrixException` and both forms return `+∞`, leave the argument as it is and let
no exception escape; on `(2)` `Inverse` completes and the value returned is the product
`2 * (1/2) = 1` of the two norms. -/
theorem FrobeniusCondition_contract_witness :
    exampleInverse exampleZero = Except.error Thrown.SingularMatrixException ∧
      (FrobeniusCondition (Double.inf false) exampleFrobeniusNorm exampleInverse
          exampleZero).result = Except.ok (Double.inf false) ∧
      (FrobeniusCondition (Double.inf false) exampleFrobeniusNorm exampleInverse
          exampleZero).argument = exampleZero ∧
      (∀ e, (FrobeniusCondition (Double.inf false) exampleFrobeniusNorm exampleInverse
          exampleZero).result ≠ Except.error e) ∧
      (FrobeniusConditionDist (Double.inf false) exampleFrobeniusNorm exampleInverse
          exampleZero).result = Except.ok (Double.inf false) ∧
      (FrobeniusConditionDist (Double.inf false) exampleFrobeniusNorm exampleInverse
          exampleZero).argument = exampleZero ∧
      (∀ e, (FrobeniusConditionDist (Double.inf false) exampleFrobeniusNorm exampleInverse
          exampleZero).result ≠ Except.error e) ∧
      ∃ B, exampleInverse exampleTwo = Except.ok B ∧
        exampleFrobeniusNorm exampleTwo * exampleFrobeniusNorm B = Double.finite 1 ∧
        (FrobeniusCondition (Double.inf false) exampleFrobeniusNorm exampleInverse
          exampleTwo).result =
            Except.ok (exampleFrobeniusNorm exampleTwo * exampleFrobeniusNorm B) :=
  ⟨rfl,
    (FrobeniusCondition_contract (Double.inf false) exampleFrobeniusNorm exampleInverse
      exampleZero).1.1 rfl,
    (FrobeniusCondition_contract (Double.inf false) exampleFrobeniusNorm exampleInverse
      exampleZero).1.2.2.2.1,
    (FrobeniusCondition_contract (Double.inf false) exampleFrobeniusNorm exampleInverse
      exampleZero).1.2.2.2.2 rfl,
    (FrobeniusCondition_contract (Double.inf false) exampleFrobeniusNorm exampleInverse
      exampleZero).2.1 rfl,
    (FrobeniusCondition_contract (Double.inf false) exampleFrobeniusNorm exampleInverse
      exampleZero).2.2.2.2.1,
    (FrobeniusCondition_contract (Double.inf false) exampleFrobeniusNorm exampleInverse
      exampleZero).2.2.2.2.2 rfl,
    { height := 1, width := 1, entry := fun _ _ => Double.recip (exampleTwo.entry 0 0) },
    by unfold exampleInverse; rw [if_neg (by decide!)],
    by decide!,
    (FrobeniusCondition_contract (Double.inf false) exampleFrobeniusNorm exampleInverse
      exampleTwo).1.2.1 _ (by unfold exampleInverse; rw [if_neg (by decide!)])⟩

end Frobenius

end elem

namespace madness

/-- C10, failing input: in `exampleFacts` the class `named 0` has a member
`serialize(BufferOutputArchive&)` and `BufferOutputArchive` is an archive, so
`has_member_serialize_v<T, Archive>` is true for `T = named 0`, `Archive =
BufferOutputArchive`; but `is_serializable_v<Archive, T>` is false, because it evaluates
`has_member_serialize_v<Archive, T>`. -/
theorem is_serializable_misses_member_serialize :
    is_archive_v exampleFacts Ty.BufferOutputArchive = true ∧
      has_member_serialize_v exampleFacts (Ty.named 0) Ty.BufferOutputArchive = true ∧
      is_serializable_v exampleFacts Ty.BufferOutputArchive (Ty.named 0) = false := by
  decide

end madness

namespace elem

open UnitOrNonUnit Orientation LeftOrRight UpperOrLower Finset

section Entries

variable {F : Type} [Field F] [StarRing F]

theorem update_entry (C : Mat F) (f : Nat → Nat → F) (i j : Nat) :
    (C.update f).entry i j = if i < C.height ∧ j < C.width then f i j else C.entry i j := rfl

theorem Zeros_entry (h w i j : Nat) : (Zeros h w : Mat F).entry i j = 0 := rfl

theorem Adjoint_get (M : Mat F) (i j : Nat) : (Adjoint M).get i j = star (M.get j i) := by
  simp only [Mat.get, Adjoint]
  by_cases h : i < M.width ∧ j < M.height
  · rw [if_pos h, if_pos ⟨h.2, h.1⟩]
  · rw [if_neg h, if_neg (fun h2 => h ⟨h2.2, h2.1⟩), star_zero]

theorem orient_adjoint_get_star (M : Mat F) (i l : Nat) :
    (M.orient ADJOINT).get i l = star (M.get l i) := by
  rw [orient_adjoint_get]
  by_cases h : i < M.width ∧ l < M.height
  · rw [if_pos h]
  · rw [if_neg h, get_of_not_lt (fun h2 => h ⟨h2.2, h2.1⟩), star_zero]

theorem View_get_of_lt (A : Mat F) (i j h w : Nat) {a c : Nat} (ha : a < h) (hc : c < w) :
    (View A i j h w).get a c = A.get (i + a) (j + c) := by
  rw [View_get, if_pos ⟨ha, hc⟩]

theorem Axpy_get_of_lt (alpha : F) (X Y : Mat F) {i j : Nat} (hi : i < Y.height)
    (hj : j < Y.width) : (Axpy alpha X Y).get i j = alpha * X.get i j + Y.get i j := by
  simp only [Axpy, update_get, if_pos (And.intro hi hj), get_of_lt hi hj]

theorem Hemm_left_zeros_get (uplo : UpperOrLower) (A B : Mat F) (h w : Nat) {i j : Nat}
    (hi : i < h) (hj : j < w) :
    (Hemm LEFT uplo 1 A B 0 (Zeros h w)).get i j =
      sumTo A.height (fun l => hermEntry uplo A i l * B.get l j) := by
  simp only [Hemm, update_get, Zeros]
  rw [if_pos ⟨hi, hj⟩]
  ring

theorem Gemm_adjoint_normal_get (alpha beta : F) (A B C : Mat F) {i j : Nat}
    (hi : i < C.height) (hj : j < C.width) :
    (Gemm ADJOINT NORMAL alpha A B beta C).get i j =
      alpha * sumTo A.height (fun l => star (A.get l i) * B.get l j) + beta * C.get i j := by
  simp only [Gemm, update_get, if_pos (And.intro hi hj), get_of_lt hi hj,
    orient_adjoint_get_star, orient_normal]
  rfl

theorem MakeTriangular_upper_get (M : Mat F) (i j : Nat) :
    (MakeTriangular UPPER M).get i j = if i ≤ j then M.get i j else 0 := by
  simp only [MakeTriangular, update_get]
  by_cases h : i < M.height ∧ j < M.width
  · rw [if_pos h, get_of_lt h.1 h.2]
  · rw [if_neg h, get_of_not_lt h, ite_self]

/-- The fused accumulation of the distributed form, followed by its two sum-scatters,
is the Hermitian product of the sequential form. -/
theorem accumulate_eq_Hemm (A00 U01 : Mat F) (h w : Nat) :
    RowSumScatterUpdate 1
        (LocalSymmetricAccumulateLU ADJOINT 1 A00 U01 (Adjoint U01) (Zeros h w) (Zeros h w)).1
        (LocalSymmetricAccumulateLU ADJOINT 1 A00 U01 (Adjoint U01) (Zeros h w) (Zeros h w)).2 =
      Hemm LEFT UPPER 1 A00 U01 0 (Zeros h w) := by
  refine Mat.ext rfl rfl ?_
  intro i j
  simp only [RowSumScatterUpdate, LocalSymmetricAccumulateLU, Axpy, Hemm, update_entry,
    update_get, update_height, update_width, Zeros_height, Zeros_width, Zeros_entry,
    Adjoint_get, orientScalar, star_star, hermEntry]
  by_cases hb : i < h ∧ j < w
  · simp only [if_pos hb, zero_add, one_mul, mul_zero, add_zero, sumTo_eq_sum]
    rw [← sum_add_distrib]
    apply sum_congr rfl
    intro l _
    by_cases hil : i ≤ l
    · rw [if_pos hil, if_neg (by omega), if_pos hil]
      ring
    · rw [if_neg hil, if_pos (by omega), if_neg hil]
      ring
  · simp only [if_neg hb]

@[simp] theorem orient_adjoint_height (M : Mat F) : (M.orient ADJOINT).height = M.width := rfl

@[simp] theorem orient_adjoint_width (M : Mat F) : (M.orient ADJOINT).width = M.height := rfl

/-- The pass of the distributed form as a write-back of three blocks computed by the
leaf routines of the sequential form. -/
theorem distIteration_blocks (diag : UnitOrNonUnit) {n : Nat} (bs : Nat) (A U : Mat F)
    (hAh : A.height = n) (hAw : A.width = n) (hUh : U.height = n) (hUw : U.width = n)
    (k : Nat) :
    distIteration diag bs A U k k =
      writeBack A k
        (Trsm RIGHT UPPER NORMAL diag 1 (View U k k (min bs (n - k)) (min bs (n - k)))
          (Axpy (-1)
            (Hemm LEFT UPPER 1 (View A 0 0 k k) (View U 0 k k (min bs (n - k))) 0
              (Zeros k (min bs (n - k))))
            (View A 0 k k (min bs (n - k)))))
        (TwoSidedTrsmUUnb diag
          (Axpy (-1)
            (MakeTriangular UPPER
              (Gemm ADJOINT NORMAL 1
                (Axpy (-1)
                  (Hemm LEFT UPPER 1 (View A 0 0 k k) (View U 0 k k (min bs (n - k))) 0
                    (Zeros k (min bs (n - k))))
                  (View A 0 k k (min bs (n - k))))
                (View U 0 k k (min bs (n - k))) 1
                (Gemm ADJOINT NORMAL 1 (View U 0 k k (min bs (n - k)))
                  (View A 0 k k (min bs (n - k))) 0
                  (Zeros (min bs (n - k)) (min bs (n - k))))))
            (View A k k (min bs (n - k)) (min bs (n - k))))
          (View U k k (min bs (n - k)) (min bs (n - k))))
        (Trsm LEFT UPPER ADJOINT diag 1 (View U k k (min bs (n - k)) (min bs (n - k)))
          (Axpy (-1)
            (Adjoint
              (Gemm ADJOINT NORMAL 1 (View A 0 (k + min bs (n - k)) k (n - k - min bs (n - k)))
                (View U 0 k k (min bs (n - k))) 0
                (Zeros (n - k - min bs (n - k)) (min bs (n - k)))))
            (View A k (k + min bs (n - k)) (min bs (n - k)) (n - k - min bs (n - k))))) := by
  simp only [distIteration, RepartitionDownDiagonal, hAh, hAw, hUh, hUw, Nat.min_self,
    redistribute, RowSumScatterFrom, ColSumScatterFrom, AdjointPartialColAllGather,
    LocalTrsm, LocalTwoSidedTrsm, LocalGemm, LocalGemmSet, View_height, View_width,
    orient_adjoint_height, orient_normal, accumulate_eq_Hemm]

end Entries

end elem


namespace elem

open Finset

section Algebra

variable {F : Type} [Field F] [StarRing F]

/-- A sum whose terms vanish above `k + a` splits at `k`. -/
theorem sum_window (f : Nat → F) (n k a : Nat) (h : k + a < n)
    (hz : ∀ l, k + a < l → f l = 0) :
    ∑ l in range n, f l = ∑ l in range k, f l + ∑ p in range (a + 1), f (k + p) := by
  obtain ⟨t, rfl⟩ : ∃ t, n = k + (a + 1) + t := ⟨n - (k + (a + 1)), by omega⟩
  rw [sum_range_add, sum_range_add]
  have : ∑ x in range t, f (k + (a + 1) + x) = 0 :=
    sum_eq_zero (fun x _ => hz _ (by omega))
  rw [this, add_zero]

/-- Rows of `B U` past the cut: the part of the product that uses the current panel. -/
theorem panel_of_BU (B u : Nat → Nat → F) (htri : ∀ l j, j < l → u l j = 0) (n k c : Nat)
    (hc : k + c < n) (i : Nat) :
    ∑ l in range n, B i l * u l (k + c) - ∑ l in range k, B i l * u l (k + c) =
      ∑ p in range (c + 1), B i (k + p) * u (k + p) (k + c) := by
  rw [sum_window (fun l => B i l * u l (k + c)) n k c hc
    (fun l hl => by simp only [htri l (k + c) hl, mul_zero])]
  ring

theorem panel_of_UhX (X u : Nat → Nat → F) (htri : ∀ l j, j < l → u l j = 0) (n k a : Nat)
    (ha : k + a < n) (j : Nat) :
    ∑ p in range n, star (u p (k + a)) * X p j - ∑ p in range k, star (u p (k + a)) * X p j =
      ∑ p in range (a + 1), star (u (k + p) (k + a)) * X (k + p) j := by
  rw [sum_window (fun p => star (u p (k + a)) * X p j) n k a ha
    (fun l hl => by simp only [htri l (k + a) hl, star_zero, zero_mul])]
  ring

/-- The downdated diagonal block is `U11ᴴ B11 U11`. -/
theorem panel_diagonal (B u : Nat → Nat → F) (htri : ∀ l j, j < l → u l j = 0)
    (hB : ∀ i j, star (B i j) = B j i) (n k a c : Nat) (ha : k + a < n) (hc : k + c < n) :
    ∑ p in range n, star (u p (k + a)) * (∑ q in range n, B p q * u q (k + c)) -
        (∑ l in range k,
            star (∑ p in range (a + 1), B l (k + p) * u (k + p) (k + a)) * u l (k + c) +
          ∑ l in range k, star (u l (k + a)) * (∑ q in range n, B l q * u q (k + c))) =
      ∑ p in range (a + 1), star (u (k + p) (k + a)) *
        (∑ q in range (c + 1), B (k + p) (k + q) * u (k + q) (k + c)) := by
  have h1 := panel_of_UhX (fun p j => ∑ q in range n, B p q * u q j) u htri n k a ha (k + c)
  simp only at h1
  have h2 : ∀ p, ∑ q in range n, B (k + p) q * u q (k + c) =
      ∑ l in range k, B (k + p) l * u l (k + c) +
        ∑ q in range (c + 1), B (k + p) (k + q) * u (k + q) (k + c) := by
    intro p
    have := panel_of_BU B u htri n k c hc (k + p)
    rw [sub_eq_iff_eq_add] at this
    rw [this]
    ring
  have h3 : ∑ l in range k,
      star (∑ p in range (a + 1), B l (k + p) * u (k + p) (k + a)) * u l (k + c) =
      ∑ p in range (a + 1), star (u (k + p) (k + a)) *
        (∑ l in range k, B (k + p) l * u l (k + c)) := by
    simp only [star_sum, star_mul', hB, sum_mul, mul_sum]
    rw [sum_comm]
    apply sum_congr rfl
    intro p _
    apply sum_congr rfl
    intro l _
    ring
  rw [sub_eq_iff_eq_add] at h1
  rw [h1, h3]
  simp only [h2, mul_add, sum_add_distrib]
  ring

/-- The matrix `Tᴴ B T` is Hermitian when `B` is (`T` upper triangular, sums up to the
diagonal). -/
theorem panel_hermitian (B u : Nat → Nat → F) (hB : ∀ i j, star (B i j) = B j i)
    (a c : Nat) :
    star (∑ p in range (c + 1), star (u p c) * (∑ q in range (a + 1), B p q * u q a)) =
      ∑ p in range (a + 1), star (u p a) * (∑ q in range (c + 1), B p q * u q c) := by
  simp only [star_sum, star_mul', star_star, hB, mul_sum]
  rw [sum_comm]
  apply sum_congr rfl
  intro p _
  apply sum_congr rfl
  intro q _
  ring

/-- The matrix `Tᴴ B T` as `(Tᴴ B) T`. -/
theorem panel_assoc (B u : Nat → Nat → F) (p a : Nat) :
    ∑ p2 in range (p + 1), star (u p2 p) * (∑ q in range (a + 1), B p2 q * u q a) =
      ∑ q in range (a + 1), (∑ p2 in range (p + 1), star (u p2 p) * B p2 q) * u q a := by
  simp only [mul_sum, sum_mul]
  rw [sum_comm]
  apply sum_congr rfl
  intro q _
  apply sum_congr rfl
  intro p2 _
  ring

end Algebra

end elem

namespace elem

open UnitOrNonUnit Orientation LeftOrRight UpperOrLower Finset

section Panel

variable {F : Type} [Field F] [StarRing F]
variable {n k b : Nat} {A U : Mat F} {B : Nat → Nat → F}
variable (hUh : U.height = n) (hUw : U.width = n) (hkb : k + b ≤ n)
variable (htri : ∀ l j, j < l → U.get l j = 0) (hUd : ∀ i, i < n → U.get i i ≠ 0)
variable (hB : ∀ i j, star (B i j) = B j i) (hInv : LoopInvariant n U B k A)

include hkb hInv in
theorem inv_get {i j : Nat} (hi : i < n) (hj : j < n) : A.get i j = A.entry i j :=
  get_of_lt (by rw [hInv.1]; exact hi) (by rw [hInv.2.1]; exact hj)

include hkb hB hInv in
theorem inv_A00 {i l : Nat} (hi : i < k) (hl : l < k) :
    hermEntry UPPER (View A 0 0 k k) i l = B i l := by
  simp only [hermEntry]
  by_cases h : i ≤ l
  · rw [if_pos h, View_get_of_lt A 0 0 k k hi hl, Nat.zero_add, Nat.zero_add,
      inv_get hkb hInv (by omega) (by omega), hInv.2.2.1 i l h hl]
  · rw [if_neg h, View_get_of_lt A 0 0 k k hl hi, Nat.zero_add, Nat.zero_add,
      inv_get hkb hInv (by omega) (by omega), hInv.2.2.1 l i (by omega) hi, hB]

include hkb hInv in
theorem inv_A01 {i c : Nat} (hi : i < k) (hc : c < b) :
    (View A 0 k k b).get i c = ∑ l in range n, B i l * U.get l (k + c) := by
  rw [View_get_of_lt A 0 k k b hi hc, Nat.zero_add, inv_get hkb hInv (by omega) (by omega),
    hInv.2.2.2.1 i (k + c) hi (by omega) (by omega), timesU, sumTo_eq_sum]

include hkb hInv in
theorem inv_A02 {i c : Nat} (hi : i < k) (hc : c < n - k - b) :
    (View A 0 (k + b) k (n - k - b)).get i c = ∑ l in range n, B i l * U.get l (k + b + c) := by
  rw [View_get_of_lt A 0 (k + b) k _ hi hc, Nat.zero_add,
    inv_get hkb hInv (by omega) (by omega),
    hInv.2.2.2.1 i (k + b + c) hi (by omega) (by omega), timesU, sumTo_eq_sum]

include hkb hInv in
theorem inv_A11 {a c : Nat} (hac : a ≤ c) (hc : c < b) :
    (View A k k b b).get a c =
      ∑ p in range n, star (U.get p (k + a)) * (∑ q in range n, B p q * U.get q (k + c)) := by
  rw [View_get_of_lt A k k b b (by omega) hc, inv_get hkb hInv (by omega) (by omega),
    hInv.2.2.2.2 (k + a) (k + c) (by omega) (by omega) (by omega), congruence, sumTo_eq_sum]
  simp only [timesU, sumTo_eq_sum]

include hkb hInv in
theorem inv_A12 {a c : Nat} (ha : a < b) (hc : c < n - k - b) :
    (View A k (k + b) b (n - k - b)).get a c =
      ∑ p in range n, star (U.get p (k + a)) *
        (∑ q in range n, B p q * U.get q (k + b + c)) := by
  rw [View_get_of_lt A k (k + b) b _ ha hc, inv_get hkb hInv (by omega) (by omega),
    hInv.2.2.2.2 (k + a) (k + b + c) (by omega) (by omega) (by omega), congruence,
    sumTo_eq_sum]
  simp only [timesU, sumTo_eq_sum]

theorem get_U01 {l c : Nat} (hl : l < k) (hc : c < b) :
    (View U 0 k k b).get l c = U.get l (k + c) := by
  rw [View_get_of_lt U 0 k k b hl hc, Nat.zero_add]

theorem get_U11 {a c : Nat} (ha : a < b) (hc : c < b) :
    (View U k k b b).get a c = U.get (k + a) (k + c) :=
  View_get_of_lt U k k b b ha hc

include hkb hB hInv in
theorem inv_Y01 {i c : Nat} (hi : i < k) (hc : c < b) :
    (Hemm LEFT UPPER 1 (View A 0 0 k k) (View U 0 k k b) 0 (Zeros k b)).get i c =
      ∑ l in range k, B i l * U.get l (k + c) := by
  rw [Hemm_left_zeros_get UPPER _ _ k b hi hc, View_height, sumTo_eq_sum]
  apply sum_congr rfl
  intro l hl
  rw [inv_A00 hkb hB hInv hi (mem_range.mp hl), get_U01 (mem_range.mp hl) hc]

include hkb htri hB hInv in
/-- After the subtraction of `Y01`, the block `A01` holds `B01 U11`. -/
theorem inv_A01_updated {i c : Nat} (hi : i < k) (hc : c < b) :
    (Axpy (-1) (Hemm LEFT UPPER 1 (View A 0 0 k k) (View U 0 k k b) 0 (Zeros k b))
        (View A 0 k k b)).get i c =
      ∑ p in range (c + 1), B i (k + p) * U.get (k + p) (k + c) := by
  rw [Axpy_get_of_lt _ _ _ hi hc, inv_Y01 hkb hB hInv hi hc, inv_A01 hkb hInv hi hc,
    ← panel_of_BU B U.get htri n k c (by omega) i]
  ring

include hkb htri hUd hB hInv in
/-- Block `A01` after the pass of the distributed form is `B01`. -/
theorem dist_A01_final {i c : Nat} (hi : i < k) (hc : c < b) :
    (Trsm RIGHT UPPER NORMAL NON_UNIT 1 (View U k k b b)
        (Axpy (-1) (Hemm LEFT UPPER 1 (View A 0 0 k k) (View U 0 k k b) 0 (Zeros k b))
          (View A 0 k k b))).entry i c = B i (k + c) := by
  refine Trsm_right_solves NON_UNIT 1 _ _ (fun i p => B i (k + p)) ?_ ?_ i c hi hc
  · intro a ha
    replace ha : a < b := ha
    simp only [triEntry, if_true]
    rw [get_U11 ha ha]
    exact hUd (k + a) (by omega)
  · intro i a hi ha
    replace hi : i < k := hi
    replace ha : a < b := ha
    rw [one_mul, inv_A01_updated hkb htri hB hInv hi ha, sum_range_succ, sumTo_eq_sum]
    simp only [triEntry, if_true]
    rw [get_U11 ha ha]
    congr 1
    · apply sum_congr rfl
      intro p hp
      rw [get_U11 (by have := mem_range.mp hp; omega) ha]
      ring
    · ring

end Panel

end elem

namespace elem

open UnitOrNonUnit Orientation LeftOrRight UpperOrLower Finset

section BaseCase

variable {F : Type} [Field F] [StarRing F]

theorem hermitianOf_get_of_lt (uplo : UpperOrLower) (A : Mat F) {i j : Nat}
    (hi : i < A.height) (hj : j < A.width) :
    (hermitianOf uplo A).get i j = hermEntry uplo A i j :=
  get_of_lt (M := hermitianOf uplo A) hi hj

/-- Contract of the base case with a nonzero diagonal: if the Hermitian matrix stored in
the upper triangle of the `m x m` matrix `A` is `Tᴴ Bp T` for the upper triangle of `T`,
the upper triangle of the result is that of `Bp`. -/
theorem TwoSidedTrsmUUnb_solves (A T : Mat F) (Bp : Nat → Nat → F) (m : Nat)
    (hAh : A.height = m) (hAw : A.width = m) (hd : ∀ a, a < m → T.get a a ≠ 0)
    (hA : ∀ p q, p < m → q < m → hermEntry UPPER A p q =
      ∑ p2 in range (p + 1), star (T.get p2 p) *
        (∑ q2 in range (q + 1), Bp p2 q2 * T.get q2 q))
    {a c : Nat} (hac : a ≤ c) (hc : c < m) :
    (TwoSidedTrsmUUnb NON_UNIT A T).entry a c = Bp a c := by
  have hX : ∀ p q, p < m → q < m →
      (Trsm RIGHT UPPER NORMAL NON_UNIT 1 T (hermitianOf UPPER A)).entry p q =
        ∑ p2 in range (p + 1), star (T.get p2 p) * Bp p2 q := by
    intro p q hp hq
    refine Trsm_right_solves NON_UNIT 1 T (hermitianOf UPPER A)
      (fun p q => ∑ p2 in range (p + 1), star (T.get p2 p) * Bp p2 q) ?_ ?_ p q
      (by rw [← hAh] at hp; exact hp) (by rw [← hAw] at hq; exact hq)
    · intro x hx
      replace hx : x < A.width := hx
      simp only [triEntry, if_true]
      exact hd x (by omega)
    · intro i x hi hx
      replace hi : i < A.height := hi
      replace hx : x < A.width := hx
      rw [one_mul, hermitianOf_get_of_lt UPPER A hi hx, hA i x (by omega) (by omega),
        panel_assoc Bp T.get i x, sum_range_succ, sumTo_eq_sum]
      simp only [triEntry, if_true]
      congr 1
      · apply sum_congr rfl
        intro q _
        ring
      · ring
  have hY : ∀ p q, p < m → q < m →
      (Trsm LEFT UPPER ADJOINT NON_UNIT 1 T
        (Trsm RIGHT UPPER NORMAL NON_UNIT 1 T (hermitianOf UPPER A))).entry p q = Bp p q := by
    intro p q hp hq
    refine Trsm_left_adjoint_solves NON_UNIT 1 T _ Bp ?_ ?_ p q
      (by rw [Trsm_height]; rw [← hAh] at hp; exact hp)
      (by rw [Trsm_width]; rw [← hAw] at hq; exact hq)
    · intro x hx
      rw [Trsm_height] at hx
      replace hx : x < A.height := hx
      simp only [triEntry, if_true]
      exact hd x (by omega)
    · intro x j hx hj
      rw [Trsm_height] at hx
      rw [Trsm_width] at hj
      replace hx : x < A.height := hx
      replace hj : j < A.width := hj
      rw [one_mul, get_of_lt (by rw [Trsm_height]; exact hx) (by rw [Trsm_width]; exact hj),
        hX x j (by omega) (by omega), sum_range_succ, sumTo_eq_sum]
      simp only [triEntry, if_true]
  simp only [TwoSidedTrsmUUnb, update_entry, hAh, hAw]
  rw [if_pos ⟨by omega, hc⟩, if_pos hac]
  exact hY a c (by omega) hc

end BaseCase

end elem

namespace elem

open UnitOrNonUnit Orientation LeftOrRight UpperOrLower Finset

section PanelDist

variable {F : Type} [Field F] [StarRing F]
variable {n k b : Nat} {A U : Mat F} {B : Nat → Nat → F}
variable (hUh : U.height = n) (hUw : U.width = n) (hkb : k + b ≤ n)
variable (htri : ∀ l j, j < l → U.get l j = 0) (hUd : ∀ i, i < n → U.get i i ≠ 0)
variable (hB : ∀ i j, star (B i j) = B j i) (hInv : LoopInvariant n U B k A)

include hkb htri hB hInv in
/-- The downdated diagonal block of the distributed form holds `U11ᴴ B11 U11` in its upper
triangle. -/
theorem dist_A11_updated {a c : Nat} (hac : a ≤ c) (hc : c < b) :
    (Axpy (-1)
        (MakeTriangular UPPER
          (Gemm ADJOINT NORMAL 1
            (Axpy (-1) (Hemm LEFT UPPER 1 (View A 0 0 k k) (View U 0 k k b) 0 (Zeros k b))
              (View A 0 k k b))
            (View U 0 k k b) 1
            (Gemm ADJOINT NORMAL 1 (View U 0 k k b) (View A 0 k k b) 0 (Zeros b b))))
        (View A k k b b)).get a c =
      ∑ p in range (a + 1), star (U.get (k + p) (k + a)) *
        (∑ q in range (c + 1), B (k + p) (k + q) * U.get (k + q) (k + c)) := by
  have ha : a < b := by omega
  rw [Axpy_get_of_lt _ _ _ ha hc, MakeTriangular_upper_get, if_pos hac,
    Gemm_adjoint_normal_get _ _ _ _ _ ha hc, Gemm_adjoint_normal_get _ _ _ _ _ ha hc,
    Zeros_get, inv_A11 hkb hInv hac hc,
    ← panel_diagonal B U.get htri hB n k a c (by omega) (by omega)]
  simp only [Axpy_height, View_height, sumTo_eq_sum, one_mul, mul_zero, add_zero]
  have e1 : ∑ l in range k,
      star ((Axpy (-1) (Hemm LEFT UPPER 1 (View A 0 0 k k) (View U 0 k k b) 0 (Zeros k b))
        (View A 0 k k b)).get l a) * (View U 0 k k b).get l c =
      ∑ l in range k,
        star (∑ p in range (a + 1), B l (k + p) * U.get (k + p) (k + a)) * U.get l (k + c) := by
    apply sum_congr rfl
    intro l hl
    rw [inv_A01_updated hkb htri hB hInv (mem_range.mp hl) ha, get_U01 (mem_range.mp hl) hc]
  have e2 : ∑ l in range k, star ((View U 0 k k b).get l a) * (View A 0 k k b).get l c =
      ∑ l in range k, star (U.get l (k + a)) * (∑ q in range n, B l q * U.get q (k + c)) := by
    apply sum_congr rfl
    intro l hl
    rw [inv_A01 hkb hInv (mem_range.mp hl) hc, get_U01 (mem_range.mp hl) ha]
  rw [e1, e2]
  ring

include hkb htri hUd hB hInv in
/-- Block `A11` after the pass of the distributed form holds `B11` in its upper triangle. -/
theorem dist_A11_final {a c : Nat} (hac : a ≤ c) (hc : c < b) :
    (TwoSidedTrsmUUnb NON_UNIT
        (Axpy (-1)
          (MakeTriangular UPPER
            (Gemm ADJOINT NORMAL 1
              (Axpy (-1) (Hemm LEFT UPPER 1 (View A 0 0 k k) (View U 0 k k b) 0 (Zeros k b))
                (View A 0 k k b))
              (View U 0 k k b) 1
              (Gemm ADJOINT NORMAL 1 (View U 0 k k b) (View A 0 k k b) 0 (Zeros b b))))
          (View A k k b b))
        (View U k k b b)).entry a c = B (k + a) (k + c) := by
  have hsum : ∀ p q, p < b → q < b →
      ∑ p2 in range (p + 1), star (U.get (k + p2) (k + p)) *
          (∑ q2 in range (q + 1), B (k + p2) (k + q2) * U.get (k + q2) (k + q)) =
        ∑ p2 in range (p + 1), star ((View U k k b b).get p2 p) *
          (∑ q2 in range (q + 1), B (k + p2) (k + q2) * (View U k k b b).get q2 q) := by
    intro p q hp hq
    apply sum_congr rfl
    intro p2 hp2
    rw [get_U11 (by have := mem_range.mp hp2; omega) hp]
    congr 1
    apply sum_congr rfl
    intro q2 hq2
    rw [get_U11 (by have := mem_range.mp hq2; omega) hq]
  refine TwoSidedTrsmUUnb_solves _ _ (fun p q => B (k + p) (k + q)) b rfl rfl ?_ ?_ hac hc
  · intro x hx
    rw [get_U11 hx hx]
    exact hUd (k + x) (by omega)
  · intro p q hp hq
    rw [← hsum p q hp hq]
    simp only [hermEntry]
    by_cases hpq : p ≤ q
    · rw [if_pos hpq, dist_A11_updated hkb htri hB hInv hpq hq]
    · rw [if_neg hpq, dist_A11_updated hkb htri hB hInv (by omega : q ≤ p) hp]
      exact panel_hermitian (fun p q => B (k + p) (k + q)) (fun p q => U.get (k + p) (k + q))
        (fun i j => hB _ _) p q

include hkb htri hUd hB hInv in
/-- Block `A12` after the pass of the distributed form holds the panel rows of `B U`. -/
theorem dist_A12_final {a c : Nat} (ha : a < b) (hc : c < n - k - b) :
    (Trsm LEFT UPPER ADJOINT NON_UNIT 1 (View U k k b b)
        (Axpy (-1)
          (Adjoint (Gemm ADJOINT NORMAL 1 (View A 0 (k + b) k (n - k - b)) (View U 0 k k b) 0
            (Zeros (n - k - b) b)))
          (View A k (k + b) b (n - k - b)))).entry a c =
      timesU n B U (k + a) (k + b + c) := by
  refine Trsm_left_adjoint_solves NON_UNIT 1 _ _
    (fun p c => ∑ q in range n, B (k + p) q * U.get q (k + b + c)) ?_ ?_ a c ha hc |>.trans ?_
  · intro x hx
    replace hx : x < b := hx
    simp only [triEntry, if_true]
    rw [get_U11 hx hx]
    exact hUd (k + x) (by omega)
  · intro x j hx hj
    replace hx : x < b := hx
    replace hj : j < n - k - b := hj
    rw [one_mul, Axpy_get_of_lt _ _ _ hx hj, Adjoint_get,
      Gemm_adjoint_normal_get _ _ _ _ _ (by exact hj) (by exact hx), Zeros_get,
      inv_A12 hkb hInv hx hj]
    simp only [sumTo_eq_sum, triEntry, if_true, View_height, one_mul, mul_zero, add_zero]
    have e1 : star (∑ l in range k,
        star ((View A 0 (k + b) k (n - k - b)).get l j) * (View U 0 k k b).get l x) =
        ∑ l in range k, star (U.get l (k + x)) *
          (∑ q in range n, B l q * U.get q (k + b + j)) := by
      rw [star_sum]
      apply sum_congr rfl
      intro l hl
      rw [inv_A02 hkb hInv (mem_range.mp hl) hj, get_U01 (mem_range.mp hl) hx, star_mul',
        star_star]
      ring
    have e2 : ∑ p in range x, star ((View U k k b b).get p x) *
          (∑ q in range n, B (k + p) q * U.get q (k + b + j)) =
        ∑ p in range x, star (U.get (k + p) (k + x)) *
          (∑ q in range n, B (k + p) q * U.get q (k + b + j)) := by
      apply sum_congr rfl
      intro p hp
      rw [get_U11 (by have := mem_range.mp hp; omega) hx]
    have h3 := panel_of_UhX (fun p j => ∑ q in range n, B p q * U.get q j) U.get htri n k x
      (by omega) (k + b + j)
    simp only at h3
    rw [sum_range_succ] at h3
    rw [e1, e2, get_U11 hx hx, ← h3]
    ring
  · simp only [timesU, sumTo_eq_sum]

end PanelDist

end elem

namespace elem

open UnitOrNonUnit Orientation LeftOrRight UpperOrLower Finset

section Step

variable {F : Type} [Field F] [StarRing F]

/-- One pass of the distributed form with a nonzero diagonal carries the invariant from
the cut `k` to the cut `k + b`. -/
theorem distIteration_invariant {n : Nat} (bs : Nat) (A U : Mat F) (B : Nat → Nat → F)
    (hUh : U.height = n) (hUw : U.width = n) (htri : ∀ l j, j < l → U.get l j = 0)
    (hUd : ∀ i, i < n → U.get i i ≠ 0) (hB : ∀ i j, star (B i j) = B j i) (k : Nat)
    (hk : k < n) (hInv : LoopInvariant n U B k A) :
    LoopInvariant n U B (k + min bs (n - k)) (distIteration NON_UNIT bs A U k k) := by
  have hkb : k + min bs (n - k) ≤ n := by
    have := Nat.min_le_right bs (n - k)
    omega
  have hr : k + min bs (n - k) + (n - k - min bs (n - k)) = n := by omega
  rw [distIteration_blocks NON_UNIT bs A U hInv.1 hInv.2.1 hUh hUw k]
  refine ⟨hInv.1, hInv.2.1, ?_, ?_, ?_⟩
  · intro i j hij hj
    rw [writeBack_entry A _ _ _ k (min bs (n - k)) (n - k - min bs (n - k)) (by simp)
      (by simp) (by simp) (by simp) (by simp) (by simp)]
    rw [if_neg (by omega)]
    by_cases h2 : k ≤ i ∧ i < k + min bs (n - k) ∧ k ≤ j ∧ j < k + min bs (n - k)
    · rw [if_pos h2, dist_A11_final hkb htri hUd hB hInv (by omega) (by omega)]
      congr 1 <;> omega
    · rw [if_neg h2]
      by_cases h3 : i < k ∧ k ≤ j ∧ j < k + min bs (n - k)
      · rw [if_pos h3, dist_A01_final hkb htri hUd hB hInv h3.1 (by omega)]
        congr 1
        omega
      · rw [if_neg h3]
        exact hInv.2.2.1 i j hij (by omega)
  · intro i j hi hj hjn
    rw [writeBack_entry A _ _ _ k (min bs (n - k)) (n - k - min bs (n - k)) (by simp)
      (by simp) (by simp) (by simp) (by simp) (by simp)]
    by_cases h1 : k ≤ i ∧ i < k + min bs (n - k) ∧ k + min bs (n - k) ≤ j ∧
        j < k + min bs (n - k) + (n - k - min bs (n - k))
    · rw [if_pos h1, dist_A12_final hkb htri hUd hB hInv (by omega) (by omega)]
      congr 1 <;> omega
    · rw [if_neg h1, if_neg (by omega), if_neg (by omega)]
      exact hInv.2.2.2.1 i j (by omega) (by omega) hjn
  · intro i j hi hij hjn
    rw [writeBack_entry A _ _ _ k (min bs (n - k)) (n - k - min bs (n - k)) (by simp)
      (by simp) (by simp) (by simp) (by simp) (by simp)]
    rw [if_neg (by omega), if_neg (by omega), if_neg (by omega)]
    exact hInv.2.2.2.2 i j (by omega) hij hjn

end Step

end elem

namespace elem

open UnitOrNonUnit Orientation LeftOrRight UpperOrLower Finset

section Target

variable {F : Type} [Field F] [StarRing F]

/-- The matrix `U⁻ᴴ A U⁻¹` of the specification, for the Hermitian matrix stored in the upper
triangle of `A`, as an array indexed by the natural numbers (zero outside `n x n`). -/
theorem exists_target (n : Nat) (A U : Mat F)
    (hAd : ∀ i, i < n → star (A.get i i) = A.get i i)
    (htri : ∀ i, i < n → ∀ j, j < i → U.get i j = 0) (hUd : ∀ i, i < n → U.get i i ≠ 0) :
    ∃ B : Nat → Nat → F, (∀ i j, star (B i j) = B j i) ∧
      (∀ i, i < n → ∀ j, j < n → congruence n U B i j = hermEntry UPPER A i j) ∧
      (∀ i j : Fin n, B i j =
        (((Matrix.of fun (p q : Fin n) => U.get p q).conjTranspose)⁻¹ *
          (Matrix.of fun (p q : Fin n) => hermEntry UPPER A p q) *
          (Matrix.of fun (p q : Fin n) => U.get p q)⁻¹) i j) := by
  set Um : Matrix (Fin n) (Fin n) F := Matrix.of fun (p q : Fin n) => U.get p q with hUm
  set Am : Matrix (Fin n) (Fin n) F := Matrix.of fun (p q : Fin n) => hermEntry UPPER A p q
    with hAm
  have hdet : Um.det ≠ 0 := by
    rw [Matrix.det_of_upperTriangular]
    · rw [Finset.prod_ne_zero_iff]
      intro i _
      exact hUd i i.isLt
    · intro i j hij
      exact htri i i.isLt j hij
  have hunit : IsUnit Um.det := isUnit_iff_ne_zero.mpr hdet
  have hunitH : IsUnit Um.conjTranspose.det := by
    rw [Matrix.det_conjTranspose]
    exact hunit.star
  have hAmH : Am.conjTranspose = Am := by
    ext i j
    simp only [Matrix.conjTranspose_apply, hAm, Matrix.of_apply, hermEntry]
    by_cases h1 : (j : Nat) ≤ i
    · by_cases h2 : (i : Nat) ≤ j
      · have e : (i : Nat) = j := by omega
        rw [if_pos h1, if_pos h2, e]
        exact hAd j j.isLt
      · rw [if_pos h1, if_neg h2]
    · rw [if_neg h1, if_pos (by omega), star_star]
  let Bm : Matrix (Fin n) (Fin n) F := Um.conjTranspose⁻¹ * Am * Um⁻¹
  have hBmH : Bm.conjTranspose = Bm := by
    simp only [Bm, Matrix.conjTranspose_mul, Matrix.conjTranspose_nonsing_inv,
      Matrix.conjTranspose_conjTranspose, hAmH, Matrix.mul_assoc]
  have hBmU : Um.conjTranspose * (Bm * Um) = Am := by
    simp only [Bm, Matrix.mul_assoc]
    rw [Matrix.nonsing_inv_mul _ hunit, Matrix.mul_one, ← Matrix.mul_assoc,
      Matrix.mul_nonsing_inv _ hunitH, Matrix.one_mul]
  refine ⟨fun i j => if h : i < n ∧ j < n then Bm ⟨i, h.1⟩ ⟨j, h.2⟩ else 0, ?_, ?_, ?_⟩
  · intro i j
    by_cases h : i < n ∧ j < n
    · simp only [dif_pos h, dif_pos (And.intro h.2 h.1)]
      have := congrFun (congrFun hBmH ⟨j, h.2⟩) ⟨i, h.1⟩
      rw [Matrix.conjTranspose_apply] at this
      exact this
    · simp only [dif_neg h, dif_neg (fun h2 : j < n ∧ i < n => h ⟨h2.2, h2.1⟩), star_zero]
  · intro i hi j hj
    have := congrFun (congrFun hBmU ⟨i, hi⟩) ⟨j, hj⟩
    simp only [Matrix.mul_apply, Matrix.conjTranspose_apply, hUm, hAm, Matrix.of_apply]
      at this
    rw [← this]
    simp only [congruence, timesU, sumTo_eq_sum, Finset.sum_range]
    apply sum_congr rfl
    intro p _
    congr 1
    apply sum_congr rfl
    intro q _
    rw [dif_pos ⟨p.isLt, q.isLt⟩]
  · intro i j
    simp only [dif_pos (And.intro i.isLt j.isLt), Fin.eta]

end Target

end elem

namespace elem

open UnitOrNonUnit Orientation LeftOrRight UpperOrLower

/-- On the 4 x 4 example with block size 2 the product of the `A12` downdate is empty in
both passes, and the sequential driver returns the upper triangle of `U⁻ᵀ A U⁻¹`. -/
theorem seq_four_by_four_reconstructs :
    ∃ R, TwoSidedTrsmUVar2 true 2 2 NON_UNIT exampleA4 exampleU4 = Outcome.returned R ∧
      ∀ i, i < 4 → ∀ j, j < 4 →
        reconstruct 4 exampleU4 R i j = hermEntry UPPER exampleA4 i j :=
  ⟨_, rfl, by decide!⟩

end elem

namespace madness

/-- For the two text archives the trait is true as soon as `T` is streamable both ways. -/
theorem is_default_serializable_text (facts : TypeFacts) (Archive T : Ty)
    (hA : is_text_archive_v Archive = true) (hT : is_iostreammable_v facts T = true) :
    is_default_serializable_v facts Archive T = true := by
  have hE : enabledByIostreammable Archive = true := by
    cases Archive <;> first | rfl | simp [is_text_archive_v] at hA
  cases T <;> simp [is_default_serializable_v, is_default_serializable_helper, hE, hT]

/-- For the ten archive classes with a specialization enabled by
`is_trivially_serializable` the trait is true as soon as `T` is trivially serializable. -/
theorem is_default_serializable_listed (facts : TypeFacts) (Archive T : Ty)
    (hA : enabledByTriviallySerializable Archive = true)
    (hT : is_trivially_serializable facts T = true) :
    is_default_serializable_v facts Archive T = true := by
  cases T <;> simp [is_default_serializable_v, is_default_serializable_helper, hA, hT]

/-- C11, failing input: in `exampleFactsOtherArchive` the class `named 2` is an archive
(it derives from `BaseArchive`) and not a text archive, and `named 1` is arithmetic, hence
trivially serializable; `is_default_serializable<Archive, T>::value` is false for
`Archive = named 2`, `T = named 1`, because only the primary template of
`is_default_serializable_helper` matches. -/
theorem is_default_serializable_false_for_other_archive :
    is_archive_v exampleFactsOtherArchive (Ty.named 2) = true ∧
      is_text_archive_v (Ty.named 2) = false ∧
      is_trivially_serializable exampleFactsOtherArchive (Ty.named 1) = true ∧
      is_default_serializable_v exampleFactsOtherArchive (Ty.named 2) (Ty.named 1) = false := by
  decide

/-- An `operator<<` defined in namespace `madness::operators` makes `T` ostreammable. -/
theorem is_ostreammable_of_operators (facts : TypeFacts) (T : Ty)
    (h : facts.left_shift_in_ns_madness_operators T = true) :
    is_ostreammable_v facts T = true := by
  simp [is_ostreammable_v, h]

/-- An `operator>>` found by the expression `is >> t` makes `T` istreammable. -/
theorem is_istreammable_of_right_shift (facts : TypeFacts) (T : Ty)
    (h : facts.right_shift T = true) : is_istreammable_v facts T = true := by
  simp [is_istreammable_v, h]

/-- C12, failing input: in `exampleStreamFacts` the type `named 1` has
`std::istream& operator>>(std::istream&, T&)` defined in namespace `madness::operators`,
and `is_istreammable<T>` is false, because the second detector (line 130) asks for
`madness::operators::operator<<`; the symmetric `is_ostreammable<T>` is true. -/
theorem is_istreammable_misses_operators_namespace :
    exampleStreamFacts.right_shift_in_ns_madness_operators (Ty.named 1) = true ∧
      is_istreammable_v exampleStreamFacts.toTypeFacts (Ty.named 1) = false ∧
      exampleStreamFacts.left_shift_in_ns_madness_operators (Ty.named 1) = true ∧
      is_ostreammable_v exampleStreamFacts.toTypeFacts (Ty.named 1) = true := by
  decide

end madness

namespace elem

open UnitOrNonUnit Orientation LeftOrRight UpperOrLower

section ConformalStep

variable {F : Type} [Field F] [StarRing F]

/-- Shapes at step 5 of a pass on square matrices of one size: the product `A02ᴴ U01` is
`(n-k-b) x b` and `A12` is `b x (n-k-b)`, so the operands of the sequential `Gemm` call are
conformal exactly when `b = n-k-b`; the matrix the distributed form subtracts has the
shape of `A12`. -/
theorem step5_shapes {n : Nat} (bs k : Nat) (A U : Mat F) (hAh : A.height = n)
    (hAw : A.width = n) (hUh : U.height = n) (hUw : U.width = n) :
    productShape ADJOINT NORMAL (RepartitionDownDiagonal A k bs).A02
        (RepartitionDownDiagonal U k bs).A01 = (n - k - min bs (n - k), min bs (n - k)) ∧
      (RepartitionDownDiagonal A k bs).A12.shape = (min bs (n - k), n - k - min bs (n - k)) ∧
      (GemmConformal ADJOINT NORMAL (RepartitionDownDiagonal A k bs).A02
          (RepartitionDownDiagonal U k bs).A01 (RepartitionDownDiagonal A k bs).A12 = true ↔
        min bs (n - k) = n - k - min bs (n - k)) ∧
      (Adjoint (LocalGemmSet ADJOINT NORMAL 1 (RepartitionDownDiagonal A k bs).A02
          (redistribute (RepartitionDownDiagonal U k bs).A01))).shape =
        (RepartitionDownDiagonal A k bs).A12.shape := by
  simp only [productShape, GemmConformal, Mat.shape, RepartitionDownDiagonal, hAh, hAw, hUh,
    hUw, Nat.min_self, View_height, View_width, orient_adjoint_height, orient_adjoint_width,
    orient_normal, Adjoint_height, Adjoint_width, LocalGemmSet, Gemm_height, Gemm_width,
    Zeros_height, Zeros_width, redistribute, Bool.and_eq_true, decide_eq_true_eq,
    Prod.mk.injEq, true_and, and_true]
  constructor
  · intro h
    exact h.1.symm
  · intro h
    exact ⟨h.symm, h⟩

/-- In the last pass of a run on a nonempty matrix (`k < n`, `k + b = n`) the operands of
the sequential `Gemm` call are not conformal. -/
theorem step5_last_pass {n : Nat} (bs k : Nat) (A U : Mat F) (hAh : A.height = n)
    (hAw : A.width = n) (hUh : U.height = n) (hUw : U.width = n) (hbs : 1 ≤ bs)
    (hk : k < n) (hlast : n - k ≤ bs) :
    GemmConformal ADJOINT NORMAL (RepartitionDownDiagonal A k bs).A02
      (RepartitionDownDiagonal U k bs).A01 (RepartitionDownDiagonal A k bs).A12 = false := by
  have h := (step5_shapes bs k A U hAh hAw hUh hUw).2.2.1
  rw [Bool.eq_false_iff]
  intro hc
  have := h.mp hc
  rw [Nat.min_eq_right hlast] at this
  omega

/-- C13, failing input: in the pass with cut `1` of the 4 x 4 example with block size 1,
`A02` is `1 x 2` and `U01` is `1 x 1`, so the product `A02ᴴ U01` of the sequential `Gemm`
call is `2 x 1`, while `A12` is `1 x 2`: the operands are not conformal. The matrix the
distributed form subtracts from `A12` is `1 x 2`. -/
theorem step5_not_conformal :
    (RepartitionDownDiagonal exampleA4 1 1).A02.shape = (1, 2) ∧
      (RepartitionDownDiagonal exampleU4 1 1).A01.shape = (1, 1) ∧
      productShape ADJOINT NORMAL (RepartitionDownDiagonal exampleA4 1 1).A02
        (RepartitionDownDiagonal exampleU4 1 1).A01 = (2, 1) ∧
      (RepartitionDownDiagonal exampleA4 1 1).A12.shape = (1, 2) ∧
      GemmConformal ADJOINT NORMAL (RepartitionDownDiagonal exampleA4 1 1).A02
        (RepartitionDownDiagonal exampleU4 1 1).A01
        (RepartitionDownDiagonal exampleA4 1 1).A12 = false ∧
      (Adjoint (LocalGemmSet ADJOINT NORMAL 1 (RepartitionDownDiagonal exampleA4 1 1).A02
        (redistribute (RepartitionDownDiagonal exampleU4 1 1).A01))).shape = (1, 2) := by
  decide

end ConformalStep

end elem

namespace elem

open UnitOrNonUnit Orientation LeftOrRight UpperOrLower

section Progress

variable {F : Type} [Field F] [StarRing F]

/-- The number `⌈m / bs⌉` is at most `f` exactly when `m ≤ f * bs`. -/
theorem ceil_div_le_iff (m bs f : Nat) (hbs : 1 ≤ bs) :
    (m + bs - 1) / bs ≤ f ↔ m ≤ f * bs := by
  rw [← Nat.lt_succ_iff, Nat.div_lt_iff_lt_mul (by omega), Nat.succ_mul]
  omega

/-- Number of passes of the two loops: started at the cut `k` on square matrices of one
size, the loop has returned within `fuel` passes exactly when `n - k ≤ fuel * bs`. -/
theorem loop_passes {n bs : Nat} (U : Mat F) (hUh : U.height = n)
    (hUw : U.width = n)
    (loop : Nat → Mat F → Nat → Nat → Option (Mat F)) (iter : Mat F → Nat → Nat → Mat F)
    (h0 : ∀ A cA cU, loop 0 A cA cU = if cA < A.height then none else some A)
    (hs : ∀ fuel A cA cU, loop (fuel + 1) A cA cU =
      if cA < A.height then
        loop fuel (iter A cA cU)
          (SlidePartitionDownDiagonal cA (RepartitionDownDiagonal A cA bs).A11)
          (SlidePartitionDownDiagonal cU (RepartitionDownDiagonal U cU bs).A11)
      else some A)
    (hiter : ∀ A cA cU, (iter A cA cU).height = A.height ∧ (iter A cA cU).width = A.width) :
    ∀ fuel k A, A.height = n → A.width = n → k ≤ n →
      ((loop fuel A k k).isSome = true ↔ n - k ≤ fuel * bs) := by
  intro fuel
  induction fuel with
  | zero =>
    intro k A hh _ hk
    rw [h0, hh]
    by_cases hlt : k < n
    · rw [if_pos hlt]
      simp only [Option.isSome_none, Nat.zero_mul]
      constructor
      · intro h; cases h
      · intro h; omega
    · rw [if_neg hlt]
      simp only [Option.isSome_some, Nat.zero_mul, true_iff]
      omega
  | succ fuel ih =>
    intro k A hh hw hk
    rw [hs, hh]
    by_cases hlt : k < n
    · rw [if_pos hlt, slide_square A hh hw, slide_square U hUh hUw,
        ih (k + min bs (n - k)) (iter A k k) ((hiter A k k).1.trans hh)
          ((hiter A k k).2.trans hw)
          (by have := Nat.min_le_right bs (n - k); omega), Nat.succ_mul]
      rcases Nat.le_total bs (n - k) with hle | hle
      · rw [Nat.min_eq_left hle]
        omega
      · rw [Nat.min_eq_right hle]
        omega
    · rw [if_neg hlt]
      simp only [Option.isSome_some, true_iff]
      omega

theorem blockRange_mem (extent cut b : Nat) (hb : cut + b ≤ extent) (I : Fin 3) (i : Nat)
    (hi : i < extent) :
    ((blockRange extent cut b I).1 ≤ i ∧
        i < (blockRange extent cut b I).1 + (blockRange extent cut b I).2) ↔
      I = (if i < cut then 0 else if i < cut + b then 1 else 2) := by
  fin_cases I
  · simp only [blockRange, Fin.zero_eta, Fin.val_zero, if_true]
    by_cases h1 : i < cut
    · simp [h1]
    · by_cases h2 : i < cut + b <;> simp [h1, h2]
  · simp only [blockRange, Fin.mk_one, Fin.val_one, if_true]
    by_cases h1 : i < cut
    · simp [h1]
    · by_cases h2 : i < cut + b
      · simp [h1, h2]
        omega
      · simp [h1, h2]
  · simp only [blockRange]
    by_cases h1 : i < cut
    · simp [h1]
      omega
    · by_cases h2 : i < cut + b
      · simp [h1, h2]
      · simp [h1, h2]
        omega

/-- The nine views of `RepartitionDownDiagonal` are the views through the nine windows. -/
theorem block_eq_viewOf (A : Mat F) (cut bsize : Nat) (I J : Fin 3) :
    (RepartitionDownDiagonal A cut bsize).block I J =
      viewOf A (blockWindow A.height A.width cut bsize I J) := by
  fin_cases I <;> fin_cases J <;>
    simp [Blocks.block, RepartitionDownDiagonal, viewOf, blockWindow, blockRange]

/-- C15: partition progress and termination. For `n x n` matrices `A` and `U` and a block
size `bs ≥ 1`, either form of the driver has returned within `fuel` passes of its loop
exactly when `⌈n / bs⌉ ≤ fuel`, so the loop ends after exactly `⌈n / bs⌉` passes. At
every cut `k ≤ n` the nine views are the views through nine windows, every index of the
matrix lies in exactly one of the nine windows, block 11 is the window with corner `(k, k)`
and shape `b x b` for `b = min(bs, n - k)`, and the slide moves the cut to `k + b`. For
`n = 0` the driver returns `A` itself without a pass of the loop. -/
theorem partition_progress (n bs : Nat) (debug : Bool) (diag : UnitOrNonUnit) (A U : Mat F)
    (hAh : A.height = n) (hAw : A.width = n) (hUh : U.height = n) (hUw : U.width = n)
    (hbs : 1 ≤ bs) :
    (∀ fuel, ((n + bs - 1) / bs ≤ fuel →
          ∃ R, TwoSidedTrsmUVar2 debug bs fuel diag A U = Outcome.returned R) ∧
        (fuel < (n + bs - 1) / bs →
          TwoSidedTrsmUVar2 debug bs fuel diag A U = Outcome.running) ∧
        ((n + bs - 1) / bs ≤ fuel →
          ∃ R, TwoSidedTrsmUVar2Dist debug bs fuel diag A U = Outcome.returned R) ∧
        (fuel < (n + bs - 1) / bs →
          TwoSidedTrsmUVar2Dist debug bs fuel diag A U = Outcome.running)) ∧
      (∀ k, k ≤ n →
        (∀ I J, (RepartitionDownDiagonal A k bs).block I J =
          viewOf A (blockWindow n n k bs I J)) ∧
        (∀ i j, i < n → j < n →
          ∃! p : Fin 3 × Fin 3, (blockWindow n n k bs p.1 p.2).contains i j) ∧
        blockWindow n n k bs 1 1 =
          { row := k, col := k, height := min bs (n - k), width := min bs (n - k) } ∧
        SlidePartitionDownDiagonal k (RepartitionDownDiagonal A k bs).A11 =
          k + min bs (n - k)) ∧
      (n = 0 → TwoSidedTrsmUVar2 debug bs 0 diag A U = Outcome.returned A ∧
        TwoSidedTrsmUVar2Dist debug bs 0 diag A U = Outcome.returned A) := by
  have hseq := loop_passes U hUh hUw (seqLoop diag bs U)
    (fun A cA cU => seqIteration diag bs A U cA cU) (seqLoop_zero diag bs U)
    (seqLoop_succ diag bs U) (fun _ _ _ => ⟨rfl, rfl⟩)
  have hdist := loop_passes U hUh hUw (distLoop diag bs U)
    (fun A cA cU => distIteration diag bs A U cA cU) (distLoop_zero diag bs U)
    (distLoop_succ diag bs U) (fun _ _ _ => ⟨rfl, rfl⟩)
  refine ⟨?_, ?_, ?_⟩
  · intro fuel
    have h1 := hseq fuel 0 A hAh hAw (Nat.zero_le n)
    have h2 := hdist fuel 0 A hAh hAw (Nat.zero_le n)
    rw [Nat.sub_zero, ← ceil_div_le_iff n bs fuel hbs] at h1 h2
    rw [seq_of_square debug bs fuel diag A U hAh hAw hUh hUw,
      dist_of_square debug bs fuel diag A U hAh hAw hUh hUw]
    refine ⟨?_, ?_, ?_, ?_⟩
    · intro h
      cases hR : seqLoop diag bs U fuel A 0 0 with
      | none => rw [hR] at h1; exact absurd (h1.mpr h) (by simp)
      | some R => exact ⟨R, rfl⟩
    · intro h
      cases hR : seqLoop diag bs U fuel A 0 0 with
      | none => rfl
      | some R =>
        rw [hR] at h1
        have := h1.mp rfl
        omega
    · intro h
      cases hR : distLoop diag bs U fuel A 0 0 with
      | none => rw [hR] at h2; exact absurd (h2.mpr h) (by simp)
      | some R => exact ⟨R, rfl⟩
    · intro h
      cases hR : distLoop diag bs U fuel A 0 0 with
      | none => rfl
      | some R =>
        rw [hR] at h2
        have := h2.mp rfl
        omega
  · intro k hk
    have hb : k + min bs (n - k) ≤ n := by
      have := Nat.min_le_right bs (n - k)
      omega
    refine ⟨?_, ?_, ?_, slide_square A hAh hAw k bs⟩
    · intro I J
      rw [block_eq_viewOf, hAh, hAw]
    · intro i j hi hj
      have hrow := fun I => blockRange_mem n k (min bs (n - k)) hb I i hi
      have hcol := fun J => blockRange_mem n k (min bs (n - k)) hb J j hj
      refine ⟨(if i < k then 0 else if i < k + min bs (n - k) then 1 else 2,
        if j < k then 0 else if j < k + min bs (n - k) then 1 else 2), ?_, ?_⟩
      · simp only [Window.contains, blockWindow, Nat.min_self]
        exact ⟨((hrow _).mpr rfl).1, ((hrow _).mpr rfl).2, ((hcol _).mpr rfl).1,
          ((hcol _).mpr rfl).2⟩
      · intro p hp
        simp only [Window.contains, blockWindow, Nat.min_self] at hp
        exact Prod.ext ((hrow p.1).mp ⟨hp.1, hp.2.1⟩) ((hcol p.2).mp ⟨hp.2.2.1, hp.2.2.2⟩)
    · simp [blockWindow, blockRange]
  · intro hn
    subst hn
    rw [seq_of_square debug bs 0 diag A U hAh hAw hUh hUw,
      dist_of_square debug bs 0 diag A U hAh hAw hUh hUw, seqLoop_zero, distLoop_zero, hAh]
    simp

/-- C15, witness: the 4 x 4 example with block size 2; the loop takes two passes. -/
theorem partition_progress_witness :
    (∀ fuel, ((4 + 2 - 1) / 2 ≤ fuel →
          ∃ R, TwoSidedTrsmUVar2 true 2 fuel NON_UNIT exampleA4 exampleU4 =
            Outcome.returned R) ∧
        (fuel < (4 + 2 - 1) / 2 →
          TwoSidedTrsmUVar2 true 2 fuel NON_UNIT exampleA4 exampleU4 = Outcome.running) ∧
        ((4 + 2 - 1) / 2 ≤ fuel →
          ∃ R, TwoSidedTrsmUVar2Dist true 2 fuel NON_UNIT exampleA4 exampleU4 =
            Outcome.returned R) ∧
        (fuel < (4 + 2 - 1) / 2 →
          TwoSidedTrsmUVar2Dist true 2 fuel NON_UNIT exampleA4 exampleU4 =
            Outcome.running)) ∧
      (∀ k, k ≤ 4 →
        (∀ I J, (RepartitionDownDiagonal exampleA4 k 2).block I J =
          viewOf exampleA4 (blockWindow 4 4 k 2 I J)) ∧
        (∀ i j, i < 4 → j < 4 →
          ∃! p : Fin 3 × Fin 3, (blockWindow 4 4 k 2 p.1 p.2).contains i j) ∧
        blockWindow 4 4 k 2 1 1 =
          { row := k, col := k, height := min 2 (4 - k), width := min 2 (4 - k) } ∧
        SlidePartitionDownDiagonal k (RepartitionDownDiagonal exampleA4 k 2).A11 =
          k + min 2 (4 - k)) ∧
      (4 = 0 → TwoSidedTrsmUVar2 true 2 0 NON_UNIT exampleA4 exampleU4 =
          Outcome.returned exampleA4 ∧
        TwoSidedTrsmUVar2Dist true 2 0 NON_UNIT exampleA4 exampleU4 =
          Outcome.returned exampleA4) :=
  partition_progress 4 2 true NON_UNIT exampleA4 exampleU4 rfl rfl rfl rfl (by decide)

end Progress

end elem


namespace elem

open UnitOrNonUnit Orientation LeftOrRight UpperOrLower Finset

section Residual

variable {F : Type} [Field F] [StarRing F]

/-- An unknown of the forward substitution does not change once it is computed. -/
theorem solveLowerUpTo_stable (L : Nat → Nat → F) (d c : Nat → F) :
    ∀ m a, a < m → solveLowerUpTo L d c m a = solveLowerUpTo L d c (a + 1) a := by
  intro m
  induction m with
  | zero => intro a ha; omega
  | succ m ih =>
    intro a ha
    by_cases h : a = m
    · rw [h]
    · have : solveLowerUpTo L d c (m + 1) a = solveLowerUpTo L d c m a := by
        simp only [solveLowerUpTo, if_neg h]
      rw [this]
      exact ih a (by omega)

/-- The unknowns of the forward substitution solve the system when the diagonal is
nonzero. -/
theorem solveLowerUpTo_residual (L : Nat → Nat → F) (d c : Nat → F) (m : Nat)
    (hd : ∀ a, a < m → d a ≠ 0) (a : Nat) (ha : a < m) :
    sumTo a (fun p => L a p * solveLowerUpTo L d c m p) + d a * solveLowerUpTo L d c m a =
      c a := by
  have hsum : sumTo a (fun p => L a p * solveLowerUpTo L d c m p) =
      sumTo a (fun p => L a p * solveLowerUpTo L d c a p) := by
    apply sumTo_congr
    intro p hp
    rw [solveLowerUpTo_stable L d c m p (by omega), solveLowerUpTo_stable L d c a p hp]
  rw [hsum, solveLowerUpTo_stable L d c m a ha]
  simp only [solveLowerUpTo, if_true]
  have := hd a ha
  field_simp

/-- The right solve with an upper triangular `T` returns `X` with `X T = α B`, when the
diagonal of the triangular operand is nonzero. -/
theorem Trsm_right_residual (diag : UnitOrNonUnit) (alpha : F) (T B : Mat F)
    (hd : ∀ a, a < B.width → triEntry UPPER diag T a a ≠ 0) (i c : Nat) (hi : i < B.height)
    (hc : c < B.width) :
    sumTo B.width (fun p =>
        (Trsm RIGHT UPPER NORMAL diag alpha T B).get i p * triEntry UPPER diag T p c) =
      alpha * B.get i c := by
  have hres := solveLowerUpTo_residual (fun a p => triOpEntry UPPER NORMAL diag T p a)
    (fun a => triOpEntry UPPER NORMAL diag T a a) (fun a => alpha * B.get i a) B.width
    (fun a ha => hd a ha) c hc
  beta_reduce at hres
  rw [← hres]
  have hX : ∀ p, p < B.width → (Trsm RIGHT UPPER NORMAL diag alpha T B).get i p =
      solveLowerUpTo (fun a p => triOpEntry UPPER NORMAL diag T p a)
        (fun a => triOpEntry UPPER NORMAL diag T a a) (fun a => alpha * B.get i a) B.width p := by
    intro p hp
    rw [get_of_lt (by rw [Trsm_height]; exact hi) (by rw [Trsm_width]; exact hp)]
    simp only [Trsm, Mat.update, opIsLower, triSolve, Bool.not_false, if_true, hi, hp,
      and_self]
  obtain ⟨t, ht⟩ : ∃ t, B.width = c + 1 + t := ⟨B.width - (c + 1), by omega⟩
  simp only [sumTo_eq_sum]
  rw [ht, sum_range_add, sum_range_succ]
  have hz : ∑ x in range t, (Trsm RIGHT UPPER NORMAL diag alpha T B).get i (c + 1 + x) *
      triEntry UPPER diag T (c + 1 + x) c = 0 := by
    apply sum_eq_zero
    intro x _
    simp only [triEntry, if_neg (by omega : ¬ c + 1 + x = c), if_neg (by omega : ¬ c + 1 + x < c),
      mul_zero]
  rw [hz, add_zero, ← ht, hX c hc]
  congr 1
  · apply sum_congr rfl
    intro p hp
    have hpc := mem_range.mp hp
    rw [hX p (by omega)]
    simp only [triOpEntry, triEntry, if_neg (Nat.ne_of_lt hpc), if_pos hpc]
    ring
  · simp only [triOpEntry]
    ring

end Residual

end elem


namespace elem

open UnitOrNonUnit Orientation LeftOrRight UpperOrLower Finset

section Split

variable {F : Type} [Field F] [StarRing F]

/-- Entry of the rank-2k update `C ← α (Xᴴ Y + Yᴴ X) + β C` on or above the diagonal. -/
theorem Her2k_upper_adjoint_get (alpha beta : F) (X Y C : Mat F) {a c : Nat} (hac : a ≤ c)
    (ha : a < C.height) (hc : c < C.width) :
    (Her2k UPPER ADJOINT alpha X Y beta C).get a c =
      alpha * sumTo X.height (fun l => star (X.get l a) * Y.get l c) +
        star alpha * sumTo X.height (fun l => star (Y.get l a) * X.get l c) +
        beta * C.get a c := by
  simp only [Her2k, update_get, if_pos (And.intro ha hc), decide_eq_true hac, if_true,
    orient_adjoint_get_star, orient_adjoint_width, star_star, get_of_lt ha hc]

/-- The Hermitian matrix stored in the upper triangle of a matrix with a self-adjoint
diagonal is Hermitian. -/
theorem hermEntry_upper_star (A : Mat F) (k : Nat)
    (hd : ∀ i, i < k → star (A.get i i) = A.get i i) (l m : Nat) (hl : l < k) :
    star (hermEntry UPPER A l m) = hermEntry UPPER A m l := by
  simp only [hermEntry]
  by_cases h1 : l ≤ m
  · by_cases h2 : m ≤ l
    · have e : l = m := by omega
      subst e
      rw [if_pos h1]
      exact hd l hl
    · rw [if_pos h1, if_neg h2]
  · rw [if_neg h1, if_pos (by omega), star_star]

/-- The two halves of the subtraction of `Y01` make one subtraction. -/
theorem Axpy_half_twice (h2 : (2 : F) ≠ 0) (Y X : Mat F) {i c : Nat} (hi : i < X.height)
    (hc : c < X.width) :
    (Axpy ((-1) / 2) Y (Axpy ((-1) / 2) Y X)).get i c = X.get i c - Y.get i c := by
  rw [Axpy_get_of_lt _ _ _ (by exact hi) (by exact hc), Axpy_get_of_lt _ _ _ hi hc]
  field_simp
  ring

/-- The rank-2k downdate with the half-updated `A01` subtracts `U01ᴴ A01 + A01ᴴ U01` and
adds `U01ᴴ H U01`, for a Hermitian `H` and `Y = H U01`. -/
theorem her2k_split (h2 : (2 : F) ≠ 0) (u x H : Nat → Nat → F) (k a c : Nat)
    (hH : ∀ l m, l < k → star (H l m) = H m l) (d : F) :
    (-1) * ∑ l in range k, star (u l a) * ((-1) / 2 * (∑ m in range k, H l m * u m c) + x l c) +
        star (-1 : F) *
          ∑ l in range k, star ((-1) / 2 * (∑ m in range k, H l m * u m a) + x l a) * u l c +
        1 * d =
      d - ∑ l in range k, star (u l a) * x l c - ∑ l in range k, star (x l a) * u l c +
        ∑ l in range k, star (u l a) * (∑ m in range k, H l m * u m c) := by
  have hstar2 : star ((-1 : F) / 2) = (-1) / 2 := by
    rw [star_div₀, star_neg, star_one, star_ofNat]
  have hswap : ∑ l in range k, star (∑ m in range k, H l m * u m a) * u l c =
      ∑ l in range k, star (u l a) * (∑ m in range k, H l m * u m c) := by
    simp only [star_sum, star_mul', sum_mul, mul_sum]
    rw [sum_comm]
    apply sum_congr rfl
    intro l _
    apply sum_congr rfl
    intro m hm
    rw [hH m l (mem_range.mp hm)]
    ring
  simp only [star_add, star_mul', hstar2, star_neg, star_one, mul_add, add_mul,
    sum_add_distrib]
  have e1 : ∑ l in range k, star (u l a) * ((-1) / 2 * ∑ m in range k, H l m * u m c) =
      (-1) / 2 * ∑ l in range k, star (u l a) * (∑ m in range k, H l m * u m c) := by
    rw [mul_sum]
    apply sum_congr rfl
    intro l _
    ring
  have e2 : ∑ l in range k, (-1) / 2 * star (∑ m in range k, H l m * u m a) * u l c =
      (-1) / 2 * ∑ l in range k, star (u l a) * (∑ m in range k, H l m * u m c) := by
    rw [← hswap, mul_sum]
    apply sum_congr rfl
    intro l _
    ring
  rw [e1, e2]
  field_simp
  ring

end Split

end elem

namespace elem

open UnitOrNonUnit Orientation LeftOrRight UpperOrLower Finset

section SplitClaim

variable {F : Type} [Field F] [StarRing F]

/-- C14: split subtraction identity. In the pass of the sequential driver at the cut `k`
of `n x n` matrices, over a field in which `2 ≠ 0`, with `A00` Hermitian as completed from
its upper triangle (self-adjoint diagonal) and a triangular operand `U11` with nonzero
diagonal: the pass writes back `seqA01Final`, the base case applied to `seqA11Downdated`,
and `seqA12Final`; `Y01` is the product of the Hermitian `A00` with `U01`; the final `A01`
satisfies `A01 U11 = A01_in - Y01`, that is `A01 = (A01_in - Y01) U11⁻¹`; and the upper
triangle of the `A11` passed to the base case is that of
`A11_in - U01ᴴ A01_in - A01_inᴴ U01 + U01ᴴ A00 U01`. -/
theorem split_subtraction_identity (n bs k : Nat) (diag : UnitOrNonUnit) (A U : Mat F)
    (hAh : A.height = n) (hAw : A.width = n) (hUh : U.height = n) (hUw : U.width = n)
    (h2 : (2 : F) ≠ 0) (hA00 : ∀ i, i < k → star (A.get i i) = A.get i i)
    (hd : ∀ a, a < min bs (n - k) →
      triEntry UPPER diag (RepartitionDownDiagonal U k bs).A11 a a ≠ 0) :
    seqIteration diag bs A U k k =
        writeBack A k (seqA01Final diag bs A U k k)
          (TwoSidedTrsmUUnb diag (seqA11Downdated bs A U k k)
            (RepartitionDownDiagonal U k bs).A11)
          (seqA12Final diag bs A U k k) ∧
      (∀ i c, i < k → c < min bs (n - k) →
        (seqY01 bs A U k k).get i c =
          sumTo k (fun l => hermEntry UPPER (RepartitionDownDiagonal A k bs).A00 i l *
            (RepartitionDownDiagonal U k bs).A01.get l c)) ∧
      (∀ i c, i < k → c < min bs (n - k) →
        sumTo (min bs (n - k)) (fun p => (seqA01Final diag bs A U k k).get i p *
            triEntry UPPER diag (RepartitionDownDiagonal U k bs).A11 p c) =
          (RepartitionDownDiagonal A k bs).A01.get i c - (seqY01 bs A U k k).get i c) ∧
      (Matrix.of (fun (i : Fin k) (c : Fin (min bs (n - k))) =>
          (seqA01Final diag bs A U k k).get i c) =
        Matrix.of (fun (i : Fin k) (c : Fin (min bs (n - k))) =>
            (RepartitionDownDiagonal A k bs).A01.get i c - (seqY01 bs A U k k).get i c) *
          (Matrix.of (fun (p c : Fin (min bs (n - k))) =>
            triEntry UPPER diag (RepartitionDownDiagonal U k bs).A11 p c))⁻¹) ∧
      (∀ a c, a ≤ c → c < min bs (n - k) →
        (seqA11Downdated bs A U k k).get a c =
          (RepartitionDownDiagonal A k bs).A11.get a c -
            sumTo k (fun l => star ((RepartitionDownDiagonal U k bs).A01.get l a) *
              (RepartitionDownDiagonal A k bs).A01.get l c) -
            sumTo k (fun l => star ((RepartitionDownDiagonal A k bs).A01.get l a) *
              (RepartitionDownDiagonal U k bs).A01.get l c) +
            sumTo k (fun l => star ((RepartitionDownDiagonal U k bs).A01.get l a) *
              sumTo k (fun m => hermEntry UPPER (RepartitionDownDiagonal A k bs).A00 l m *
                (RepartitionDownDiagonal U k bs).A01.get m c))) := by
  have eA00 : (RepartitionDownDiagonal A k bs).A00 = View A 0 0 k k := rfl
  have eA01 : (RepartitionDownDiagonal A k bs).A01 = View A 0 k k (min bs (n - k)) := by
    simp only [RepartitionDownDiagonal, hAh, hAw, Nat.min_self]
  have eA11 : (RepartitionDownDiagonal A k bs).A11 =
      View A k k (min bs (n - k)) (min bs (n - k)) := by
    simp only [RepartitionDownDiagonal, hAh, hAw, Nat.min_self]
  have eU01 : (RepartitionDownDiagonal U k bs).A01 = View U 0 k k (min bs (n - k)) := by
    simp only [RepartitionDownDiagonal, hUh, hUw, Nat.min_self]
  have eU11 : (RepartitionDownDiagonal U k bs).A11 =
      View U k k (min bs (n - k)) (min bs (n - k)) := by
    simp only [RepartitionDownDiagonal, hUh, hUw, Nat.min_self]
  have hY : ∀ i c, i < k → c < min bs (n - k) →
      (seqY01 bs A U k k).get i c =
        sumTo k (fun l => hermEntry UPPER (RepartitionDownDiagonal A k bs).A00 i l *
          (RepartitionDownDiagonal U k bs).A01.get l c) := by
    intro i c hi hc
    simp only [seqY01, eA00, eA01, eU01, View_height, View_width]
    rw [Hemm_left_zeros_get UPPER _ _ k _ hi hc, View_height]
  have hprod : ∀ i c, i < k → c < min bs (n - k) →
      sumTo (min bs (n - k)) (fun p => (seqA01Final diag bs A U k k).get i p *
          triEntry UPPER diag (RepartitionDownDiagonal U k bs).A11 p c) =
        (RepartitionDownDiagonal A k bs).A01.get i c - (seqY01 bs A U k k).get i c := by
    intro i c hi hc
    have hres := Trsm_right_residual diag 1 (RepartitionDownDiagonal U k bs).A11
      (Axpy ((-1) / 2) (seqY01 bs A U k k) (seqA01Half bs A U k k))
      (fun a ha => hd a (by
        simp only [seqA01Half, eA01, Axpy_width, View_width] at ha
        exact ha))
      i c
      (by simp only [seqA01Half, eA01, Axpy_height, View_height]; exact hi)
      (by simp only [seqA01Half, eA01, Axpy_width, View_width]; exact hc)
    simp only [seqA01Half, eA01, Axpy_width, View_width, one_mul] at hres
    rw [Axpy_half_twice h2 _ _ (by exact hi) (by exact hc)] at hres
    simp only [seqA01Final, seqA01Half, eA01]
    exact hres
  refine ⟨rfl, hY, hprod, ?_, ?_⟩
  · have hdet : (Matrix.of (fun (p c : Fin (min bs (n - k))) =>
        triEntry UPPER diag (RepartitionDownDiagonal U k bs).A11 p c)).det ≠ 0 := by
      rw [Matrix.det_of_upperTriangular]
      · rw [Finset.prod_ne_zero_iff]
        intro p _
        exact hd p p.isLt
      · intro p c hcp
        have hcp2 : (c : Nat) < p := hcp
        simp only [Matrix.of_apply, triEntry, if_neg (by omega : ¬ (p : Nat) = c),
          if_neg (by omega : ¬ (p : Nat) < c)]
    have hunit := isUnit_iff_ne_zero.mpr hdet
    have hmul : Matrix.of (fun (i : Fin k) (c : Fin (min bs (n - k))) =>
          (seqA01Final diag bs A U k k).get i c) *
        Matrix.of (fun (p c : Fin (min bs (n - k))) =>
          triEntry UPPER diag (RepartitionDownDiagonal U k bs).A11 p c) =
        Matrix.of (fun (i : Fin k) (c : Fin (min bs (n - k))) =>
          (RepartitionDownDiagonal A k bs).A01.get i c - (seqY01 bs A U k k).get i c) := by
      ext i c
      rw [Matrix.mul_apply]
      simp only [Matrix.of_apply]
      rw [← hprod i c i.isLt c.isLt, sumTo_eq_sum, Finset.sum_range]
    rw [← hmul, Matrix.mul_assoc, Matrix.mul_nonsing_inv _ hunit, Matrix.mul_one]
  · intro a c hac hc
    simp only [seqA11Downdated, seqA01Half, eA00, eA01, eA11, eU01]
    rw [Her2k_upper_adjoint_get _ _ _ _ _ hac (by exact Nat.lt_of_le_of_lt hac hc)
      (by exact hc)]
    simp only [View_height, sumTo_eq_sum]
    have e1 : ∑ l in range k, star ((View U 0 k k (min bs (n - k))).get l a) *
          (Axpy ((-1) / 2) (seqY01 bs A U k k) (View A 0 k k (min bs (n - k)))).get l c =
        ∑ l in range k, star ((View U 0 k k (min bs (n - k))).get l a) *
          ((-1) / 2 * (∑ m in range k, hermEntry UPPER (View A 0 0 k k) l m *
            (View U 0 k k (min bs (n - k))).get m c) +
            (View A 0 k k (min bs (n - k))).get l c) := by
      apply sum_congr rfl
      intro l hl
      rw [Axpy_get_of_lt _ _ _ (by exact mem_range.mp hl) (by exact hc),
        hY l c (mem_range.mp hl) hc, eA00, eU01, sumTo_eq_sum]
    have e2 : ∑ l in range k,
          star ((Axpy ((-1) / 2) (seqY01 bs A U k k) (View A 0 k k (min bs (n - k)))).get l a) *
            (View U 0 k k (min bs (n - k))).get l c =
        ∑ l in range k,
          star ((-1) / 2 * (∑ m in range k, hermEntry UPPER (View A 0 0 k k) l m *
            (View U 0 k k (min bs (n - k))).get m a) +
            (View A 0 k k (min bs (n - k))).get l a) *
            (View U 0 k k (min bs (n - k))).get l c := by
      apply sum_congr rfl
      intro l hl
      rw [Axpy_get_of_lt _ _ _ (by exact mem_range.mp hl)
        (by exact Nat.lt_of_le_of_lt hac hc),
        hY l a (mem_range.mp hl) (Nat.lt_of_le_of_lt hac hc), eA00, eU01, sumTo_eq_sum]
    rw [e1, e2]
    refine her2k_split h2 (fun l j => (View U 0 k k (min bs (n - k))).get l j)
      (fun l j => (View A 0 k k (min bs (n - k))).get l j)
      (fun l m => hermEntry UPPER (View A 0 0 k k) l m) k a c ?_ _
    intro l m hl
    refine hermEntry_upper_star (View A 0 0 k k) k ?_ l m hl
    intro i hi
    rw [View_get_of_lt A 0 0 k k hi hi, Nat.zero_add]
    exact hA00 i hi

end SplitClaim

end elem

namespace elem

open UnitOrNonUnit Orientation LeftOrRight UpperOrLower Finset

/-- C14, witness: the second pass (cut 2, block size 2) on the 4 x 4 example. -/
theorem split_subtraction_identity_witness :
    ((2 : ℚ) ≠ 0 ∧ (∀ i, i < 2 → star (exampleA4.get i i) = exampleA4.get i i) ∧
        (∀ a, a < min 2 (4 - 2) →
          triEntry UPPER NON_UNIT (RepartitionDownDiagonal exampleU4 2 2).A11 a a ≠ 0)) ∧
      (seqIteration NON_UNIT 2 exampleA4 exampleU4 2 2 =
          writeBack exampleA4 2 (seqA01Final NON_UNIT 2 exampleA4 exampleU4 2 2)
            (TwoSidedTrsmUUnb NON_UNIT (seqA11Downdated 2 exampleA4 exampleU4 2 2)
              (RepartitionDownDiagonal exampleU4 2 2).A11)
            (seqA12Final NON_UNIT 2 exampleA4 exampleU4 2 2) ∧
        (∀ i c, i < 2 → c < min 2 (4 - 2) →
          (seqY01 2 exampleA4 exampleU4 2 2).get i c =
            sumTo 2 (fun l =>
              hermEntry UPPER (RepartitionDownDiagonal exampleA4 2 2).A00 i l *
                (RepartitionDownDiagonal exampleU4 2 2).A01.get l c)) ∧
        (∀ i c, i < 2 → c < min 2 (4 - 2) →
          sumTo (min 2 (4 - 2)) (fun p =>
              (seqA01Final NON_UNIT 2 exampleA4 exampleU4 2 2).get i p *
                triEntry UPPER NON_UNIT (RepartitionDownDiagonal exampleU4 2 2).A11 p c) =
            (RepartitionDownDiagonal exampleA4 2 2).A01.get i c -
              (seqY01 2 exampleA4 exampleU4 2 2).get i c) ∧
        (Matrix.of (fun (i : Fin 2) (c : Fin (min 2 (4 - 2))) =>
            (seqA01Final NON_UNIT 2 exampleA4 exampleU4 2 2).get i c) =
          Matrix.of (fun (i : Fin 2) (c : Fin (min 2 (4 - 2))) =>
              (RepartitionDownDiagonal exampleA4 2 2).A01.get i c -
                (seqY01 2 exampleA4 exampleU4 2 2).get i c) *
            (Matrix.of (fun (p c : Fin (min 2 (4 - 2))) =>
              triEntry UPPER NON_UNIT (RepartitionDownDiagonal exampleU4 2 2).A11 p c))⁻¹) ∧
        (∀ a c, a ≤ c → c < min 2 (4 - 2) →
          (seqA11Downdated 2 exampleA4 exampleU4 2 2).get a c =
            (RepartitionDownDiagonal exampleA4 2 2).A11.get a c -
              sumTo 2 (fun l => star ((RepartitionDownDiagonal exampleU4 2 2).A01.get l a) *
                (RepartitionDownDiagonal exampleA4 2 2).A01.get l c) -
              sumTo 2 (fun l => star ((RepartitionDownDiagonal exampleA4 2 2).A01.get l a) *
                (RepartitionDownDiagonal exampleU4 2 2).A01.get l c) +
              sumTo 2 (fun l => star ((RepartitionDownDiagonal exampleU4 2 2).A01.get l a) *
                sumTo 2 (fun m =>
                  hermEntry UPPER (RepartitionDownDiagonal exampleA4 2 2).A00 l m *
                    (RepartitionDownDiagonal exampleU4 2 2).A01.get m c)))) :=
  ⟨⟨by decide!, by decide!, by decide!⟩,
    split_subtraction_identity 4 2 2 NON_UNIT exampleA4 exampleU4 rfl rfl rfl rfl
      (by decide!) (by decide!) (by decide!)⟩

end elem

namespace elem

open UnitOrNonUnit Orientation LeftOrRight UpperOrLower Finset

section Frame

variable {F : Type} [Field F] [StarRing F]

/-- The base case leaves the entries below the diagonal as they are. -/
theorem TwoSidedTrsmUUnb_entry_lower (diag : UnitOrNonUnit) (A U : Mat F) {a c : Nat}
    (h : c < a) : (TwoSidedTrsmUUnb diag A U).entry a c = A.entry a c := by
  unfold TwoSidedTrsmUUnb
  simp only [update_entry, if_neg (Nat.not_le.mpr h), ite_self]

/-- The rank-2k update of the upper triangle leaves the entries below the diagonal as they
are. -/
theorem Her2k_upper_entry_lower (o : Orientation) (alpha beta : F) (X Y C : Mat F)
    {a c : Nat} (h : c < a) : (Her2k UPPER o alpha X Y beta C).entry a c = C.entry a c := by
  unfold Her2k
  simp only [update_entry, decide_eq_true_eq, if_neg (Nat.not_le.mpr h), ite_self]

/-- Subtracting a matrix whose lower triangle is masked leaves the entries below the
diagonal as they are. -/
theorem Axpy_masked_entry_lower (alpha : F) (Z C : Mat F) {a c : Nat} (h : c < a) :
    (Axpy alpha (MakeTriangular UPPER Z) C).entry a c = C.entry a c := by
  unfold Axpy
  simp only [update_entry, MakeTriangular_upper_get, if_neg (Nat.not_le.mpr h), mul_zero,
    zero_add, ite_self]

/-- Frame of one pass, for both forms: at the cut `k` of `n x n` matrices, with
`b = min bs (n - k)`, every entry outside `A01` (rows `< k`, columns `[k, k + b)`), the
upper triangle of `A11` and `A12` (rows `[k, k + b)`, columns `[k + b, n)`) is left as it
is; in particular `A00`, `A02`, `A22`, the blocks below the diagonal and the strictly lower
triangle of `A11`. -/
theorem iteration_frame (diag : UnitOrNonUnit) {n : Nat} (bs : Nat) (A U : Mat F)
    (hAh : A.height = n) (hAw : A.width = n) (hUh : U.height = n) (hUw : U.width = n)
    (k : Nat) (hk : k ≤ n) (i j : Nat)
    (hout : ¬ ((i < k ∧ k ≤ j ∧ j < k + min bs (n - k)) ∨
      (k ≤ i ∧ i ≤ j ∧ j < k + min bs (n - k)) ∨
      (k ≤ i ∧ i < k + min bs (n - k) ∧ k + min bs (n - k) ≤ j ∧ j < n))) :
    (seqIteration diag bs A U k k).entry i j = A.entry i j ∧
      (distIteration diag bs A U k k).entry i j = A.entry i j := by
  have hb : min bs (n - k) ≤ n - k := Nat.min_le_right _ _
  have hseq : seqIteration diag bs A U k k =
      writeBack A k (seqA01Final diag bs A U k k)
        (TwoSidedTrsmUUnb diag (seqA11Downdated bs A U k k)
          (RepartitionDownDiagonal U k bs).A11)
        (seqA12Final diag bs A U k k) := rfl
  have e12 : ¬ (k ≤ i ∧ i < k + min bs (n - k) ∧ k + min bs (n - k) ≤ j ∧
      j < k + min bs (n - k) + (n - k - min bs (n - k))) := by
    intro h
    exact hout (Or.inr (Or.inr ⟨h.1, h.2.1, h.2.2.1, by omega⟩))
  have e01 : ¬ (i < k ∧ k ≤ j ∧ j < k + min bs (n - k)) := fun h => hout (Or.inl h)
  constructor
  · rw [hseq, writeBack_entry A _ _ _ k (min bs (n - k)) (n - k - min bs (n - k))
      (by simp [seqA01Final, seqA01Half, RepartitionDownDiagonal, hAh, hAw])
      (by simp [seqA01Final, seqA01Half, RepartitionDownDiagonal, hAh, hAw])
      (by simp [seqA11Downdated, RepartitionDownDiagonal, hAh, hAw])
      (by simp [seqA11Downdated, RepartitionDownDiagonal, hAh, hAw])
      (by simp [seqA12Final, RepartitionDownDiagonal, hAh, hAw])
      (by simp [seqA12Final, RepartitionDownDiagonal, hAh, hAw]),
      if_neg e12, if_neg e01]
    by_cases h11 : k ≤ i ∧ i < k + min bs (n - k) ∧ k ≤ j ∧ j < k + min bs (n - k)
    · have hji : j < i := by
        by_contra hc
        exact hout (Or.inr (Or.inl ⟨h11.1, by omega, h11.2.2.2⟩))
      rw [if_pos h11, TwoSidedTrsmUUnb_entry_lower diag _ _ (by omega)]
      simp only [seqA11Downdated, RepartitionDownDiagonal, hAh, hAw, Nat.min_self]
      rw [Her2k_upper_entry_lower _ _ _ _ _ _ (by omega)]
      simp only [View]
      rw [if_pos ⟨by omega, by omega⟩, get_of_lt (by omega) (by omega)]
      congr 1 <;> omega
    · rw [if_neg h11]
  · rw [distIteration_blocks diag bs A U hAh hAw hUh hUw k,
      writeBack_entry A _ _ _ k (min bs (n - k)) (n - k - min bs (n - k))
      (by simp) (by simp) (by simp) (by simp) (by simp) (by simp),
      if_neg e12, if_neg e01]
    by_cases h11 : k ≤ i ∧ i < k + min bs (n - k) ∧ k ≤ j ∧ j < k + min bs (n - k)
    · have hji : j < i := by
        by_contra hc
        exact hout (Or.inr (Or.inl ⟨h11.1, by omega, h11.2.2.2⟩))
      rw [if_pos h11, TwoSidedTrsmUUnb_entry_lower diag _ _ (by omega),
        Axpy_masked_entry_lower _ _ _ (by omega)]
      simp only [View]
      rw [if_pos ⟨by omega, by omega⟩, get_of_lt (by omega) (by omega)]
      congr 1 <;> omega
    · rw [if_neg h11]

end Frame

end elem

namespace elem

open UnitOrNonUnit Orientation LeftOrRight UpperOrLower Finset

section BlockForm

variable {F : Type} [Field F] [StarRing F]

/-- A sum whose terms vanish from `k` on stops at `k`. -/
theorem sumTo_truncate {n k : Nat} (hk : k ≤ n) {f : Nat → F}
    (hz : ∀ l, k ≤ l → l < n → f l = 0) : sumTo n f = sumTo k f := by
  induction n with
  | zero =>
    have : k = 0 := by omega
    rw [this]
  | succ n ih =>
    by_cases h : k = n + 1
    · rw [h]
    · have hkn : k ≤ n := by omega
      simp only [sumTo]
      rw [ih hkn (fun l h1 h2 => hz l h1 (by omega)), hz n hkn (Nat.lt_succ_self n), add_zero]

/-- The congruence `Uᴴ B U` of an upper-triangular `U`, restricted to the leading `k x k`
block, is the congruence of the leading blocks. -/
theorem congruence_leading {n k : Nat} (hk : k ≤ n) (U : Mat F) (B X : Nat → Nat → F)
    (htri : ∀ l j, j < l → U.get l j = 0) (hX : ∀ p l, p < k → l < k → X p l = B p l)
    {i j : Nat} (hi : i < k) (hj : j < k) :
    congruence k U X i j = congruence n U B i j := by
  simp only [congruence, timesU]
  rw [sumTo_truncate hk (fun l h1 _ => by rw [htri l i (by omega), star_zero, zero_mul])]
  apply sumTo_congr
  intro p hp
  rw [sumTo_truncate hk (fun l h1 _ => by rw [htri l j (by omega), mul_zero])]
  congr 1
  apply sumTo_congr
  intro l hl
  rw [hX p l hp hl]

/-- The state described by `LoopInvariant`, with the entries below the diagonal those of
the input, satisfies the invariant of the blocked recurrence with the inverses cleared. -/
theorem BlockInvariant_of_LoopInvariant {n k : Nat} (hk : k ≤ n) (U A0 A : Mat F)
    (B : Nat → Nat → F) (hA0h : A0.height = n) (hA0w : A0.width = n)
    (htri : ∀ l j, j < l → U.get l j = 0) (hB : ∀ i j, star (B i j) = B j i)
    (hcong : ∀ i, i < n → ∀ j, j < n → congruence n U B i j = hermEntry UPPER A0 i j)
    (hInv : LoopInvariant n U B k A) (hlow : ∀ i j, j < i → A.entry i j = A0.entry i j) :
    BlockInvariant n U A0 k A := by
  obtain ⟨hh, hw, hTL, hTR, hBR⟩ := hInv
  refine ⟨hh, hw, ?_, ?_, ?_⟩
  · intro i hi j hj
    rw [← hcong i (by omega) j (by omega)]
    refine congruence_leading hk U B _ htri ?_ hi hj
    intro p l hp hl
    simp only [hermEntry]
    by_cases hpl : p ≤ l
    · rw [if_pos hpl, get_of_lt (by omega) (by omega), hTL p l hpl hl]
    · rw [if_neg hpl, get_of_lt (by omega) (by omega), hTL l p (by omega) hp, hB]
  · intro i hi j hj hkj
    have h1 : A0.get i j = hermEntry UPPER A0 i j := by
      simp only [hermEntry, if_pos (by omega : i ≤ j)]
    rw [h1, ← hcong i (by omega) j hj]
    simp only [congruence]
    rw [sumTo_truncate hk (fun l h1 _ => by rw [htri l i (by omega), star_zero, zero_mul])]
    apply sumTo_congr
    intro p hp
    have hA : A.get p j = A.entry p j := get_of_lt (by omega) (by omega)
    rw [hA, hTR p j hp hkj hj]
  · intro i hi j hj hki hkj
    rw [get_of_lt (by omega) (by omega), get_of_lt (by omega) (by omega)]
    by_cases hij : i ≤ j
    · rw [hBR i j hki hij hj, hcong i hi j hj]
      simp only [hermEntry, if_pos hij]
      rw [get_of_lt (by omega) (by omega)]
    · exact hlow i j (by omega)

end BlockForm

end elem

namespace elem

open UnitOrNonUnit Orientation LeftOrRight UpperOrLower Finset

section InverseForm

variable {F : Type} [Field F] [StarRing F]

/-- The leading `k x k` block of an upper-triangular `U` with nonzero diagonal, and its
conjugate transpose, have invertible determinants. -/
theorem leading_block_unit (k : Nat) (U : Mat F)
    (htri : ∀ i, i < k → ∀ j, j < i → U.get i j = 0) (hUd : ∀ i, i < k → U.get i i ≠ 0) :
    IsUnit (Matrix.of fun (p q : Fin k) => U.get p q).det ∧
      IsUnit ((Matrix.of fun (p q : Fin k) => U.get p q).conjTranspose).det := by
  have hdet : (Matrix.of fun (p q : Fin k) => U.get p q).det ≠ 0 := by
    rw [Matrix.det_of_upperTriangular]
    · rw [Finset.prod_ne_zero_iff]
      intro i _
      exact hUd i i.isLt
    · intro i j hij
      exact htri i i.isLt j hij
  have hunit := isUnit_iff_ne_zero.mpr hdet
  refine ⟨hunit, ?_⟩
  rw [Matrix.det_conjTranspose]
  exact hunit.star

/-- The clause `ATR = U_TL⁻ᴴ A0_TR` of the invariant, and the same clause with the inverse
cleared, `U_TLᴴ ATR = A0_TR`. -/
theorem ATR_inverse_iff (n k : Nat) (U A0 A : Mat F)
    (htri : ∀ i, i < k → ∀ j, j < i → U.get i j = 0) (hUd : ∀ i, i < k → U.get i i ≠ 0) :
    Matrix.of (fun (i : Fin k) (j : Fin (n - k)) => A.get i (k + j)) =
        ((Matrix.of fun (p q : Fin k) => U.get p q).conjTranspose)⁻¹ *
          Matrix.of (fun (i : Fin k) (j : Fin (n - k)) => A0.get i (k + j)) ↔
      ∀ i, i < k → ∀ j, j < n → k ≤ j →
        sumTo k (fun p => star (U.get p i) * A.get p j) = A0.get i j := by
  obtain ⟨-, hunitH⟩ := leading_block_unit k U htri hUd
  have hentry : ∀ (i : Fin k) (j : Fin (n - k)),
      ((Matrix.of fun (p q : Fin k) => U.get p q).conjTranspose *
        Matrix.of (fun (i : Fin k) (j : Fin (n - k)) => A.get i (k + j))) i j =
      sumTo k (fun p => star (U.get p i) * A.get p (k + j)) := by
    intro i j
    rw [Matrix.mul_apply, sumTo_eq_sum, Finset.sum_range]
    rfl
  constructor
  · intro h i hi j hj hkj
    have h2 := congrArg (fun M =>
      ((Matrix.of fun (p q : Fin k) => U.get p q).conjTranspose * M) ⟨i, hi⟩
        ⟨j - k, by omega⟩) h
    simp only at h2
    rw [← Matrix.mul_assoc, Matrix.mul_nonsing_inv _ hunitH, Matrix.one_mul, hentry] at h2
    simp only [Matrix.of_apply, Nat.add_sub_cancel' hkj] at h2
    exact h2
  · intro h
    have hmul : (Matrix.of fun (p q : Fin k) => U.get p q).conjTranspose *
        Matrix.of (fun (i : Fin k) (j : Fin (n - k)) => A.get i (k + j)) =
        Matrix.of (fun (i : Fin k) (j : Fin (n - k)) => A0.get i (k + j)) := by
      ext i j
      rw [hentry, h i i.isLt (k + j) (by omega) (by omega)]
      rfl
    rw [← hmul, ← Matrix.mul_assoc, Matrix.nonsing_inv_mul _ hunitH, Matrix.one_mul]

/-- The invariant with the inverses cleared gives the invariant as the specification states
it: the upper triangle of `ATL` is that of `U_TL⁻ᴴ A0_TL U_TL⁻¹` (`A0_TL` Hermitian as
stored in its upper triangle), `ATR = U_TL⁻ᴴ A0_TR`, and `ABR` holds `A0_BR`. -/
theorem BlockInvariant_inverse_form (n k : Nat) (U A0 A : Mat F)
    (htri : ∀ i, i < k → ∀ j, j < i → U.get i j = 0) (hUd : ∀ i, i < k → U.get i i ≠ 0)
    (hInv : BlockInvariant n U A0 k A) :
    (∀ i j : Fin k, i ≤ j → A.get i j =
        (((Matrix.of fun (p q : Fin k) => U.get p q).conjTranspose)⁻¹ *
          (Matrix.of fun (p q : Fin k) => hermEntry UPPER A0 p q) *
          (Matrix.of fun (p q : Fin k) => U.get p q)⁻¹) i j) ∧
      Matrix.of (fun (i : Fin k) (j : Fin (n - k)) => A.get i (k + j)) =
        ((Matrix.of fun (p q : Fin k) => U.get p q).conjTranspose)⁻¹ *
          Matrix.of (fun (i : Fin k) (j : Fin (n - k)) => A0.get i (k + j)) ∧
      (∀ i, i < n → ∀ j, j < n → k ≤ i → k ≤ j → A.get i j = A0.get i j) := by
  obtain ⟨-, -, hTL, hTR, hBR⟩ := hInv
  obtain ⟨hunit, hunitH⟩ := leading_block_unit k U htri hUd
  refine ⟨?_, (ATR_inverse_iff n k U A0 A htri hUd).mpr hTR, hBR⟩
  have hX : (Matrix.of fun (p q : Fin k) => U.get p q).conjTranspose *
      ((Matrix.of fun (p q : Fin k) => hermEntry UPPER A p q) *
        (Matrix.of fun (p q : Fin k) => U.get p q)) =
      Matrix.of fun (p q : Fin k) => hermEntry UPPER A0 p q := by
    ext i j
    rw [Matrix.mul_apply]
    simp only [Matrix.mul_apply, Matrix.of_apply, Matrix.conjTranspose_apply]
    rw [← hTL i i.isLt j j.isLt]
    simp only [congruence, timesU, sumTo_eq_sum]
    rw [Finset.sum_range]
    apply Finset.sum_congr rfl
    intro p _
    rw [Finset.sum_range]
  intro i j hij
  have hsolve : (Matrix.of fun (p q : Fin k) => hermEntry UPPER A p q) =
      ((Matrix.of fun (p q : Fin k) => U.get p q).conjTranspose)⁻¹ *
        (Matrix.of fun (p q : Fin k) => hermEntry UPPER A0 p q) *
        (Matrix.of fun (p q : Fin k) => U.get p q)⁻¹ := by
    rw [← hX, ← Matrix.mul_assoc, Matrix.nonsing_inv_mul _ hunitH, Matrix.one_mul,
      Matrix.mul_assoc, Matrix.mul_nonsing_inv _ hunit, Matrix.mul_one]
  rw [← hsolve]
  have hij2 : (i : Nat) ≤ j := hij
  simp only [Matrix.of_apply, hermEntry, if_pos hij2]

end InverseForm

section DistInvariant

variable {F : Type} [Field F] [StarRing F]

/-- The distributed loop keeps the invariant of the blocked recurrence. For an `n x n`
input `A0` with self-adjoint diagonal and an `n x n` upper-triangular `U` with nonzero
diagonal there is a predicate on the cut and the matrix that holds for `A0` at the cut `0`,
is carried by every pass from the cut `k` to the cut `k + min bs (n - k)`, and gives the
invariant at every cut; and the matrix the loop returns satisfies the invariant at the cut
`n`. -/
theorem dist_block_invariant (n bs : Nat) (A0 U : Mat F) (hAh : A0.height = n)
    (hAw : A0.width = n) (hUh : U.height = n) (hUw : U.width = n)
    (hAd : ∀ i, i < n → star (A0.get i i) = A0.get i i)
    (htri : ∀ i, i < n → ∀ j, j < i → U.get i j = 0) (hUd : ∀ i, i < n → U.get i i ≠ 0) :
    ∃ P : Nat → Mat F → Prop, P 0 A0 ∧
      (∀ k A, k < n → P k A →
        P (k + min bs (n - k)) (distIteration NON_UNIT bs A U k k)) ∧
      (∀ k A, P k A → k ≤ n ∧ BlockInvariant n U A0 k A) ∧
      (1 ≤ bs → ∀ fuel, n ≤ fuel →
        ∃ R, distLoop NON_UNIT bs U fuel A0 0 0 = some R ∧ BlockInvariant n U A0 n R) := by
  obtain ⟨B, hB, hcong, -⟩ := exists_target n A0 U hAd htri hUd
  have htri2 : ∀ l j, j < l → U.get l j = 0 := by
    intro l j hjl
    by_cases hl : l < n
    · exact htri l hl j hjl
    · exact get_of_not_lt (by rw [hUh]; exact fun h => hl h.1)
  have hgive : ∀ k A, (k ≤ n ∧ LoopInvariant n U B k A ∧
      ∀ i j, j < i → A.entry i j = A0.entry i j) → k ≤ n ∧ BlockInvariant n U A0 k A :=
    fun k A h => ⟨h.1, BlockInvariant_of_LoopInvariant h.1 U A0 A B hAh hAw htri2 hB hcong
      h.2.1 h.2.2⟩
  have hstep : ∀ k A, k < n → (k ≤ n ∧ LoopInvariant n U B k A ∧
      ∀ i j, j < i → A.entry i j = A0.entry i j) →
      (k + min bs (n - k) ≤ n ∧
        LoopInvariant n U B (k + min bs (n - k)) (distIteration NON_UNIT bs A U k k) ∧
        ∀ i j, j < i → (distIteration NON_UNIT bs A U k k).entry i j = A0.entry i j) := by
    intro k A hk h
    have hb : min bs (n - k) ≤ n - k := Nat.min_le_right _ _
    refine ⟨by omega, distIteration_invariant bs A U B hUh hUw htri2 hUd hB k hk h.2.1, ?_⟩
    intro i j hji
    rw [(iteration_frame NON_UNIT bs A U h.2.1.1 h.2.1.2.1 hUh hUw k h.1 i j
      (by omega)).2]
    exact h.2.2 i j hji
  have h0 : 0 ≤ n ∧ LoopInvariant n U B 0 A0 ∧
      ∀ i j, j < i → A0.entry i j = A0.entry i j := by
    refine ⟨Nat.zero_le n, ⟨hAh, hAw, ?_, ?_, ?_⟩, fun _ _ _ => rfl⟩
    · intro i j _ hj
      omega
    · intro i j hi
      omega
    · intro i j _ hij hj
      rw [hcong i (by omega) j hj]
      simp only [hermEntry, if_pos hij]
      rw [get_of_lt (by omega) (by omega)]
  refine ⟨fun k A => k ≤ n ∧ LoopInvariant n U B k A ∧
    ∀ i j, j < i → A.entry i j = A0.entry i j, h0, hstep, hgive, ?_⟩
  intro hbs fuel hfuel
  obtain ⟨R, hR, hP⟩ := loop_rule hbs U hUh hUw (distLoop NON_UNIT bs U)
    (fun A cA cU => distIteration NON_UNIT bs A U cA cU)
    (distLoop_zero NON_UNIT bs U) (distLoop_succ NON_UNIT bs U)
    (fun k A => k ≤ n ∧ LoopInvariant n U B k A ∧
      ∀ i j, j < i → A.entry i j = A0.entry i j)
    (fun _ _ h => ⟨h.2.1.1, h.2.1.2.1⟩) hstep fuel 0 A0 (Nat.zero_le n) (by omega) h0
  exact ⟨R, hR, (hgive n R hP).2⟩

end DistInvariant

end elem

namespace elem

open UnitOrNonUnit Orientation LeftOrRight UpperOrLower Finset

/-- C16, failing input: on the 6 x 6 symmetric `A0 = E(0,5) + E(5,0)` and the unit
upper-triangular `U = I + E(0,2)`, block size 2, the sequential loop reaches the top of the
pass with cut 4 after two passes, in a state `S` with `S(2,5) = 0` and `S(3,4) = -1`. The
invariant holds at the cuts 0 and 2 and fails at the cut 4: `U_TLᴴ ATR` has `1` at `(2,5)`
where `A0` has `0`, so `ATR` is not `U_TL⁻ᴴ A0_TR`. The distributed loop reaches the cut 4
in a state that satisfies the invariant. -/
theorem seq_loop_invariant_fails :
    ((∀ i, i < 6 → ∀ j, j < 6 → star (exampleH6.get i j) = exampleH6.get j i) ∧
        (∀ i, i < 6 → ∀ j, j < i → exampleU6.get i j = 0) ∧
        (∀ i, i < 6 → exampleU6.get i i = 1)) ∧
      ((∀ fuel, seqLoop NON_UNIT 2 exampleU6 (fuel + 2) exampleH6 0 0 =
          seqLoop NON_UNIT 2 exampleU6 fuel
            (seqIteration NON_UNIT 2 (seqIteration NON_UNIT 2 exampleH6 exampleU6 0 0)
              exampleU6 2 2) 4 4) ∧
        4 < (seqIteration NON_UNIT 2 (seqIteration NON_UNIT 2 exampleH6 exampleU6 0 0)
          exampleU6 2 2).height) ∧
      (BlockInvariant 6 exampleU6 exampleH6 0 exampleH6 ∧
        BlockInvariant 6 exampleU6 exampleH6 2
          (seqIteration NON_UNIT 2 exampleH6 exampleU6 0 0)) ∧
      ((seqIteration NON_UNIT 2 (seqIteration NON_UNIT 2 exampleH6 exampleU6 0 0)
            exampleU6 2 2).entry 2 5 = 0 ∧
        (seqIteration NON_UNIT 2 (seqIteration NON_UNIT 2 exampleH6 exampleU6 0 0)
            exampleU6 2 2).entry 3 4 = -1 ∧
        sumTo 4 (fun p => star (exampleU6.get p 2) *
          (seqIteration NON_UNIT 2 (seqIteration NON_UNIT 2 exampleH6 exampleU6 0 0)
            exampleU6 2 2).get p 5) = 1 ∧
        exampleH6.get 2 5 = 0) ∧
      ¬ BlockInvariant 6 exampleU6 exampleH6 4
        (seqIteration NON_UNIT 2 (seqIteration NON_UNIT 2 exampleH6 exampleU6 0 0)
          exampleU6 2 2) ∧
      Matrix.of (fun (i : Fin 4) (j : Fin (6 - 4)) =>
          (seqIteration NON_UNIT 2 (seqIteration NON_UNIT 2 exampleH6 exampleU6 0 0)
            exampleU6 2 2).get i (4 + j)) ≠
        ((Matrix.of fun (p q : Fin 4) => exampleU6.get p q).conjTranspose)⁻¹ *
          Matrix.of (fun (i : Fin 4) (j : Fin (6 - 4)) => exampleH6.get i (4 + j)) ∧
      ((∀ fuel, distLoop NON_UNIT 2 exampleU6 (fuel + 2) exampleH6 0 0 =
          distLoop NON_UNIT 2 exampleU6 fuel
            (distIteration NON_UNIT 2 (distIteration NON_UNIT 2 exampleH6 exampleU6 0 0)
              exampleU6 2 2) 4 4) ∧
        BlockInvariant 6 exampleU6 exampleH6 4
          (distIteration NON_UNIT 2 (distIteration NON_UNIT 2 exampleH6 exampleU6 0 0)
            exampleU6 2 2)) :=
  ⟨⟨by decide!, by decide!, by decide!⟩,
    ⟨fun _ => rfl, by decide⟩,
    ⟨by unfold BlockInvariant; decide!, by unfold BlockInvariant; decide!⟩,
    ⟨by decide!, by decide!, by decide!, by decide!⟩,
    by unfold BlockInvariant; decide!,
    fun h => absurd
      ((ATR_inverse_iff 6 4 exampleU6 exampleH6 _ (by decide!) (by decide!)).mp h 2
        (by decide) 5 (by decide) (by decide))
      (by decide!),
    ⟨fun _ => rfl, by unfold BlockInvariant; decide!⟩⟩

end elem
